import Mathlib

/-!
# steptest: a shallow embedding of the job parser and the job runner

Go strings are lists of characters, Go maps are association lists (one entry per
key, iterated in list order; theorems about iteration order quantify over
permutations), Go slices whose spare capacity is observable (`job.globalHeaders`,
`forloop.values`, the values of `job.arrays`) carry the cells of their backing
array beyond the length, and runtime panics are an explicit outcome.
Wall-clock fields (`StartTime`, `Duration`) are left out.

What the standard library decides (JSON decoding, `http.NewRequest` validation,
the regular-expression engine on user patterns, header canonicalisation, slice
growth) is a field of `Lib`.
-/

namespace Steptest

/-- A Go string. -/
abbrev Str := List Char

/-! ## package strings -/

/-- Scanner behind `strings.Replace(s, old, new, -1)` for a non-empty `old`:
`skip` counts the characters of a match that are still to be dropped. -/
def replaceGo (old new : Str) : Nat → Str → Str
  | _, [] => []
  | skip + 1, _ :: s => replaceGo old new skip s
  | 0, c :: s =>
    if old.isPrefixOf (c :: s) then new ++ replaceGo old new (old.length - 1) s
    else c :: replaceGo old new 0 s

/-- The call `strings.Replace(s, old, new, -1)`: every non-overlapping occurrence,
found left to right; an empty `old` matches before every character and at the end. -/
def replaceAll (s old new : Str) : Str :=
  match old with
  | [] => new ++ s.flatMap (fun c => c :: new)
  | _ :: _ => replaceGo old new 0 s

/-- The call `strings.Contains(s, sub)`. -/
def containsStr : Str → Str → Bool
  | [], sub => sub.isEmpty
  | c :: s, sub => sub.isPrefixOf (c :: s) || containsStr s sub

/-- The call `fmt.Sprintf(replaceVarSyntax, n)`, that is `{{n}}`. -/
def placeholder (n : Str) : Str := '{' :: '{' :: (n ++ ['}', '}'])

/-! ## Data model (structs.go) -/

/-- A slice together with the cells of its backing array beyond its length. -/
structure Slice (α : Type) where
  vis : List α
  spare : List α
deriving DecidableEq, Repr

/-- The backing array of a slice that starts at offset 0. -/
def Slice.arr {α : Type} (s : Slice α) : List α := s.vis ++ s.spare

/-- The capacity of a slice. -/
def Slice.cap {α : Type} (s : Slice α) : Nat := s.vis.length + s.spare.length

/-- The slice of length `n` over the backing array `a`. -/
def Slice.ofArr {α : Type} (a : List α) (n : Nat) : Slice α := ⟨a.take n, a.drop n⟩

/-- The nil slice. -/
def Slice.nil {α : Type} : Slice α := ⟨[], []⟩

structure Header where
  name : Str
  value : Str
deriving DecidableEq, Repr

structure Auth where
  username : Str
  password : Str
deriving DecidableEq, Repr

/-- The fields of `http.Cookie` the program reads or writes. -/
structure Cookie where
  name : Str
  value : Str
  path : Str
  domain : Str
  expires : Str
  maxAge : Int
  secure : Bool
  httpOnly : Bool
deriving DecidableEq, Repr

structure VarfromItem where
  from_ : Str
  varname : Str
  orgSyntax : Str
  syntaxRe : Str
deriving DecidableEq, Repr

structure Condition where
  type : Str
  var1 : Str
  var2 : Str
deriving DecidableEq, Repr

/-- A step stored in `forloop.steps`. `addStepToForLoop` clears the `forloop` field
before it stores a step and `deepCopyStep` drops it, so the field is not kept. -/
structure InnerStep where
  method : Str
  headers : List Header
  conditions : List Condition
  cookies : List Cookie
  auth : Auth
  url : Str
  body : Str
  varfrom : List VarfromItem
deriving DecidableEq, Repr

structure Forloop where
  varname : Str
  values : Slice Str
  steps : List InnerStep
deriving DecidableEq, Repr

structure Step where
  method : Str
  headers : List Header
  forloop : Forloop
  conditions : List Condition
  cookies : List Cookie
  auth : Auth
  url : Str
  body : Str
  varfrom : List VarfromItem
deriving DecidableEq, Repr

/-- A `map[string]string`, one entry per key. -/
abbrev Vars := List (Str × Str)

/-- A `map[string][]string`, one entry per key. -/
abbrev Arrays := List (Str × Slice Str)

structure Job where
  steps : List Step
  vars : Vars
  arrays : Arrays
  globalHeaders : Slice Header
  globalAuth : Auth
  cookies : List Cookie
  forcounter : Int
  forRemoveNextStep : Bool
  addTo : List Nat
deriving DecidableEq, Repr

structure ResultStep where
  status : Int
  method : Str
  url : Str
  headers : List Header
  cookies : List Cookie
  body : Str
deriving DecidableEq, Repr

/-- The `error` wrapped by a `ResultError`, by the place that made it. -/
inductive FetchError where
  | creating (e : Str)
  | sending (e : Str)
  | httpStatus (code : Int) (method url : Str)
  | regexpCompile (e : Str)
  | readBody (e : Str)
deriving DecidableEq, Repr

structure ResultError where
  error : FetchError
  url : Str
  status : Int
  body : Str
  step : Option ResultStep
deriving DecidableEq, Repr

structure Result where
  status : Int
  steps : List ResultStep
  err : Option ResultError
deriving DecidableEq, Repr

/-! ## The standard library and the transport -/

/-- An `*http.Request` as the transport sees it: method, URL, body and the header
map (`http.Header` after `Set`, one value per canonical key). -/
structure Request where
  method : Str
  url : Str
  body : Str
  header : List (Str × Str)
deriving DecidableEq, Repr

/-- An `*http.Response`: status code, `res.Cookies()`, the header map and the
outcome of `ioutil.ReadAll(res.Body)`. -/
structure Response where
  statusCode : Int
  cookies : List Cookie
  header : List (Str × Str)
  body : Except Str Str

/-- The transport `func(*http.Request) (*http.Response, error)`. It may keep state:
its answer depends on the requests it has served before, oldest first. -/
abbrev Transport := List Request → Request → Except Str Response

/-- What the Go standard library and runtime decide. -/
structure Lib where
  /-- The error of `http.NewRequest(method, url, body)`, if any. -/
  newRequestErr : Str → Str → Option Str
  /-- The function `textproto.CanonicalMIMEHeaderKey`. -/
  canonicalKey : Str → Str
  /-- The `Authorization` value `SetBasicAuth` writes for a user and password. -/
  basicAuth : Str → Str → Str
  /-- The `name=value` text `AddCookie` writes for a cookie. -/
  cookieText : Cookie → Str
  /-- `regexp.Compile(pattern)` followed by `Find(text)`: a compile error, no match,
  or the leftmost match. -/
  regexpFind : Str → Str → Except Str (Option Str)
  /-- `json.Unmarshal` into a `[]string`. -/
  jsonStrings : Str → Option (List Str)
  /-- `json.Unmarshal` into a `variable`: name and value. -/
  jsonVariable : Str → Option (Str × Str)
  /-- `json.Unmarshal` into an `array`: name and values. -/
  jsonArray : Str → Option (Str × List Str)
  /-- `json.Unmarshal` into a `varfromItem`: from, name and find. -/
  jsonVarfrom : Str → Option (Str × Str × Str)
  /-- `json.Unmarshal` into a `cookie`. -/
  jsonCookie : Str → Option Cookie
  /-- `json.Unmarshal` into a `header`. -/
  jsonHeader : Str → Option Header
  /-- `json.Unmarshal` into an `auth`. -/
  jsonAuth : Str → Option Auth
  /-- `json.Unmarshal` into a `condition`. -/
  jsonCondition : Str → Option Condition
  /-- Spare capacity of the slice `json.Unmarshal` allocates for a decoded list. -/
  jsonSpare : List Str → Nat
  /-- The capacity `append` picks when a slice of capacity `old` must hold `need`. -/
  growCap : Nat → Nat → Nat

/-! ## Maps -/

/-- The lookup `m[k]` with its `ok` flag. -/
def lookup {β : Type} (m : List (Str × β)) (k : Str) : Option β :=
  (m.find? (fun e => e.1 == k)).map Prod.snd

/-- The assignment `m[k] = v`. -/
def assign {β : Type} : List (Str × β) → Str → β → List (Str × β)
  | [], k, v => [(k, v)]
  | e :: m, k, v => if e.1 == k then (k, v) :: m else e :: assign m k v

/-! ## Slices -/

/-- The call `append(s, xs...)`: in place when the spare capacity suffices (the flag
is then `true`), into a fresh array otherwise. -/
def appendSlice {α : Type} (L : Lib) (zero : α) (s : Slice α) (xs : List α) : Slice α × Bool :=
  if xs.length ≤ s.spare.length then (⟨s.vis ++ xs, s.spare.drop xs.length⟩, true)
  else
    let need := s.vis.length + xs.length
    (⟨s.vis ++ xs, List.replicate (max need (L.growCap s.cap need) - need) zero⟩, false)

/-! ## check_conditions.go -/

/-- Source: `checkConditions`. -/
def checkConditions (j : Job) (s : InnerStep) : Bool :=
  if s.conditions.length = 0 then true
  else s.conditions.any (fun c => c.type == "exists".toList && (lookup j.vars c.var1).isSome)

/-! ## replace_from_vars.go -/

/-- Source: `varReplaceURL`. -/
def varReplaceURL (s : InnerStep) (n v : Str) : InnerStep :=
  { s with url := replaceAll s.url (placeholder n) v }

/-- Source: `varReplaceBody`. -/
def varReplaceBody (s : InnerStep) (n v : Str) : InnerStep :=
  { s with body := replaceAll s.body (placeholder n) v }

/-- Source: `varReplaceHeaders`. -/
def varReplaceHeaders (s : InnerStep) (n v : Str) : InnerStep :=
  { s with headers := s.headers.map (fun h => { h with value := replaceAll h.value (placeholder n) v }) }

/-- Source: `varReplaceCookies`. -/
def varReplaceCookies (s : InnerStep) (n v : Str) : InnerStep :=
  { s with cookies := s.cookies.map (fun c => { c with value := replaceAll c.value (placeholder n) v }) }

/-- The body of the loop over `j.vars` in `replaceFromVariables`. -/
def varReplaceAll (s : InnerStep) (e : Str × Str) : InnerStep :=
  varReplaceCookies (varReplaceHeaders (varReplaceBody (varReplaceURL s e.1 e.2) e.1 e.2) e.1 e.2) e.1 e.2

/-- Source: `replaceFromVariables`. `order` is the order in which the map `j.vars` is
iterated. When `append(j.globalHeaders, s.headers...)` stays in the backing array
of `j.globalHeaders`, the replaced header values are written through to it. -/
def replaceFromVariablesIn (L : Lib) (order : Vars) (j : Job) (s : InnerStep) : Job × InnerStep :=
  let g := j.globalHeaders
  let (hs, inPlace) := appendSlice L (⟨[], []⟩ : Header) g s.headers
  let s1 : InnerStep := { s with headers := hs.vis, cookies := [] ++ j.cookies }
  let s2 := order.foldl varReplaceAll s1
  let j2 : Job :=
    if inPlace then
      { j with globalHeaders := ⟨s2.headers.take g.vis.length, s2.headers.drop g.vis.length ++ hs.spare⟩ }
    else j
  (j2, s2)

/-- Source: `replaceFromVariables`, the map iterated in list order. -/
def replaceFromVariables (L : Lib) (j : Job) (s : InnerStep) : Job × InnerStep :=
  replaceFromVariablesIn L j.vars j s

/-- Source: `replaceForLoopArray`. The range runs over the values the loop had on
entry; every hit assigns the slice `v` itself, which the result then shares with
`j.arrays[n]` (the flag). -/
def replaceForLoopArray (values : Slice Str) (n : Str) (v : Slice Str) : Slice Str × Bool :=
  if values.vis.any (fun storedValue => containsStr storedValue (placeholder n)) then (v, true)
  else (values, false)

/-- State of the range loop of `replaceForLoopStrings`: `a0` is the backing array the
range reads, `cur` the current `s.forloop.values`, `onA0` whether `cur` still lives
in `a0`, `panicked` whether an index or slice bound was out of range. -/
structure LoopState where
  a0 : List Str
  cur : Slice Str
  onA0 : Bool
  panicked : Bool
deriving DecidableEq, Repr

/-- One iteration `i` of the range loop of `replaceForLoopStrings`. -/
def replaceForLoopStringsAt (L : Lib) (n v : Str) (st : LoopState) (i : Nat) : LoopState :=
  if st.panicked then st
  else if containsStr (st.a0.getD i []) (placeholder n) then
    match L.jsonStrings v with
    | none =>
      -- s.forloop.values[i] = *v
      if i < st.cur.vis.length then
        { st with cur := { st.cur with vis := st.cur.vis.set i v },
                  a0 := if st.onA0 then st.a0.set i v else st.a0 }
      else { st with panicked := true }
    | some xs =>
      -- *arr = append(s.forloop.values[:i], *arr...)
      if st.cur.cap < i then { st with panicked := true }
      else
        let (t, inPlace1) := appendSlice L [] (Slice.ofArr st.cur.arr i) xs
        let a1 := if st.onA0 && inPlace1 then t.arr else st.a0
        -- s.forloop.values = append(*arr, s.forloop.values[i+1:]...)
        if st.cur.vis.length < i + 1 then { st with a0 := a1, panicked := true }
        else
          let old := if inPlace1 then t.arr else st.cur.arr
          let rest := (old.take st.cur.vis.length).drop (i + 1)
          let (r, inPlace2) := appendSlice L [] t rest
          { a0 := if st.onA0 && inPlace1 && inPlace2 then r.arr else a1,
            cur := r, onA0 := st.onA0 && inPlace1 && inPlace2, panicked := false }
  else st

/-- Source: `replaceForLoopStrings`: the range covers the indices of the values on
entry and reads each `storedValue` from the array it started on. -/
def replaceForLoopStrings (L : Lib) (values : Slice Str) (n v : Str) : LoopState :=
  (List.range values.vis.length).foldl (replaceForLoopStringsAt L n v)
    { a0 := values.arr, cur := values, onA0 := true, panicked := false }

/-- State of `replaceFromVariablesForLoop`: the job arrays, the loop values, the key
of the array whose backing array the values share, and the panic flag. -/
structure ForState where
  arrays : Arrays
  values : Slice Str
  shared : Option Str
  panicked : Bool
deriving DecidableEq, Repr

/-- The first loop of `replaceFromVariablesForLoop`, one array. -/
def forArrayStep (fs : ForState) (e : Str × Slice Str) : ForState :=
  let (vals, hit) := replaceForLoopArray fs.values e.1 e.2
  if hit then { fs with values := vals, shared := some e.1 } else fs

/-- The second loop of `replaceFromVariablesForLoop`, one variable: what was written
into the array the values shared with `j.arrays` is written back to that entry,
which keeps its own length. -/
def forStringStep (L : Lib) (fs : ForState) (e : Str × Str) : ForState :=
  if fs.panicked then fs
  else
    let st := replaceForLoopStrings L fs.values e.1 e.2
    let arrays := match fs.shared with
      | none => fs.arrays
      | some m =>
        match lookup fs.arrays m with
        | none => fs.arrays
        | some a => assign fs.arrays m (Slice.ofArr st.a0 a.vis.length)
    { arrays := arrays, values := st.cur,
      shared := if st.onA0 then fs.shared else none, panicked := st.panicked }

/-- Source: `replaceFromVariablesForLoop` on the loop container `s`: the new job, the
new container and whether the call panicked. -/
def replaceFromVariablesForLoop (L : Lib) (j : Job) (s : Step) : Job × Step × Bool :=
  let fs0 : ForState := { arrays := j.arrays, values := s.forloop.values, shared := none, panicked := false }
  let fs1 := j.arrays.foldl forArrayStep fs0
  let fs2 := j.vars.foldl (forStringStep L) fs1
  ({ j with arrays := fs2.arrays }, { s with forloop := { s.forloop with values := fs2.values } }, fs2.panicked)

/-! ## add_options.go -/

/-- The method `http.Header.Set`. -/
def headerSet (L : Lib) (h : List (Str × Str)) (k v : Str) : List (Str × Str) :=
  assign h (L.canonicalKey k) v

/-- The method `http.Header.Get`. -/
def headerGet (L : Lib) (h : List (Str × Str)) (k : Str) : Str :=
  (lookup h (L.canonicalKey k)).getD []

/-- The fixed User-Agent of `setUserAgent`. -/
def userAgent : Str :=
  "Mozilla/5.0 (Macintosh; Intel Mac OS X 10_13_3) AppleWebKit/537.36 (KHTML, like Gecko) Chrome/64.0.3282.186 Safari/537.36".toList

/-- Source: `setUserAgent`. -/
def setUserAgent (L : Lib) (req : Request) : Request :=
  { req with header := headerSet L req.header "User-Agent".toList userAgent }

/-- The method `(*http.Request).SetBasicAuth`. -/
def setBasicAuth (L : Lib) (req : Request) (u p : Str) : Request :=
  { req with header := headerSet L req.header "Authorization".toList (L.basicAuth u p) }

/-- Source: `addBasicAuth`. -/
def addBasicAuth (L : Lib) (j : Job) (s : InnerStep) (req : Request) : Request :=
  if s.auth.username ≠ [] ∧ s.auth.password ≠ [] then setBasicAuth L req s.auth.username s.auth.password
  else if j.globalAuth.username ≠ [] ∧ j.globalAuth.password ≠ [] then
    setBasicAuth L req j.globalAuth.username j.globalAuth.password
  else req

/-- Source: `addHeaders`. -/
def addHeaders (L : Lib) (s : InnerStep) (req : Request) : Request :=
  s.headers.foldl (fun r h => { r with header := headerSet L r.header h.name h.value }) req

/-- The method `(*http.Request).AddCookie`. -/
def addCookie (L : Lib) (req : Request) (c : Cookie) : Request :=
  let old := headerGet L req.header "Cookie".toList
  if old ≠ [] then { req with header := headerSet L req.header "Cookie".toList (old ++ "; ".toList ++ L.cookieText c) }
  else { req with header := headerSet L req.header "Cookie".toList (L.cookieText c) }

/-- Source: `addCookies`. -/
def addCookies (L : Lib) (s : InnerStep) (req : Request) : Request :=
  s.cookies.foldl (addCookie L) req

/-- Source: `addOptions`. -/
def addOptions (L : Lib) (j : Job) (s : InnerStep) (req : Request) : Request :=
  addCookies L s (addHeaders L s (addBasicAuth L j s (setUserAgent L req)))

/-- Source: `compareCookie`. -/
def compareCookie (c1 c2 : Cookie) : Bool :=
  c1.name == c2.name && c1.domain == c2.domain && c1.path == c2.path

/-- The inner loop of `appendResponseCookiesToJob` for one response cookie: the job
cookies after the loop and the value `exists` holds when the loop ends. `exists`
is assigned at every index, so it ends as the comparison with the last entry. -/
def updateCookies (cookie : Cookie) : List Cookie → Bool → List Cookie × Bool
  | [], ex => ([], ex)
  | c :: cs, _ =>
    let ex := compareCookie cookie c
    let c2 := if ex then { c with value := cookie.value } else c
    let (cs2, last) := updateCookies cookie cs ex
    (c2 :: cs2, last)

/-- Source: `appendResponseCookiesToJob`, on the job cookies. -/
def appendResponseCookies (jobCookies responseCookies : List Cookie) : List Cookie :=
  responseCookies.foldl (fun cs cookie =>
    let (cs2, ex) := updateCookies cookie cs false
    if !ex then cs2 ++ [cookie] else cs2) jobCookies

/-- Source: `appendResponseCookiesToJob`. -/
def appendResponseCookiesToJob (j : Job) (res : Response) : Job :=
  { j with cookies := appendResponseCookies j.cookies res.cookies }

/-! ## set_var_from.go -/

/-- The constant `searchSyntax`. -/
def searchSyntax : Str := placeholder "StepTestSyntax".toList

/-- Scanner behind `strings.Split(s, sep)` for a non-empty `sep`: `acc` is the piece
being read, reversed, `skip` the characters of a separator still to be dropped. -/
def splitGo (sep : Str) : Nat → Str → Str → List Str
  | _, acc, [] => [acc.reverse]
  | skip + 1, acc, _ :: s => splitGo sep skip acc s
  | 0, acc, c :: s =>
    if sep.isPrefixOf (c :: s) then acc.reverse :: splitGo sep (sep.length - 1) [] s
    else splitGo sep 0 (c :: acc) s

/-- The call `strings.Split(s, sep)`; an empty `sep` splits after every character. -/
def splitStr (s sep : Str) : List Str :=
  match sep with
  | [] => s.map (fun c => [c])
  | _ :: _ => splitGo sep 0 [] s

/-- Source: `variableFromHeader`. -/
def variableFromHeader (L : Lib) (j : Job) (v : VarfromItem) (header : List (Str × Str)) : Job :=
  let value := headerGet L header v.orgSyntax
  if value = [] then j else { j with vars := assign j.vars v.varname value }

/-- Source: `variableFromBody`. -/
def variableFromBody (L : Lib) (j : Job) (v : VarfromItem) (raw : Str) : Except FetchError Job :=
  match L.regexpFind v.syntaxRe raw with
  | .error e => .error (.regexpCompile e)
  | .ok m =>
    let value := m.getD []
    if value = [] then .ok j
    else
      let parts := splitStr v.orgSyntax searchSyntax
      let value := parts.foldl (fun value part => replaceAll value part []) value
      .ok { j with vars := assign j.vars v.varname value }

/-- The loop of `variablesFrom` over `s.varfrom`. `strings.ToUpper` is compared with
ASCII words only, so upper-casing the ASCII letters decides the same cases. An
error leaves the variables set before it in place; the job is returned next to it. -/
def variablesFromJob (L : Lib) (raw : Str) (header : List (Str × Str)) : Job → List VarfromItem → Job × Option FetchError
  | j, [] => (j, none)
  | j, v :: vs =>
    if v.from_.map Char.toUpper = "BODY".toList then
      match variableFromBody L j v raw with
      | .error e => (j, some e)
      | .ok j2 => variablesFromJob L raw header j2 vs
    else if v.from_.map Char.toUpper = "HEADER".toList then
      variablesFromJob L raw header (variableFromHeader L j v header) vs
    else variablesFromJob L raw header j vs

/-- Source: `variablesFrom`. -/
def variablesFrom (L : Lib) (j : Job) (s : InnerStep) (res : Response) : Job × Option FetchError :=
  if s.varfrom.length = 0 then (j, none)
  else
    match res.body with
    | .error e => (j, some (.readBody e))
    | .ok raw => variablesFromJob L raw res.header j s.varfrom

/-! ## jobs_run.go -/

/-- What one call leaves behind: the job and the requests handed to the transport so
far, oldest first. -/
structure World where
  job : Job
  log : List Request
deriving DecidableEq, Repr

/-- Source: `fetchStep`: status, error, the step as the call leaves it, and the world. -/
def fetchStep (L : Lib) (c : Transport) (w : World) (s : InnerStep) : Int × Option ResultError × InnerStep × World :=
  if !checkConditions w.job s then (0, none, s, w)
  else
    let (j1, s1) := replaceFromVariables L w.job s
    match L.newRequestErr s1.method s1.url with
    | some e => (-1, some ⟨.creating e, [], 0, [], none⟩, s1, ⟨j1, w.log⟩)
    | none =>
      let req := addOptions L j1 s1 ⟨s1.method, s1.url, s1.body, []⟩
      let log := w.log ++ [req]
      match c w.log req with
      | .error e => (-1, some ⟨.sending e, [], 0, [], none⟩, s1, ⟨j1, log⟩)
      | .ok res =>
        if res.statusCode > 399 then
          let body := match res.body with
            | .error _ => []
            | .ok b => b
          (res.statusCode, some ⟨.httpStatus res.statusCode s1.method s1.url, s1.url, res.statusCode, body, none⟩,
            s1, ⟨j1, log⟩)
        else
          let j2 := appendResponseCookiesToJob j1 res
          match variablesFrom L j2 s1 res with
          | (j3, some e) => (-1, some ⟨e, [], 0, [], none⟩, s1, ⟨j3, log⟩)
          | (j3, none) => (res.statusCode, none, s1, ⟨j3, log⟩)

/-- The zero `ResultStep`. -/
def ResultStep.zero : ResultStep := ⟨0, [], [], [], [], []⟩

/-- Source: `runFetchJob`. -/
def runFetchJob (L : Lib) (c : Transport) (w : World) (s : InnerStep) :
    ResultStep × Option ResultError × InnerStep × World :=
  if s.url = [] then (ResultStep.zero, none, s, w)
  else
    let (status, err, s1, w1) := fetchStep L c w s
    let res : ResultStep :=
      { method := s1.method, url := s1.url, headers := s1.headers, cookies := s1.cookies,
        body := s1.body, status := status }
    match err with
    | some e => (res, some { e with step := some res }, s1, w1)
    | none => (res, none, s1, w1)

/-- Source: `deepCopyStep`. -/
def deepCopyStep (s : InnerStep) : InnerStep :=
  { method := s.method, auth := s.auth, url := s.url, body := s.body,
    conditions := s.conditions.foldl (fun acc i => acc ++ [i]) [],
    varfrom := s.varfrom.foldl (fun acc v => acc ++ [v]) [],
    headers := s.headers.foldl (fun acc h => acc ++ [h]) [],
    cookies := s.cookies.foldl (fun acc c => acc ++ [c]) [] }

/-- The fields of a top-level step that `runFetchJob` works on. -/
def Step.toInner (s : Step) : InnerStep :=
  ⟨s.method, s.headers, s.conditions, s.cookies, s.auth, s.url, s.body, s.varfrom⟩

/-- A top-level step after `runFetchJob` has worked on `&j.steps[i]`. -/
def Step.withInner (s : Step) (t : InnerStep) : Step :=
  { s with method := t.method, headers := t.headers, conditions := t.conditions, cookies := t.cookies,
           auth := t.auth, url := t.url, body := t.body, varfrom := t.varfrom }

/-- The state of `fetchJob`: the world and the result `r` under construction. -/
structure Run where
  world : World
  r : Result
deriving DecidableEq, Repr

/-- The loop `for s := range j.steps[i].forloop.steps` of `fetchJob`: each inner step is
run on a deep copy; an error is stored and `break` leaves this loop. -/
def runInnerSteps (L : Lib) (c : Transport) : Run → List InnerStep → Run
  | st, [] => st
  | st, s :: rest =>
    let (res, err, _, w1) := runFetchJob L c st.world (deepCopyStep s)
    let r1 : Result := { st.r with steps := st.r.steps ++ [res], status := res.status }
    match err with
    | some e => ⟨w1, { r1 with err := some e }⟩
    | none => runInnerSteps L c ⟨w1, r1⟩ rest

/-- The loop `for v := range j.steps[i].forloop.values` of `fetchJob`: the loop variable
is set and the inner loop is run, for every value. -/
def runForValues (L : Lib) (c : Transport) (varname : Str) (steps : List InnerStep) : Run → List Str → Run
  | st, [] => st
  | st, v :: vs =>
    let w1 : World := { st.world with job := { st.world.job with vars := assign st.world.job.vars varname v } }
    runForValues L c varname steps (runInnerSteps L c ⟨w1, st.r⟩ steps) vs

/-- What `fetchJob` leaves: the result (of no use after a panic), the steps of the job
as the run left them, the world, and whether the run panicked. -/
structure Exec where
  result : Result
  steps : List Step
  world : World
  panicked : Bool
deriving DecidableEq, Repr

/-- The loop `for i := 0; i < len(j.steps); i++` of `fetchJob`; `done` holds the steps
before index `i` as the run left them. `w.job.steps` is not read: the steps
travel in `done` and in the list the recursion runs over. -/
def fetchSteps (L : Lib) (c : Transport) : Run → List Step → List Step → Exec
  | st, done, [] => ⟨st.r, done, st.world, false⟩
  | st, done, s :: rest =>
    if s.forloop.varname ≠ [] then
      let (j1, s1, panicked) := replaceFromVariablesForLoop L st.world.job s
      let w1 : World := { st.world with job := j1 }
      if panicked then ⟨st.r, done ++ s1 :: rest, w1, true⟩
      else
        let st2 := runForValues L c s1.forloop.varname s1.forloop.steps ⟨w1, st.r⟩ s1.forloop.values.vis
        if st2.r.err.isSome then ⟨st2.r, done ++ s1 :: rest, st2.world, false⟩
        else fetchSteps L c st2 (done ++ [s1]) rest
    else
      let (res, err, s1, w1) := runFetchJob L c st.world s.toInner
      let r1 : Result := { st.r with steps := st.r.steps ++ [res], status := res.status }
      match err with
      | some e => ⟨{ r1 with err := some e }, done ++ s.withInner s1 :: rest, w1, false⟩
      | none => fetchSteps L c ⟨w1, r1⟩ (done ++ [s.withInner s1]) rest

/-- Source: `fetchJob`, with the requests handed to the transport. The job a worker
runs is fresh from the parser, so the log starts empty. -/
def fetchJob (L : Lib) (c : Transport) (j : Job) : Exec :=
  let e := fetchSteps L c ⟨⟨j, []⟩, ⟨0, [], none⟩⟩ [] j.steps
  { e with world := { e.world with job := { e.world.job with steps := e.steps } } }

/-! ## jobs_parse.go -/

/-- The errors of the parser, one per `fmt.Errorf` site, with the raw text they quote. -/
inductive ParseError where
  | unknownType (t : Str)
  | httpNoURL (m raw : Str)
  | varUnmarshal (raw : Str)
  | varNoName (raw : Str)
  | varNoValue (raw : Str)
  | varfromUnmarshal (raw : Str)
  | varfromNoFrom (raw : Str)
  | varfromNoName (raw : Str)
  | varfromNoFind (raw : Str)
  | cookieUnmarshal (raw : Str)
  | cookieNoName (raw : Str)
  | cookieNoValue (raw : Str)
  | headerUnmarshal (raw : Str)
  | headerNoName (raw : Str)
  | headerNoValue (raw : Str)
  | authUnmarshal (raw : Str)
  | authNoUsername (raw : Str)
  | authNoPassword (raw : Str)
  | globalHeaderUnmarshal (raw : Str)
  | globalHeaderNoName (raw : Str)
  | globalHeaderNoValue (raw : Str)
  | globalAuthUnmarshal (raw : Str)
  | globalAuthNoUsername (raw : Str)
  | globalAuthNoPassword (raw : Str)
  | nestedFor (raw : Str)
  | forSyntax (raw : Str)
  | forUnmarshal (raw : Str)
  | forendNoFor
  | arrayUnmarshal (raw : Str)
  | arrayNoName (raw : Str)
  | arrayNoValues (raw : Str)
  | ifUnmarshal (raw : Str)
  | ifNoType (raw : Str)
  | ifNoVar1 (raw : Str)
  | ifNoVar2 (raw : Str)
  | ifUnsupported (raw : Str)
  | forWithoutForend
  | forendWithoutFor
deriving DecidableEq, Repr

/-- The call `regexp.Split(s, -1)` for the patterns `(?m:^- )` and `(?m:^  )`, that is
`c1 c2` at the start of a line: `bol` says whether the scanner is at the start of
a line, `acc` is the piece being read, reversed. -/
def splitLineStart (c1 c2 : Char) : Bool → Str → Str → List Str
  | _, acc, [] => [acc.reverse]
  | _, acc, [x] => [(x :: acc).reverse]
  | bol, acc, x :: y :: s =>
    if bol && x == c1 && y == c2 then acc.reverse :: splitLineStart c1 c2 false [] s
    else splitLineStart c1 c2 (x == '\n') (x :: acc) (y :: s)

/-- Whether a character is in the cutset `trim`. -/
def isTrim (c : Char) : Bool := c == ' ' || c == '\t'

/-- The call `strings.Trim(s, trim)`. -/
def trimStr (s : Str) : Str := (s.dropWhile isTrim).rdropWhile isTrim

/-- The text before and after the first separator (a space), if there is one. -/
def cutSpace : Str → Option (Str × Str)
  | [] => none
  | c :: s => if c == ' ' then some ([], s) else (cutSpace s).map (fun p => (c :: p.1, p.2))

/-- The call `strings.SplitN(s, separator, n)` for `n ≥ 0`. -/
def splitN : Nat → Str → List Str
  | 0, _ => []
  | 1, s => [s]
  | n + 2, s =>
    match cutSpace s with
    | none => [s]
    | some (a, b) => a :: splitN (n + 1) b

/-- Lower case of one character as far as `strings.ToLower` can produce an ASCII
letter: the ASCII capitals, U+0130 and U+212A. The lowered text is only compared
with ASCII words, so other characters can stay as they are. -/
def lowerChar (c : Char) : Char :=
  if c = Char.ofNat 0x130 then 'i' else if c = Char.ofNat 0x212A then 'k' else c.toLower

/-- The call `strings.ToLower(s)`, see `lowerChar`. -/
def toLower (s : Str) : Str := s.map lowerChar

/-- Source: `createHTTPStep`. -/
def createHTTPStep (s : Step) (m a : Str) : Except ParseError Step :=
  let v := splitN 2 a
  if v.headD [] = [] then .error (.httpNoURL m a)
  else
    let s1 := if v.length > 1 ∧ m ≠ "GET".toList then { s with body := v.getD 1 [] } else s
    .ok { s1 with method := m, url := v.headD [] }

/-- The shape of the functions in `stepTypes`: job, step and arguments in, the job
and the step as the call leaves them, or an error, out. -/
abbrev StepFunc := Lib → Job → Step → Str → Except ParseError (Job × Step)

/-- Source: `createGet`. -/
def createGet : StepFunc := fun _ j s a => (createHTTPStep s "GET".toList a).map (fun s => (j, s))

/-- Source: `createPost`. -/
def createPost : StepFunc := fun _ j s a => (createHTTPStep s "POST".toList a).map (fun s => (j, s))

/-- Source: `createPatch`. -/
def createPatch : StepFunc := fun _ j s a => (createHTTPStep s "PATCH".toList a).map (fun s => (j, s))

/-- Source: `createPut`. -/
def createPut : StepFunc := fun _ j s a => (createHTTPStep s "PUT".toList a).map (fun s => (j, s))

/-- Source: `createDelete`. -/
def createDelete : StepFunc := fun _ j s a => (createHTTPStep s "DELETE".toList a).map (fun s => (j, s))

/-- Source: `createVar`. -/
def createVar : StepFunc := fun L j s a =>
  match L.jsonVariable a with
  | none => .error (.varUnmarshal a)
  | some (name, value) =>
    if name = [] then .error (.varNoName a)
    else if value = [] then .error (.varNoValue a)
    else .ok ({ j with vars := assign j.vars name value }, s)

/-- The constant `searchSyntaxReplace`. -/
def searchSyntaxReplace : Str := ").+(".toList

/-- Source: `createSearchPattern`. -/
def createSearchPattern (p : Str) : Str :=
  '(' :: (replaceAll p searchSyntax searchSyntaxReplace ++ [')'])

/-- Source: `createVarFrom`. -/
def createVarFrom : StepFunc := fun L j s a =>
  match L.jsonVarfrom a with
  | none => .error (.varfromUnmarshal a)
  | some (frm, name, find) =>
    if frm = [] then .error (.varfromNoFrom a)
    else if name = [] then .error (.varfromNoName a)
    else if find = [] then .error (.varfromNoFind a)
    else .ok (j, { s with varfrom := s.varfrom ++ [⟨frm, name, find, createSearchPattern find⟩] })

/-- Source: `createCookie`. -/
def createCookie : StepFunc := fun L j s a =>
  match L.jsonCookie a with
  | none => .error (.cookieUnmarshal a)
  | some c =>
    if c.name = [] then .error (.cookieNoName a)
    else if c.value = [] then .error (.cookieNoValue a)
    else .ok ({ j with cookies := j.cookies ++ [c] }, s)

/-- Source: `createHeader`. -/
def createHeader : StepFunc := fun L j s a =>
  match L.jsonHeader a with
  | none => .error (.headerUnmarshal a)
  | some h =>
    if h.name = [] then .error (.headerNoName a)
    else if h.value = [] then .error (.headerNoValue a)
    else .ok (j, { s with headers := s.headers ++ [h] })

/-- Source: `createAuth`. -/
def createAuth : StepFunc := fun L j s a =>
  match L.jsonAuth a with
  | none => .error (.authUnmarshal a)
  | some ba =>
    if ba.username = [] then .error (.authNoUsername a)
    else if ba.password = [] then .error (.authNoPassword a)
    else .ok (j, { s with auth := ⟨ba.username, ba.password⟩ })

/-- Source: `createGlobalHeader`. -/
def createGlobalHeader : StepFunc := fun L j s a =>
  match L.jsonHeader a with
  | none => .error (.globalHeaderUnmarshal a)
  | some h =>
    if h.name = [] then .error (.globalHeaderNoName a)
    else if h.value = [] then .error (.globalHeaderNoValue a)
    else .ok ({ j with globalHeaders := (appendSlice L ⟨[], []⟩ j.globalHeaders [h]).1 }, s)

/-- Source: `createGlobalAuth`. -/
def createGlobalAuth : StepFunc := fun L j s a =>
  match L.jsonAuth a with
  | none => .error (.globalAuthUnmarshal a)
  | some ba =>
    if ba.username = [] then .error (.globalAuthNoUsername a)
    else if ba.password = [] then .error (.globalAuthNoPassword a)
    else .ok ({ j with globalAuth := ⟨ba.username, ba.password⟩ }, s)

/-- The call `regexp.ReplaceAllString(s, "")` for the pattern `removeVarCurls` on a
text of one line: two opening curls at the start and two closing curls at
the end are removed. -/
def removeVarCurls (s : Str) : Str :=
  let s1 := if ['{', '{'].isPrefixOf s then s.drop 2 else s
  if ['}', '}'].isSuffixOf s1 then s1.dropLast.dropLast else s1

/-- Source: `startForLoop`. -/
def startForLoop : StepFunc := fun L j s a =>
  let f := splitN 3 a
  if j.addTo.length > 0 then .error (.nestedFor a)
  else if f.length < 3 then .error (.forSyntax a)
  else if toLower (f.getD 1 []) ≠ "in".toList then .error (.forSyntax a)
  else
    let f2 := f.getD 2 []
    let arr : Option (Slice Str) :=
      if (lookup j.arrays (removeVarCurls f2)).isSome then some ⟨[f2], []⟩
      else (L.jsonStrings f2).map (fun xs => ⟨xs, List.replicate (L.jsonSpare xs) []⟩)
    match arr with
    | none => .error (.forUnmarshal a)
    | some values =>
      .ok ({ j with addTo := [j.steps.length], forcounter := j.forcounter + 1 },
           { s with forloop := ⟨f.headD [], values, []⟩ })

/-- Source: `endForLoop`. -/
def endForLoop : StepFunc := fun _ j s _ =>
  if j.forcounter < 1 then .error .forendNoFor
  else .ok ({ j with forRemoveNextStep := true, forcounter := j.forcounter - 1 }, s)

/-- Source: `createArray`. -/
def createArray : StepFunc := fun L j s a =>
  match L.jsonArray a with
  | none => .error (.arrayUnmarshal a)
  | some (name, values) =>
    if name = [] then .error (.arrayNoName a)
    else if values.length = 0 then .error (.arrayNoValues a)
    else .ok ({ j with arrays := assign j.arrays name ⟨values, List.replicate (L.jsonSpare values) []⟩ }, s)

/-- The variable `allowedConditions`. -/
def allowedConditions : List Str :=
  ["exists".toList, "equals".toList, "greater".toList, "less".toList, "true".toList, "false".toList]

/-- Source: `createIf`. -/
def createIf : StepFunc := fun L j s a =>
  match L.jsonCondition a with
  | none => .error (.ifUnmarshal a)
  | some i =>
    if i.type = [] then .error (.ifNoType a)
    else if i.var1 = [] then .error (.ifNoVar1 a)
    else if i.var2 = [] ∧ i.type ≠ "exists".toList then .error (.ifNoVar2 a)
    else if allowedConditions.any (fun c => i.type == c) then .ok (j, { s with conditions := s.conditions ++ [i] })
    else .error (.ifUnsupported a)

/-- The map `stepTypes`. -/
def stepTypes : List (Str × StepFunc) :=
  [("get".toList, createGet), ("post".toList, createPost), ("patch".toList, createPatch),
   ("put".toList, createPut), ("delete".toList, createDelete), ("var".toList, createVar),
   ("array".toList, createArray), ("varfrom".toList, createVarFrom), ("cookie".toList, createCookie),
   ("header".toList, createHeader), ("auth".toList, createAuth), ("@header".toList, createGlobalHeader),
   ("@auth".toList, createGlobalAuth), ("for".toList, startForLoop), ("forend".toList, endForLoop),
   ("if".toList, createIf)]

/-- Source: `createStepLine`. -/
def createStepLine (L : Lib) (j : Job) (step : Step) (r : Str) : Except ParseError (Job × Step) :=
  let s := splitN 2 (trimStr r)
  let t := toLower (s.headD [])
  if t = [] then .ok (j, step)
  else
    match lookup stepTypes t with
    | none => .error (.unknownType t)
    | some f => f L j step (if s.length > 1 then s.getD 1 [] else [])

/-- The zero `step`. -/
def Step.zero : Step := ⟨[], [], ⟨[], ⟨[], []⟩, []⟩, [], [], ⟨[], []⟩, [], [], []⟩

/-- Source: `addStepToJob`. -/
def addStepToJob (j : Job) (stp : Step) : Job := { j with steps := j.steps ++ [stp] }

/-- Source: `addStepToForLoop`. -/
def addStepToForLoop (j : Job) (stp : Step) : Job :=
  let at0 := j.addTo.headD 0
  let steps := if j.steps.length = at0 then j.steps ++ [{ Step.zero with forloop := stp.forloop }] else j.steps
  { j with steps := steps.modify (fun c => { c with forloop := { c.forloop with steps := c.forloop.steps ++ [stp.toInner] } }) at0 }

/-- The loop of `createStep` over the rows of a step; the job is returned next to an
error as the rows before the failing one left it. -/
def createStepRows (L : Lib) : Job → Step → List Str → Job × Step × Option ParseError
  | j, stp, [] => (j, stp, none)
  | j, stp, row :: rows =>
    match createStepLine L j stp (replaceAll row ['\n'] []) with
    | .error e => (j, stp, some e)
    | .ok (j1, stp1) => createStepRows L j1 stp1 rows

/-- The end of `createStep`, after the loop over the rows: the step is added to the
open loop or to the job, and the loop is left when `forend` asked for it. -/
def createStepEnd (r : Job × Step × Option ParseError) : Job × Option ParseError :=
  match r with
  | (j1, _, some e) => (j1, some e)
  | (j1, stp, none) =>
    let j2 := if j1.addTo.length > 0 then addStepToForLoop j1 stp else addStepToJob j1 stp
    (if j2.forRemoveNextStep then { j2 with forRemoveNextStep := false, addTo := [] } else j2, none)

/-- Source: `createStep`. -/
def createStep (L : Lib) (j : Job) (s : Str) : Job × Option ParseError :=
  createStepEnd (createStepRows L j Step.zero (splitLineStart ' ' ' ' true [] s))

/-- The loop of `createSteps` over the steps of the text. -/
def createStepsLoop (L : Lib) : Job → List Str → Job × Option ParseError
  | j, [] => (j, none)
  | j, s :: rest =>
    if trimStr s = [] then createStepsLoop L j rest
    else
      match createStep L j s with
      | (j1, some e) => (j1, some e)
      | (j1, none) => createStepsLoop L j1 rest

/-- A `rawJob`; `vars` is `none` for a nil map. -/
structure RawJob where
  steps : Str
  vars : Option Vars
deriving DecidableEq, Repr

/-- Source: `createSteps`. -/
def createSteps (L : Lib) (j : Job) (r : RawJob) : Job × Option ParseError :=
  match createStepsLoop L j (splitLineStart '-' ' ' true [] r.steps) with
  | (j1, some e) => (j1, some e)
  | (j1, none) =>
    if j1.forcounter > 0 then (j1, some .forWithoutForend)
    else if j1.forcounter < 0 then (j1, some .forendWithoutFor)
    else (j1, none)

/-- The job `parseJob` starts from. -/
def Job.init (vars : Vars) : Job :=
  { steps := [], vars := vars, arrays := [], globalHeaders := ⟨[], []⟩, globalAuth := ⟨[], []⟩,
    cookies := [], forcounter := 0, forRemoveNextStep := false, addTo := [] }

/-- Source: `parseJob`. -/
def parseJob (L : Lib) (r : RawJob) : Except ParseError Job :=
  match createSteps L (Job.init (r.vars.getD [])) r with
  | (_, some e) => .error e
  | (j, none) => .ok j

/-! ## The declared order of execution (section 4.F of the specification) -/

/-- Specification: one step is handed to the step runner. -/
def declaredStep (L : Lib) (c : Transport) (w : World) (s : InnerStep) : World :=
  (runFetchJob L c w s).2.2.2

/-- Specification: a loop container is expanded value by value: for each value in
order the loop variable is bound to it and each inner step is run in order. -/
def declaredLoop (L : Lib) (c : Transport) (varname : Str) (steps : List InnerStep) (w : World)
    (values : List Str) : World :=
  values.foldl (fun w v =>
    steps.foldl (fun w s => declaredStep L c w (deepCopyStep s))
      { w with job := { w.job with vars := assign w.job.vars varname v } }) w

/-- Specification: the steps of a job are run in declared order, a loop container
after the substitution of its values. -/
def declaredRun (L : Lib) (c : Transport) (w : World) (steps : List Step) : World :=
  steps.foldl (fun w s =>
    if s.forloop.varname ≠ [] then
      let p := replaceFromVariablesForLoop L w.job s
      declaredLoop L c p.2.1.forloop.varname p.2.1.forloop.steps { w with job := p.1 } p.2.1.forloop.values.vis
    else declaredStep L c w s.toInner) w

/-! ## Concrete inputs -/

/-- A library instance for the concrete inputs: requests always build, header keys
are kept, and JSON decoding knows the literals of the scenarios. -/
def demoLib : Lib where
  newRequestErr := fun _ _ => none
  canonicalKey := fun k => k
  basicAuth := fun u p => u ++ ':' :: p
  cookieText := fun c => c.name ++ '=' :: c.value
  regexpFind := fun _ _ => .ok none
  jsonStrings := fun s =>
    if s = "[\"a\",\"b\",\"c\"]".toList then some ["a".toList, "b".toList, "c".toList] else none
  jsonVariable := fun s =>
    if s = "\x7b \"name\": \"url\", \"value\": \"google.com\" \x7d".toList then
      some ("url".toList, "google.com".toList)
    else none
  jsonArray := fun _ => none
  jsonVarfrom := fun _ => none
  jsonCookie := fun _ => none
  jsonHeader := fun _ => none
  jsonAuth := fun _ => none
  jsonCondition := fun _ => none
  jsonSpare := fun _ => 0
  growCap := fun old need => max need (2 * old)

/-- The job text of Scenario 1 (the text of `TestAddJob`). -/
def scenario1Text : Str :=
  "- GET https://\x7b\x7burl\x7d\x7d\n  var \x7b \"name\": \"url\", \"value\": \"google.com\" \x7d\n\n- POST https://www.sunet.se/".toList

/-- The job text of Scenario 2. -/
def scenario2Text : Str :=
  "- for name in [\"a\",\"b\",\"c\"]\n- GET https://x/\x7b\x7bname\x7d\x7d\n- forend\n".toList

/-- The inner HTTP step of Scenario 2. -/
def scenario2Get : InnerStep :=
  ⟨"GET".toList, [], [], [], ⟨[], []⟩, "https://x/\x7b\x7bname\x7d\x7d".toList, [], []⟩

/-- The step that holds only a directive line: every field is zero. -/
def InnerStep.zero : InnerStep := ⟨[], [], [], [], ⟨[], []⟩, [], [], []⟩

/-- The job `parseJob` makes of the text of Scenario 2. -/
def scenario2Job : Job :=
  { Job.init [] with
    steps := [{ Step.zero with
      forloop := ⟨"name".toList, ⟨["a".toList, "b".toList, "c".toList], []⟩,
        [InnerStep.zero, scenario2Get, InnerStep.zero]⟩ }] }

/-- A transport that answers every request with status 200 and an empty body. -/
def transport200 : Transport := fun _ _ => .ok ⟨200, [], [], .ok []⟩

/-- A transport that answers every request with status 500. -/
def transport500 : Transport := fun _ _ => .ok ⟨500, [], [], .ok []⟩

/-- A transport that answers 404 for `https://x/a` and 200 for every other URL. -/
def transport404a : Transport := fun _ req =>
  if req.url = "https://x/a".toList then .ok ⟨404, [], [], .ok []⟩ else .ok ⟨200, [], [], .ok []⟩

/-- A cookie with the given name and value for domain `x` and path `/`. -/
def cookieOf (name value : String) : Cookie :=
  ⟨name.toList, value.toList, "/".toList, "x".toList, [], 0, false, false⟩

/-- The key `compareCookie` compares. -/
def Cookie.key (c : Cookie) : Str × Str × Str := (c.name, c.domain, c.path)


/-! ## Texts with placeholders -/

/-- No character of the text is a curly bracket. -/
def NoBrace (s : Str) : Prop := ∀ c ∈ s, c ≠ '{' ∧ c ≠ '}'

/-- A piece of a text: a character outside placeholders or a placeholder. -/
inductive Piece where
  | lit (c : Char)
  | ph (n : Str)
deriving DecidableEq, Repr

/-- The text of a piece. -/
def Piece.text : Piece → Str
  | .lit c => [c]
  | .ph n => placeholder n

/-- The text of a list of pieces. -/
def render (ps : List Piece) : Str := ps.flatMap Piece.text

/-- The next character outside placeholders. -/
def nextLit : List Piece → Option Char
  | [] => none
  | .lit c :: _ => some c
  | .ph _ :: r => nextLit r

/-- The names of the placeholders have no curly bracket and, of the characters outside
placeholders, no two consecutive ones are both an opening curl. -/
def WellFormed : List Piece → Prop
  | [] => True
  | .lit c :: r => (c = '{' → nextLit r ≠ some '{') ∧ WellFormed r
  | .ph n :: r => NoBrace n ∧ WellFormed r

/-- A text made of placeholders and other characters as `WellFormed` says. -/
def IsTemplate (t : Str) : Prop := ∃ ps, WellFormed ps ∧ render ps = t

/-- One variable substituted in one piece. -/
def substPiece (a x : Str) : Piece → List Piece
  | .lit c => [.lit c]
  | .ph n => if n = a then x.map .lit else [.ph n]

/-- One variable substituted in a list of pieces. -/
def substPieces (ps : List Piece) (e : Str × Str) : List Piece := ps.flatMap (substPiece e.1 e.2)

/-- One variable substituted in a text, as the four `varReplace` functions do. -/
def substText (t : Str) (e : Str × Str) : Str := replaceAll t (placeholder e.1) e.2

instance decNoBrace (s : Str) : Decidable (NoBrace s) := by
  unfold NoBrace; infer_instance

/-- Whether a list of pieces is well formed. -/
instance decWellFormed : (ps : List Piece) → Decidable (WellFormed ps)
  | [] => isTrue trivial
  | .lit c :: r =>
    match decWellFormed r with
    | isTrue h =>
      if h2 : c = '{' → nextLit r ≠ some '{' then isTrue ⟨h2, h⟩ else isFalse (fun h3 => h2 h3.1)
    | isFalse h => isFalse (fun h3 => h h3.2)
  | .ph n :: r =>
    match decWellFormed r with
    | isTrue h => if h2 : NoBrace n then isTrue ⟨h2, h⟩ else isFalse (fun h3 => h2 h3.1)
    | isFalse h => isFalse (fun h3 => h h3.2)

/-- All variables substituted in a text, in the order of the list. -/
def substAll (order : Vars) (t : Str) : Str := order.foldl substText t

/-- A step with a method and a URL and nothing else. -/
def httpStep (m u : Str) : InnerStep := ⟨m, [], [], [], ⟨[], []⟩, u, [], []⟩

/-- The name `x{{a}}`. -/
def nestedName : Str := 'x' :: placeholder "a".toList

/-- A job whose only variable is `a` with value `1`. -/
def jobVarA : Job := Job.init [("a".toList, "1".toList)]

/-- A job with the variables `a = b` and `b = y`. -/
def jobChain : Job := Job.init [("a".toList, "b".toList), ("b".toList, "y".toList)]

/-- The text `{{{{a}}}}`: the placeholder of `a` between two pairs of curls. -/
def nestedUrl : Str := '{' :: '{' :: (placeholder "a".toList ++ ['}', '}'])

/-- A job with the variables `url = google.com` and `id = 7`, a global header and a
cookie that use them. -/
def jobTwoVars : Job :=
  { Job.init [("url".toList, "google.com".toList), ("id".toList, "7".toList)] with
    globalHeaders := ⟨[⟨"X-Id".toList, placeholder "id".toList⟩], []⟩,
    cookies := [⟨"sid".toList, placeholder "id".toList, "/".toList, "x".toList, [], 0, false, false⟩] }

/-- The pieces of the URL `https://{{url}}/{{id}}`. -/
def urlPieces : List Piece :=
  "https://".toList.map Piece.lit ++ [Piece.ph "url".toList, Piece.lit '/', Piece.ph "id".toList]

/-- The pieces of the JSON body `{"id":"{{id}}","x":{"u":"{{unknown}}"}}`. -/
def bodyPieces : List Piece :=
  "\x7b\"id\":\"".toList.map Piece.lit ++ [Piece.ph "id".toList]
    ++ "\",\"x\":\x7b\"u\":\"".toList.map Piece.lit ++ [Piece.ph "unknown".toList]
    ++ "\"\x7d\x7d".toList.map Piece.lit

/-- A POST step with the URL of `urlPieces`, the body of `bodyPieces` and a header. -/
def stepTwoVars : InnerStep :=
  { httpStep "POST".toList (render urlPieces) with
    body := render bodyPieces,
    headers := [⟨"Host".toList, placeholder "url".toList⟩] }

/-! ## Job texts made of blocks -/

/-- A text without line feed. -/
def OneLine (l : Str) : Prop := ∀ c ∈ l, c ≠ '\n'

/-- A step of a job text: the line after `- `, the lines after two spaces, and the
number of blank lines that follow. -/
structure Block where
  first : Str
  conts : List Str
  blanks : Nat

/-- The lines of a block after the first one, as they stand in the text. -/
def Block.restLines (b : Block) : List Str :=
  b.conts.map (fun l => ' ' :: ' ' :: l) ++ List.replicate b.blanks []

/-- The text of a block after `- `. -/
def Block.body (b : Block) : Str :=
  b.first ++ '\n' :: b.restLines.flatMap (fun l => l ++ ['\n'])

/-- The text of a block. -/
def Block.text (b : Block) : Str := '-' :: ' ' :: b.body

/-- The job text made of the blocks. -/
def jobText (bs : List Block) : Str := bs.flatMap Block.text

/-- The lines of a block have no line feed and the first line starts with a character
that is neither a space nor a tab. -/
def Block.Ok (b : Block) : Prop :=
  OneLine b.first ∧ (∃ c r, b.first = c :: r ∧ isTrim c = false) ∧ ∀ l ∈ b.conts, OneLine l

/-- The loop of `createStep` over clean lines. -/
def createLines (L : Lib) : Job → Step → List Str → Job × Step × Option ParseError
  | j, stp, [] => (j, stp, none)
  | j, stp, l :: ls =>
    match createStepLine L j stp l with
    | .error e => (j, stp, some e)
    | .ok (j1, stp1) => createLines L j1 stp1 ls

/-- The loop of `createSteps` over blocks. -/
def createBlocks (L : Lib) : Job → List Block → Job × Option ParseError
  | j, [] => (j, none)
  | j, b :: bs =>
    match createStepEnd (createLines L j Step.zero (b.first :: b.conts)) with
    | (j1, some e) => (j1, some e)
    | (j1, none) => createBlocks L j1 bs

/-- A text that ends with a character that is neither a space nor a tab. -/
def EndsClean (l : Str) : Prop := ∃ r c, l = r ++ [c] ∧ isTrim c = false

/-- A non-empty text without space, tab or line feed. -/
def Token (u : Str) : Prop := u ≠ [] ∧ ∀ c ∈ u, c ≠ ' ' ∧ c ≠ '\t' ∧ c ≠ '\n'

/-- The HTTP keywords as the claims write them. -/
def methods : List Str := ["GET".toList, "POST".toList, "PATCH".toList, "PUT".toList, "DELETE".toList]

/-- The arguments of an HTTP line: the URL and, after a space, the body if there is one. -/
def httpArgs (u : Str) (body : Option Str) : Str :=
  match body with
  | none => u
  | some b => u ++ ' ' :: b

/-- The body `createHTTPStep` leaves in a step whose body was empty. -/
def httpBody (m : Str) (body : Option Str) : Str :=
  match body with
  | none => []
  | some b => if m ≠ "GET".toList then b else []

/-- A `var` line: the JSON text and the name and value it declares. -/
structure VarDecl where
  json : Str
  name : Str
  value : Str

/-- A step `- M U` or `- M U BODY` with `var` lines and blank lines after it. -/
structure HttpDesc where
  m : Str
  u : Str
  body : Option Str
  decls : List VarDecl
  blanks : Nat

/-- The block of an HTTP step. -/
def HttpDesc.block (d : HttpDesc) : Block :=
  ⟨d.m ++ ' ' :: httpArgs d.u d.body, d.decls.map (fun v => "var".toList ++ ' ' :: v.json), d.blanks⟩

/-- The step an HTTP step of the text stands for. -/
def HttpDesc.step (d : HttpDesc) : Step :=
  { Step.zero with method := d.m, url := d.u, body := httpBody d.m d.body }

/-- The method is one of the five keywords, the URL a token, the body a text of one line
that does not end with a space or a tab, and every `var` line is a line of JSON
that `json.Unmarshal` decodes to a non-empty name and value. -/
def HttpDesc.Good (L : Lib) (d : HttpDesc) : Prop :=
  d.m ∈ methods ∧ Token d.u ∧ (∀ b, d.body = some b → OneLine b ∧ EndsClean b) ∧
  ∀ v ∈ d.decls, OneLine v.json ∧ EndsClean v.json ∧ L.jsonVariable v.json = some (v.name, v.value)
    ∧ v.name ≠ [] ∧ v.value ≠ []

/-- The variables after the declarations, in text order. -/
def declare (vars : Vars) (decls : List VarDecl) : Vars :=
  decls.foldl (fun m v => assign m v.name v.value) vars

/-- The block `- for V in A`. -/
def forBlock (v a : Str) : Block :=
  ⟨"for".toList ++ ' ' :: (v ++ ' ' :: 'i' :: 'n' :: ' ' :: a), [], 0⟩

/-- The block `- forend`. -/
def forendBlock : Block := ⟨"forend".toList, [], 0⟩

/-- A loop container: a step that holds only a `forloop`. -/
def loopStep (v : Str) (values : Slice Str) (inner : List InnerStep) : Step :=
  { Step.zero with forloop := ⟨v, values, inner⟩ }

/-- The job while the loop opened by the first step of the text is being filled. -/
def loopJob (vars : Vars) (v : Str) (values : Slice Str) (inner : List InnerStep) : Job :=
  { Job.init vars with steps := [loopStep v values inner], addTo := [0], forcounter := 1 }

instance decOneLine (l : Str) : Decidable (OneLine l) := by
  unfold OneLine; infer_instance

instance decToken (u : Str) : Decidable (Token u) := by
  unfold Token; infer_instance

/-- The JSON text of the `var` line of Scenario 1. -/
def scenario1Var : VarDecl :=
  ⟨"\x7b \"name\": \"url\", \"value\": \"google.com\" \x7d".toList, "url".toList, "google.com".toList⟩

/-- The two steps of Scenario 1. -/
def scenario1Descs : List HttpDesc :=
  [⟨"GET".toList, "https://\x7b\x7burl\x7d\x7d".toList, none, [scenario1Var], 1⟩,
   ⟨"POST".toList, "https://www.sunet.se/".toList, none, [], 0⟩]

/-- The job of Scenario 1. -/
def scenario1Job : Job :=
  { Job.init [("url".toList, "google.com".toList)] with
    steps := [{ Step.zero with method := "GET".toList, url := "https://\x7b\x7burl\x7d\x7d".toList },
              { Step.zero with method := "POST".toList, url := "https://www.sunet.se/".toList }] }

/-- The HTTP step of Scenario 2. -/
def scenario2Desc : HttpDesc :=
  ⟨"GET".toList, "https://x/\x7b\x7bname\x7d\x7d".toList, none, [], 0⟩

/-! ## Maps as objects -/

/-- The map objects of the program, by address. A `map[string]string` value is a
reference to one of them. -/
abbrev Heap := List Vars

/-- A `rawJob` whose `vars` is a reference: `none` for nil, or the address of the
caller's map. -/
structure RawJobRef where
  steps : Str
  vars : Option Nat
deriving DecidableEq, Repr

/-- A parsed job together with the address of the map object its `vars` refers to. -/
structure JobRef where
  job : Job
  varsAt : Nat
deriving DecidableEq, Repr

/-- Source: `parseJob`, with maps as objects. `j.vars` is the map `r.vars` itself when
that is not nil and a new map otherwise, so what `createSteps` writes to `j.vars`
is written to that object, also when the parse fails later. -/
def parseJobAt (L : Lib) (h : Heap) (r : RawJobRef) : Option JobRef × Heap :=
  match r.vars with
  | some a =>
    match createSteps L (Job.init (h.getD a [])) ⟨r.steps, some (h.getD a [])⟩ with
    | (j, some _) => (none, h.set a j.vars)
    | (j, none) => (some ⟨j, a⟩, h.set a j.vars)
  | none =>
    match createSteps L (Job.init []) ⟨r.steps, none⟩ with
    | (_, some _) => (none, h)
    | (j, none) => (some ⟨j, h.length⟩, h ++ [j.vars])

/-- A job text of one GET step without `var` line. -/
def plainText : Str := "- GET https://x/y\n".toList

/-! ## Transports and libraries that do not fail -/

/-- The transport answers every request, with a status below 400 and a readable body. -/
def AnswersBelow400 (c : Transport) : Prop :=
  ∀ log req, ∃ res, c log req = Except.ok res ∧ res.statusCode ≤ 399 ∧ ∃ b, res.body = Except.ok b

/-- Every request builds and every pattern compiles. -/
def NeverFails (L : Lib) : Prop :=
  (∀ m u, L.newRequestErr m u = none) ∧ ∀ p t, ∃ m, L.regexpFind p t = Except.ok m

/-! ## The request of a step -/

/-- The request `fetchStep` builds for a step: the substituted method, URL and body
with the options of `addOptions`. -/
def builtRequest (L : Lib) (j : Job) (s : InnerStep) : Request :=
  addOptions L (replaceFromVariables L j s).1 (replaceFromVariables L j s).2
    ⟨(replaceFromVariables L j s).2.method, (replaceFromVariables L j s).2.url,
      (replaceFromVariables L j s).2.body, []⟩

/-- The text `ioutil.ReadAll` gives for the body of an error answer: empty when the
read fails. -/
def bodyOrEmpty (res : Response) : Str :=
  match res.body with
  | .error _ => []
  | .ok b => b

/-- A transport that fails on every request with the error `timeout`. -/
def transportDown : Transport := fun _ _ => .error "timeout".toList

/-- A job with the variable `id = 7` and the cookie `sid=1`. -/
def jobIdSid : Job := { Job.init [("id".toList, "7".toList)] with cookies := [cookieOf "sid" "1"] }

/-- The step `GET https://x/{{id}}`. -/
def stepGetId : InnerStep := httpStep "GET".toList ("https://x/".toList ++ placeholder "id".toList)

/-- A transport that answers every request with status 404 and the body `not found`. -/
def transport404 : Transport := fun _ _ => .ok ⟨404, [], [], .ok "not found".toList⟩

/-! ## Loop containers for the concrete inputs -/

/-- A library instance that also decodes the JSON arrays `["p","q"]` and `[]`. -/
def loopLib : Lib :=
  { demoLib with
    jsonStrings := fun s =>
      if s = "[\"p\",\"q\"]".toList then some ["p".toList, "q".toList]
      else if s = "[]".toList then some []
      else demoLib.jsonStrings s }

/-- A loop container with the given values and spare capacity and no inner step. -/
def loopOf (values spare : List Str) : Step := loopStep "x".toList ⟨values, spare⟩ []

/-- A job with the array `a = ["p","q"]` and no variable. -/
def jobArrayA : Job := { Job.init [] with arrays := [("a".toList, ⟨["p".toList, "q".toList], []⟩)] }

/-- A job with the variable `v` holding the JSON text `["p","q"]`. -/
def jobVarList : Job := Job.init [("v".toList, "[\"p\",\"q\"]".toList)]

/-- A job with the variable `v` holding the JSON text `[]`. -/
def jobVarEmpty : Job := Job.init [("v".toList, "[]".toList)]

/-- A job with the variable `v = 7`. -/
def jobVarSeven : Job := Job.init [("v".toList, "7".toList)]

/-- The values of a loop container after `replaceFromVariablesForLoop`. -/
def valuesAfter (L : Lib) (j : Job) (s : Step) : List Str :=
  (replaceFromVariablesForLoop L j s).2.1.forloop.values.vis

/-! ## Matches of a pattern with two anchors -/

/-- The characters that have a meaning of their own in a regular expression. -/
def metaChars : Str := "\\.+*?()|[]\x7b\x7d^$".toList

/-- A text without regular-expression metacharacters. -/
def NoMeta (s : Str) : Prop := ∀ c ∈ s, c ∉ metaChars

instance decNoMeta (s : Str) : Decidable (NoMeta s) := by
  unfold NoMeta; infer_instance

/-- The number of positions of `s` at which `sub` starts. -/
def countOcc (sub : Str) : Str → Nat
  | [] => if sub.isPrefixOf [] then 1 else 0
  | c :: s => (if sub.isPrefixOf (c :: s) then 1 else 0) + countOcc sub s

/-- The match of the literal `B` at the start of `s`. -/
def matchHere (B s : Str) : Option Str := if B.isPrefixOf s then some B else none

/-- The match of `.*B` at the start of `s` that a backtracking search finds first: `.`
takes any character but the line feed, and as many characters as it can. -/
def dotStarThen (B : Str) : Str → Option Str
  | [] => matchHere B []
  | c :: s =>
    if c = '\n' then matchHere B (c :: s)
    else
      match dotStarThen B s with
      | some m => some (c :: m)
      | none => matchHere B (c :: s)

/-- The match of `.+B` at the start of `s`. -/
def dotPlusThen (B : Str) : Str → Option Str
  | [] => none
  | c :: s => if c = '\n' then none else (dotStarThen B s).map (fun m => c :: m)

/-- The result of `regexp.Find` of package regexp for the pattern `(A).+(B)` with
literal `A` and `B`: the leftmost match, and at that start the one with the longest
`.+`; `none` when there is no match. -/
def anchoredFind (A B : Str) : Str → Option Str
  | [] => none
  | c :: s =>
    if A.isPrefixOf (c :: s) then
      match dotPlusThen B ((c :: s).drop A.length) with
      | some m => some (A ++ m)
      | none => anchoredFind A B s
    else anchoredFind A B s

/-- The find text of Scenario 3: `token="{{StepTestSyntax}}"`. -/
def tokenFind : Str := "token=\"".toList ++ (searchSyntax ++ "\"".toList)

/-- A library whose regular expressions know the pattern of `tokenFind`. -/
def tokenLib : Lib :=
  { demoLib with
    regexpFind := fun pat text =>
      if pat = "(token=\").+(\")".toList then .ok (anchoredFind "token=\"".toList "\"".toList text)
      else .ok none }

/-! ## The loop keywords of a job text -/

/-- The keyword of a row of a step, as `createStep` and `createStepLine` read it. -/
def rowKeyword (row : Str) : Str :=
  toLower ((splitN 2 (trimStr (replaceAll row ['\n'] []))).headD [])

/-- The arguments of a row of a step, as `createStepLine` passes them on. -/
def rowArgs (row : Str) : Str :=
  if (splitN 2 (trimStr (replaceAll row ['\n'] []))).length > 1 then
    (splitN 2 (trimStr (replaceAll row ['\n'] []))).getD 1 []
  else []

/-- The keywords of the rows of a step. -/
def stepKeywords (s : Str) : List Str := (splitLineStart ' ' ' ' true [] s).map rowKeyword

/-- The keywords of the rows of the steps of a list, in the order of the text; steps of
blanks are left out, as `createSteps` does. -/
def stepsKeywords : List Str → List Str
  | [] => []
  | s :: rest => if trimStr s = [] then stepsKeywords rest else stepKeywords s ++ stepsKeywords rest

/-- The keywords of the rows of a job text. -/
def textKeywords (text : Str) : List Str := stepsKeywords (splitLineStart '-' ' ' true [] text)

/-- Whether a `for` is open after a row with keyword `k`, `o` telling whether one was
open before it. -/
def loopWord (o : Bool) (k : Str) : Bool :=
  if k = "for".toList then true else if k = "forend".toList then false else o

/-- Whether, after rows with the keywords `ks`, a `for` is not closed by a later
`forend`. -/
def openAfter (ks : List Str) : Bool := ks.foldl loopWord false

/-- Whether in rows with the keywords `ks` every `for` is closed by a later `forend`
before the next `for`, and every `forend` closes a `for`; `o` tells whether a
`for` is open at the start. -/
def loopsBalanced : Bool → List Str → Bool
  | o, [] => !o
  | o, k :: ks =>
    if k = "for".toList then (if o then false else loopsBalanced true ks)
    else if k = "forend".toList then (if o then loopsBalanced false ks else false)
    else loopsBalanced o ks

/-- The loop fields of a job while the parser is between two rows: `o` tells whether a
`for` is open. -/
def ParserAt (j : Job) (o : Bool) : Prop :=
  (o = false ∧ j.forcounter = 0 ∧ (j.forRemoveNextStep = true → j.addTo ≠ [])) ∨
  (o = true ∧ j.forcounter = 1 ∧ j.addTo ≠ [] ∧ j.forRemoveNextStep = false)

/-- Two jobs with the same loop fields. -/
def SameLoop (j j1 : Job) : Prop :=
  j1.forcounter = j.forcounter ∧ j1.addTo = j.addTo ∧ j1.forRemoveNextStep = j.forRemoveNextStep

/-- A job text with a `for` inside a `for`. -/
def nestedText : Str :=
  "- for name in [\"a\",\"b\",\"c\"]\n- GET https://x/a\n- for y in [\"a\",\"b\",\"c\"]\n- forend\n- forend\n".toList

/-- A job text with a `for` and no `forend`. -/
def openText : Str := "- for name in [\"a\",\"b\",\"c\"]\n- GET https://x/a\n".toList

/-- A job text with a `forend` and no `for`. -/
def closeText : Str := "- GET https://x/a\n- forend\n".toList

/-! ## Inputs for conditions, HTTP lines and credentials -/

/-- The HTTP keywords of `stepTypes` with the method each one sets. -/
def httpKeywords : List (Str × Str) :=
  [("get".toList, "GET".toList), ("post".toList, "POST".toList), ("patch".toList, "PATCH".toList),
   ("put".toList, "PUT".toList), ("delete".toList, "DELETE".toList)]

/-- The text of an `if` line on the variable `tok`, with the given type and no `var2`. -/
def ifText (type : Str) : Str :=
  "\x7b\"type\":\"".toList ++ type ++ "\",\"var1\":\"tok\"\x7d".toList

/-- A library that decodes the `if` lines `ifText "exists"` and `ifText "true"`. -/
def condLib : Lib :=
  { demoLib with
    jsonCondition := fun s =>
      if s = ifText "exists".toList then some ⟨"exists".toList, "tok".toList, []⟩
      else if s = ifText "true".toList then some ⟨"true".toList, "tok".toList, []⟩
      else none }

/-- A job with the global credentials `root` / `pw`. -/
def jobGlobalAuth : Job := { Job.init [] with globalAuth := ⟨"root".toList, "pw".toList⟩ }

/-- The step `GET https://x/a` with the local credentials `me` / `secret`. -/
def stepLocalAuth : InnerStep :=
  { httpStep "GET".toList "https://x/a".toList with auth := ⟨"me".toList, "secret".toList⟩ }

/-- A request for `GET https://x/a` as `http.NewRequest` returns it. -/
def plainRequest : Request := ⟨"GET".toList, "https://x/a".toList, [], []⟩

/-! ## Header names of a request -/

/-- The value of the last header of `hs` whose name has the canonical form of `N`, the
form under which `http.Header` stores and reads a name. -/
def lastNamed (L : Lib) (hs : List Header) (N : Str) : Option Str :=
  ((hs.filter (fun h => L.canonicalKey h.name == L.canonicalKey N)).getLast?).map (fun h => h.value)

/-- The step `GET https://x/a` with the header `Cookie: a=b`. -/
def stepCookieHeader : InnerStep :=
  { httpStep "GET".toList "https://x/a".toList with headers := [⟨"Cookie".toList, "a=b".toList⟩] }

/-- The step `GET https://x/a` with the headers `X-A: 1`, `User-Agent: probe` and `X-A: 2`. -/
def stepThreeHeaders : InnerStep :=
  { httpStep "GET".toList "https://x/a".toList with
    headers := [⟨"X-A".toList, "1".toList⟩, ⟨"User-Agent".toList, "probe".toList⟩,
                ⟨"X-A".toList, "2".toList⟩] }

/-! ## server.go -/

/-- An `int64` after an arithmetic operation: the value modulo 2^64, as a signed number. -/
def wrap64 (x : Int) : Int := (x + 2 ^ 63) % 2 ^ 64 - 2 ^ 63

/-- A `*Result` as `Server.results` holds it: the result of `fetchJob` and the
`Duration` measured around it, in nanoseconds. -/
structure TimedResult where
  duration : Int
  result : Result
deriving DecidableEq, Repr

/-- A channel: the values of the goroutines that wait in a send on it, and whether it
was closed. -/
structure Chan (α : Type) where
  senders : List α
  closed : Bool
deriving DecidableEq, Repr

/-- A goroutine started by a `go` statement, by the function it runs. -/
inductive Goroutine where
  | workerResults
  | workerResultsCounter
  | workerAddedJobCounter
  | workerFetch
  | workerAddJob (j : Job)
deriving DecidableEq, Repr

/-- The `Server`. A `time.Time` is a reading of the clock in nanoseconds; a channel
field is `none` for a nil channel; the wait groups are their counters; `started`
lists the goroutines the `go` statements of the server have started. -/
structure Server where
  fetchWorkers : Int
  fetchFunc : Option Transport
  startTime : Int
  endTime : Int
  addedJobsCounter : Int
  addedJobsCounterChan : Option (Chan Int)
  parsedJobs : Option (Chan Job)
  results : List TimedResult
  resultJobs : Option (Chan (List TimedResult))
  resultsCounter : Int
  resultCounterChan : Option (Chan Int)
  stopping : Bool
  running : Bool
  wgRun : Int
  wgRes : Int
  started : List Goroutine

/-- The errors of the exported functions of the server. -/
inductive ServerError where
  | notRunning
  | queueClosed
  | parse (e : ParseError)
deriving DecidableEq, Repr

/-- How a call ends: it returns, or a goroutine panics and the program stops. -/
inductive Call (α : Type) where
  | returns (srv : Server) (val : α)
  | panics (srv : Server) (why : Str)

/-- The server a call leaves. -/
def Call.server {α : Type} : Call α → Server
  | .returns srv _ => srv
  | .panics srv _ => srv

/-- Whether a call ended in a panic. -/
def Call.panicked {α : Type} : Call α → Bool
  | .returns _ _ => false
  | .panics _ _ => true

/-- Source: `New`. `client d` is the function `client.Do` of an `http.Client` with the
timeout `d`, in nanoseconds. -/
def New (client : Int → Transport) (v t : Int) (c : Option Transport) : Server × Option ServerError :=
  let v1 := if v < 1 then 100 else v
  let t1 := if t < 1 then 30000 else t
  let c1 := match c with
    | none => client (wrap64 (t1 * 1000000))
    | some f => f
  ({ fetchWorkers := v1, fetchFunc := some c1, startTime := 0, endTime := 0,
     addedJobsCounter := 0, addedJobsCounterChan := some ⟨[], false⟩,
     parsedJobs := some ⟨[], false⟩, results := [], resultJobs := some ⟨[], false⟩,
     resultsCounter := 0, resultCounterChan := some ⟨[], false⟩, stopping := false,
     running := false, wgRun := 0, wgRes := 0, started := [] }, none)

/-- Source: `Start`, at the clock reading `now`. -/
def Start (now : Int) (srv : Server) : Server :=
  { srv with
    started := srv.started ++ [.workerResults, .workerResultsCounter, .workerAddedJobCounter]
      ++ List.replicate srv.fetchWorkers.toNat .workerFetch,
    running := true, startTime := now }

/-- Source: `IsRunning`. -/
def IsRunning (srv : Server) : Bool := srv.running

/-- Source: `closeRunning`, at the clock reading `now`. `close` panics on a nil and on a
closed channel, and a goroutine that waits in a send on the channel panics when
it is closed. `wait` gives the server as the other goroutines have left it when
`wgRes.Wait()` returns. -/
def closeRunning (now : Int) (wait : Server → Server) (srv : Server) : Call Unit :=
  let s1 : Server := { srv with stopping := true, running := false }
  match s1.parsedJobs with
  | none => .panics s1 "close of nil channel".toList
  | some ch =>
    if ch.closed then .panics s1 "close of closed channel".toList
    else if ch.senders ≠ [] then
      .panics { s1 with parsedJobs := some { ch with closed := true } } "send on closed channel".toList
    else .returns { wait { s1 with parsedJobs := some { ch with closed := true } } with endTime := now } ()

/-- Source: `StopRunning`. -/
def StopRunning (now : Int) (wait : Server → Server) (srv : Server) : Call (Option ServerError) :=
  if !IsRunning srv then .returns srv (some .notRunning)
  else
    match closeRunning now wait srv with
    | .returns s _ => .returns s none
    | .panics s w => .panics s w

/-- Source: `WaitDone`. `waitRun` gives the server as the other goroutines have left it
when `wgRun.Wait()` returns. -/
def WaitDone (now : Int) (waitRun wait : Server → Server) (srv : Server) : Call Unit :=
  closeRunning now wait (waitRun srv)

/-- Source: `GetNumberOfVirtualUsers`. -/
def GetNumberOfVirtualUsers (srv : Server) : Int := srv.fetchWorkers

/-- Source: `GetNumberOfErrors`. The counter cannot pass the length of the slice, so it
does not overflow. -/
def GetNumberOfErrors (srv : Server) : Int :=
  srv.results.foldl (fun errors res => if res.result.err.isSome then errors + 1 else errors) 0

/-- Source: `GetErrorMessages`. -/
def GetErrorMessages (srv : Server) : List ResultError :=
  srv.results.foldl (fun errors res =>
    match res.result.err with
    | some e => errors ++ [e]
    | none => errors) []

/-- Source: `GetAverageFetchTime`; the division of Go rounds towards zero. -/
def GetAverageFetchTime (srv : Server) : Int :=
  let duration := srv.results.foldl (fun d res =>
    if res.result.err.isSome then d else wrap64 (d + res.duration)) 0
  let numRequests : Int := srv.results.length
  if duration = 0 ∨ numRequests = 0 then 0
  else (duration.tdiv numRequests).tdiv 1000000

/-- The average the claim describes: the sum of the durations of the results without
error, divided by their number, in milliseconds; 0 when there is none. -/
def averageOfErrorFree (rs : List TimedResult) : Int :=
  let ok : List TimedResult := rs.filter (fun r => r.result.err.isNone)
  if ok.length = 0 then 0
  else (Int.tdiv (ok.map (fun r => r.duration)).sum ok.length).tdiv 1000000

/-- The `http.Client` of the examples: it answers every request with status 200. -/
def demoClient : Int → Transport := fun _ => transport200

/-- A server that holds the given results and nothing else. -/
def serverWith (rs : List TimedResult) : Server :=
  { (New demoClient 1 30000 none).1 with results := rs }

/-- A result without error that took 10 ms. -/
def okResult : TimedResult := ⟨10000000, ⟨200, [], none⟩⟩

/-- A result with an error that took 30 ms. -/
def failedResult : TimedResult :=
  ⟨30000000, ⟨-1, [], some ⟨.sending "timeout".toList, [], 0, [], none⟩⟩⟩

/-- The goroutines that wait for nothing: the server is as it was. -/
def noWait : Server → Server := fun srv => srv

/-- A running server with the job of Scenario 2 waiting in the send of
`workerAddJob`. -/
def serverWithSender : Server :=
  { Start 5 (New demoClient 1 30000 none).1 with parsedJobs := some ⟨[scenario2Job], false⟩ }

/-! ## The shapes of a parsed step -/

/-- The two shapes of a step the parser builds: an HTTP step, with a method of
`methods` and a URL, or a step without method, URL and body. -/
def HttpShape (s : Step) : Prop :=
  (s.method ∈ methods ∧ s.url ≠ []) ∨ (s.method = [] ∧ s.url = [] ∧ s.body = [])

/-- What the functions of the keywords other than the HTTP ones keep: the steps of the
job and the method, URL and body of the step. -/
def KeepsHttp (j : Job) (s : Step) (j1 : Job) (s1 : Step) : Prop :=
  j1.steps = j.steps ∧ s1.method = s.method ∧ s1.url = s.url ∧ s1.body = s.body

/-- A job text of one step with an `if` line only. -/
def ifOnlyText : Str := '-' :: ' ' :: 'i' :: 'f' :: ' ' :: (ifText "exists".toList ++ ['\n'])

/-! ## Blank lines -/

/-- A text of spaces and tabs. -/
def Blank (b : Str) : Prop := ∀ c ∈ b, isTrim c = true

instance decBlank (b : Str) : Decidable (Blank b) := by
  unfold Blank; infer_instance

/-- The text `- GET https://x/a` with its line feed. -/
def oneGetText : Str := "- GET https://x/a\n".toList

/-! ## A global header with a placeholder, and the loop fields of a parse -/

/-- The argument of the `@header` row of the text below. -/
def headerText : Str := "\x7b \"name\": \"X-Id\", \"value\": \"\x7b\x7bname\x7d\x7d\" \x7d".toList

/-- The library of the concrete inputs, which also decodes `headerText`. -/
def headerLib : Lib :=
  { demoLib with
    jsonHeader := fun s =>
      if s = headerText then some ⟨"X-Id".toList, placeholder "name".toList⟩ else none }

/-- Scenario 2 after the row `- @header {"name": "X-Id", "value": "{{name}}"}`. -/
def globalHeaderText : Str := "- @header ".toList ++ headerText ++ "\n".toList ++ scenario2Text

/-- The job of `globalHeaderText`: the empty step of the `@header` row, the loop
container of Scenario 2, and the global header `X-Id: {{name}}` in an array of
capacity 1. -/
def globalHeaderJob : Job :=
  { Job.init [] with
    steps := Step.zero :: scenario2Job.steps,
    globalHeaders := ⟨[⟨"X-Id".toList, placeholder "name".toList⟩], []⟩ }

/-- The value of the header `X-Id` of each request the transport saw, in order. -/
def seenIds (log : List Request) : List Str :=
  log.map (fun (r : Request) => headerGet headerLib r.header "X-Id".toList)

/-- The step `GET https://x/{{name}}` with the local header `Accept: text`. -/
def stepLocalHeader : InnerStep :=
  { scenario2Get with headers := [⟨"Accept".toList, "text".toList⟩] }

/-- The loop fields of a job at any point of a parse: outside a loop, inside the one
open loop, or after `forend` in the step that closes the loop. -/
def LoopFields (j : Job) : Prop :=
  (j.forcounter = 0 ∧ j.addTo = [] ∧ j.forRemoveNextStep = false) ∨
  (j.forcounter = 1 ∧ j.addTo ≠ [] ∧ j.forRemoveNextStep = false) ∨
  (j.forcounter = 0 ∧ j.addTo ≠ [] ∧ j.forRemoveNextStep = true)

/-- The loop fields of a job between two steps: outside a loop or inside the one
open loop. -/
def BetweenSteps (j : Job) : Prop :=
  (j.forcounter = 0 ∧ j.addTo = [] ∧ j.forRemoveNextStep = false) ∨
  (j.forcounter = 1 ∧ j.addTo ≠ [] ∧ j.forRemoveNextStep = false)

/-! ## jobs_add.go and the getters of the counters -/

/-- Source: `AddJob`. The statement `go srv.workerAddJob(j)` adds the goroutine to
`started`; nothing of it has run when `AddJob` returns. -/
def AddJob (L : Lib) (srv : Server) (s : Str) (v : Option Vars) : Server × Option ServerError :=
  match srv.parsedJobs with
  | none => (srv, some .queueClosed)
  | some _ =>
    match parseJob L ⟨s, v⟩ with
    | .error e => (srv, some (.parse e))
    | .ok j => ({ srv with started := srv.started ++ [.workerAddJob j] }, none)

/-- Source: `GetNumberOfJobs`. -/
def GetNumberOfJobs (srv : Server) : Int := srv.addedJobsCounter

/-- Source: `GetResults`. -/
def GetResults (srv : Server) : List TimedResult := srv.results

/-- Source: `GetNumberOfRequests`. -/
def GetNumberOfRequests (srv : Server) : Int := srv.resultsCounter

/-! ## The goroutines of the server -/

/-- Where a goroutine of the server stands. The goroutines `workerResults`,
`workerResultsCounter` and `workerAddedJobCounter` stay at `start`: they wait in the
receive at the head of their loop. -/
inductive Place where
  /-- Started by `go`; no statement has run. -/
  | start
  /-- In `workerAddJob`, in the send `srv.parsedJobs <- j`. -/
  | sendJob
  /-- In `workerAddJob`, in the send `srv.addedJobsCounterChan <- 1`. -/
  | sendAdded
  /-- In `workerFetch`, at `for srv.running` and the receive `j := <-srv.parsedJobs`. -/
  | receive (results : List TimedResult)
  /-- In `workerFetch`, before `res := srv.fetchJob(j)`. -/
  | fetch (results : List TimedResult) (j : Job)
  /-- In `workerFetch`, in the send `srv.resultCounterChan <- 1`. -/
  | sendFetched (results : List TimedResult)
  /-- In `workerFetch`, before `srv.wgRun.Done()`. -/
  | done (results : List TimedResult)
  /-- In `workerFetch`, in the send `srv.resultJobs <- results`. -/
  | sendResults (results : List TimedResult)
  /-- The function has returned. -/
  | returned
deriving DecidableEq, Repr

/-- The server with its goroutines: `places` follows `Server.started`, a goroutine
beyond its end stands at `start`; `crashed` holds the message of a panic. -/
structure Sys where
  srv : Server
  places : List Place
  crashed : Option Str

/-- A step of the goroutines. The channels are unbuffered, so a send and the receive
that takes it are one step. -/
inductive Act where
  /-- Goroutine `i` runs from where it stands to its next channel operation. -/
  | run (i : Nat)
  /-- The send of `workerAddJob` number `i` meets the receive of `workerFetch` number `k`. -/
  | handJob (i k : Nat)
  /-- The send of `workerAddJob` number `i` meets the receive of `workerAddedJobCounter`. -/
  | countJob (i : Nat)
  /-- Goroutine `k` runs `fetchJob`, which measures the duration `took`. -/
  | fetch (k : Nat) (took : Int)
  /-- The send of `workerFetch` number `k` meets the receive of `workerResultsCounter`. -/
  | countFetch (k : Nat)
  /-- The send of `workerFetch` number `k` meets the receive of `workerResults`. -/
  | handResults (k : Nat)
deriving DecidableEq, Repr

/-- Where goroutine `i` stands. -/
def placeOf (sys : Sys) (i : Nat) : Place := sys.places.getD i .start

/-- Goroutine `i` moves to the place `p`. -/
def setPlace (sys : Sys) (i : Nat) (p : Place) : Sys :=
  { sys with
    places := (sys.places ++ List.replicate (i + 1 - sys.places.length) Place.start).set i p }

/-- The program stops with a panic. -/
def crash (sys : Sys) (why : String) : Sys := { sys with crashed := some why.toList }

/-- Source: `workerAddJob`, from the start to its first channel operation:
`srv.wgRun.Add(1)`, then the send `srv.parsedJobs <- j`, which panics on a closed
channel and blocks for ever on a nil channel. -/
def workerAddJob (sys : Sys) (i : Nat) (j : Job) : Option Sys :=
  match placeOf sys i with
  | .start =>
    let srv1 : Server := { sys.srv with wgRun := sys.srv.wgRun + 1 }
    match srv1.parsedJobs with
    | none => some (setPlace { sys with srv := srv1 } i .sendJob)
    | some ch =>
      if ch.closed then some (crash { sys with srv := srv1 } "send on closed channel")
      else
        some (setPlace
          { sys with srv := { srv1 with parsedJobs := some { ch with senders := ch.senders ++ [j] } } }
          i .sendJob)
  | _ => none

/-- Source: `workerFetch`, from one channel operation to the next: `srv.wgRes.Add(1)`
and the empty `results`; at the head of the loop, `srv.running` false or a receive
from the closed queue (`j == nil`) leads to the send of the results, and an open
queue blocks; `srv.wgRun.Done()` panics below zero. -/
def workerFetch (sys : Sys) (i : Nat) : Option Sys :=
  match placeOf sys i with
  | .start =>
    some (setPlace { sys with srv := { sys.srv with wgRes := sys.srv.wgRes + 1 } } i (.receive []))
  | .receive rs =>
    if !sys.srv.running then some (setPlace sys i (.sendResults rs))
    else
      match sys.srv.parsedJobs with
      | none => none
      | some ch => if ch.closed then some (setPlace sys i (.sendResults rs)) else none
  | .done rs =>
    if sys.srv.wgRun < 1 then some (crash sys "sync: negative WaitGroup counter")
    else some (setPlace { sys with srv := { sys.srv with wgRun := sys.srv.wgRun - 1 } } i (.receive rs))
  | _ => none

/-- Goroutine `i` runs the function it was started with. -/
def runGoroutine (sys : Sys) (i : Nat) : Option Sys :=
  match sys.srv.started.get? i with
  | some (.workerAddJob j) => workerAddJob sys i j
  | some .workerFetch => workerFetch sys i
  | _ => none

/-- The send `srv.parsedJobs <- j` of goroutine `i` and the receive
`j := <-srv.parsedJobs` of goroutine `k`, on the open queue. -/
def handJob (sys : Sys) (i k : Nat) : Option Sys :=
  match sys.srv.started.get? i, placeOf sys i with
  | some (.workerAddJob j), .sendJob =>
    match sys.srv.started.get? k, placeOf sys k with
    | some .workerFetch, .receive rs =>
      match sys.srv.parsedJobs with
      | none => none
      | some ch =>
        if ch.closed then none
        else
          some (setPlace (setPlace
            { sys with srv := { sys.srv with parsedJobs := some { ch with senders := ch.senders.erase j } } }
            i .sendAdded) k (.fetch rs j))
    | _, _ => none
  | _, _ => none

/-- Source: `workerAddedJobCounter`, one turn of its loop: it receives the 1 that
goroutine `i` sends with `srv.addedJobsCounterChan <- 1` and adds it to
`srv.addedJobsCounter`. -/
def workerAddedJobCounter (sys : Sys) (i : Nat) : Option Sys :=
  match sys.srv.started.get? i, placeOf sys i with
  | some (.workerAddJob _), .sendAdded =>
    if Goroutine.workerAddedJobCounter ∈ sys.srv.started ∧ sys.srv.addedJobsCounterChan.isSome then
      some (setPlace
        { sys with srv := { sys.srv with addedJobsCounter := wrap64 (sys.srv.addedJobsCounter + 1) } }
        i .returned)
    else none
  | _, _ => none

/-- The statements `res := srv.fetchJob(j)` and `results = append(results, res)` of
goroutine `k`. -/
def runFetch (L : Lib) (sys : Sys) (k : Nat) (took : Int) : Option Sys :=
  match sys.srv.started.get? k, placeOf sys k with
  | some .workerFetch, .fetch rs j =>
    match sys.srv.fetchFunc with
    | none => some (crash sys "invalid memory address or nil pointer dereference")
    | some c =>
      if (fetchJob L c j).panicked then some (crash sys "panic in fetchJob")
      else some (setPlace sys k (.sendFetched (rs ++ [⟨took, (fetchJob L c j).result⟩])))
  | _, _ => none

/-- Source: `workerResultsCounter`, one turn of its loop: it receives the 1 that
goroutine `k` sends with `srv.resultCounterChan <- 1` and adds it to
`srv.resultsCounter`. -/
def workerResultsCounter (sys : Sys) (k : Nat) : Option Sys :=
  match sys.srv.started.get? k, placeOf sys k with
  | some .workerFetch, .sendFetched rs =>
    if Goroutine.workerResultsCounter ∈ sys.srv.started ∧ sys.srv.resultCounterChan.isSome then
      some (setPlace
        { sys with srv := { sys.srv with resultsCounter := wrap64 (sys.srv.resultsCounter + 1) } }
        k (.done rs))
    else none
  | _, _ => none

/-- Source: `workerResults`, one turn of its loop: it receives the results that
goroutine `k` sends with `srv.resultJobs <- results`, appends them to `srv.results`
and calls `srv.wgRes.Done()`, which panics below zero. -/
def workerResults (sys : Sys) (k : Nat) : Option Sys :=
  match sys.srv.started.get? k, placeOf sys k with
  | some .workerFetch, .sendResults rs =>
    if Goroutine.workerResults ∈ sys.srv.started ∧ sys.srv.resultJobs.isSome then
      if sys.srv.wgRes < 1 then
        some (crash { sys with srv := { sys.srv with results := sys.srv.results ++ rs } }
          "sync: negative WaitGroup counter")
      else
        some (setPlace
          { sys with srv := { sys.srv with results := sys.srv.results ++ rs, wgRes := sys.srv.wgRes - 1 } }
          k .returned)
    else none
  | _, _ => none

/-- One step of the goroutines; `none` when the step cannot be taken, as after a
panic. -/
def stepAct (L : Lib) (sys : Sys) (a : Act) : Option Sys :=
  if sys.crashed.isSome then none
  else
    match a with
    | .run i => runGoroutine sys i
    | .handJob i k => handJob sys i k
    | .countJob i => workerAddedJobCounter sys i
    | .fetch k took => runFetch L sys k took
    | .countFetch k => workerResultsCounter sys k
    | .handResults k => workerResults sys k

/-- The steps of a schedule, one after the other. -/
def runActs (L : Lib) : List Act → Sys → Option Sys
  | [], sys => some sys
  | a :: rest, sys =>
    match stepAct L sys a with
    | none => none
    | some s1 => runActs L rest s1

/-- The goroutines take the steps `acts` from the places `places` while the main
goroutine waits. -/
def waitBy (L : Lib) (acts : List Act) (places : List Place) : Server → Server := fun srv =>
  match runActs L acts ⟨srv, places, none⟩ with
  | none => srv
  | some sys => sys.srv

/-- What a test reads of a state: the two getters, the counters of the wait groups,
the places of the goroutines and the message of a panic. -/
def Sys.view (sys : Sys) : List TimedResult × Int × Int × Int × List Place × Option Str :=
  (GetResults sys.srv, GetNumberOfJobs sys.srv, sys.srv.wgRun, sys.srv.wgRes, sys.places, sys.crashed)

/-- A server with one virtual user after `AddJob` with the text of Scenario 2 and
`Start`: goroutine 0 is `workerAddJob`, goroutine 4 is `workerFetch`. -/
def srvOneJob : Server :=
  Start 5 (AddJob demoLib (New demoClient 1 30000 none).1 scenario2Text none).1

/-- A schedule in which the job is handed over, fetched in 7 ms and counted before
the main goroutine goes on. -/
def friendlyActs : List Act :=
  [.run 0, .run 4, .handJob 0 4, .fetch 4 7000000, .countFetch 4, .run 4, .countJob 0]

/-- The result of the run of Scenario 2 against `transport200`, measured as 7 ms. -/
def scenario2Timed : TimedResult := ⟨7000000, (fetchJob demoLib transport200 scenario2Job).result⟩

/-- The state after the schedule `friendlyActs`. -/
def afterFriendly : Sys :=
  (runActs demoLib friendlyActs ⟨srvOneJob, [], none⟩).getD ⟨srvOneJob, [], none⟩

/-- The server when `WaitDone` returns after the schedule `friendlyActs`; while
`wgRes.Wait()` waits the worker leaves its loop and hands in its results. -/
def afterFriendlyWait : Call Unit :=
  WaitDone 9 noWait (waitBy demoLib [.run 4, .handResults 4] afterFriendly.places) afterFriendly.srv

/-- The server when `WaitDone` returns and no goroutine has run. -/
def afterEarlyWait : Call Unit := WaitDone 9 noWait noWait srvOneJob

/-! ## Inputs for a pattern that does not compile and for the guard of a step -/

/-- The argument of the `varfrom` row of `parenText`: the text to find is `(`. -/
def parenVarfromText : Str :=
  "\x7b\"from\":\"body\",\"name\":\"tok\",\"find\":\"(\"\x7d".toList

/-- A library that decodes `parenVarfromText` and, as `regexp.Compile` does, rejects
the pattern `(()` that `createSearchPattern` makes of `(`. -/
def parenLib : Lib :=
  { demoLib with
    jsonVarfrom := fun s =>
      if s = parenVarfromText then some ("body".toList, "tok".toList, "(".toList) else none,
    regexpFind := fun pat _ =>
      if pat = "(()".toList then .error "missing closing )".toList else .ok none }

/-- Two GET steps, the first with a `varfrom` row whose text to find is `(`. -/
def parenText : Str :=
  "- GET https://x/a\n  varfrom ".toList ++ parenVarfromText ++ "\n- GET https://x/b\n".toList

/-- The job of `parenText`. -/
def parenJob : Job :=
  { Job.init [] with
    steps := [{ Step.zero with method := "GET".toList, url := "https://x/a".toList,
                               varfrom := [⟨"body".toList, "tok".toList, "(".toList, "(()".toList⟩] },
              { Step.zero with method := "GET".toList, url := "https://x/b".toList }] }

/-- The step `GET https://x/{{id}}` under the condition that the variable `id` exists. -/
def stepIfExists : InnerStep :=
  { stepGetId with conditions := [⟨"exists".toList, "id".toList, []⟩] }

/-- The step `GET https://x/{{id}}` under the conditions `true` on `id` and `exists` on
the variable `tok`, which the job does not have. -/
def stepIfTrue : InnerStep :=
  { stepGetId with
    conditions := [⟨"true".toList, "id".toList, []⟩, ⟨"exists".toList, "tok".toList, []⟩] }

/-! ## Theorems -/

/-- C1 (evaluation at the failing input). On the job of Scenario 2 with a transport that
answers 500, the inner GET fails for the first value `a`, and `fetchJob` still calls
the transport for the values `b` and `c` and appends their steps: three requests
are made and six steps are recorded, and the job is the one the parser makes of
the scenario text. -/
theorem C1_loop_runs_on_after_error :
    parseJob demoLib ⟨scenario2Text, none⟩ = .ok scenario2Job ∧
    (runFetchJob demoLib transport500
      ⟨{ scenario2Job with vars := [("name".toList, "a".toList)] }, []⟩ (deepCopyStep scenario2Get)).2.1.isSome = true ∧
    (fetchJob demoLib transport500 scenario2Job).world.log.map (fun r => r.url)
      = ["https://x/a".toList, "https://x/b".toList, "https://x/c".toList] ∧
    (fetchJob demoLib transport500 scenario2Job).result.steps.map (fun r => r.status)
      = [0, 500, 0, 500, 0, 500] := by
  refine ⟨by rfl, by decide, by decide, by decide⟩

/-- C2 (evaluation at the failing input). On the job of Scenario 2 with a transport that answers
404 for `https://x/a` and 200 otherwise, the result carries the error of the GET for
value `a` (status 404, also in `Err.Step`), but `Result.Status` is 0 and the last
recorded step is the empty step of the last iteration, not the failing step. -/
theorem C2_status_and_last_step_after_loop_error :
    ((fetchJob demoLib transport404a scenario2Job).result.err.map (fun e => e.status)) = some 404 ∧
    ((fetchJob demoLib transport404a scenario2Job).result.err.map (fun e => e.step.map (fun r => r.status)))
      = some (some 404) ∧
    (fetchJob demoLib transport404a scenario2Job).result.status = 0 ∧
    (fetchJob demoLib transport404a scenario2Job).result.steps.getLast? = some ResultStep.zero ∧
    (fetchJob demoLib transport404a scenario2Job).result.steps.map (fun r => r.status)
      = [0, 404, 0, 200, 0, 0, 200, 0] := by
  refine ⟨by decide, by decide, by decide, by decide, by decide⟩

/-- C3 (evaluation at the failing input). With the job cookies `a=1` and `b=1` (domain `x`,
path `/`) and the response cookie `a=2`, `appendResponseCookiesToJob` updates the
entry `a` and appends `a=2` once more: the keys are no longer pairwise distinct.
On one entry (Scenario 4: `s=1` then `s=2`) a single entry with value 2 is left. -/
theorem C3_matching_cookie_is_appended_again :
    appendResponseCookies [cookieOf "a" "1", cookieOf "b" "1"] [cookieOf "a" "2"]
      = [cookieOf "a" "2", cookieOf "b" "1", cookieOf "a" "2"] ∧
    ([cookieOf "a" "1", cookieOf "b" "1"].map Cookie.key).Nodup ∧
    ¬ ((appendResponseCookies [cookieOf "a" "1", cookieOf "b" "1"] [cookieOf "a" "2"]).map Cookie.key).Nodup ∧
    appendResponseCookies (appendResponseCookies [] [cookieOf "s" "1"]) [cookieOf "s" "2"] = [cookieOf "s" "2"] := by
  refine ⟨by decide, by decide, by decide, by decide⟩

/-! ### The loop templates are not written to (C7) -/

theorem foldl_append_singleton {α : Type} (xs acc : List α) :
    xs.foldl (fun acc x => acc ++ [x]) acc = acc ++ xs := by
  induction xs generalizing acc with
  | nil => simp
  | cons x xs ih => simp [ih]

theorem deepCopyStep_eq (s : InnerStep) : deepCopyStep s = s := by
  cases s
  simp [deepCopyStep, foldl_append_singleton]

theorem replaceFromVariablesForLoop_steps (L : Lib) (j : Job) (s : Step) :
    (replaceFromVariablesForLoop L j s).2.1.forloop.steps = s.forloop.steps := rfl

theorem replaceFromVariablesForLoop_varname (L : Lib) (j : Job) (s : Step) :
    (replaceFromVariablesForLoop L j s).2.1.forloop.varname = s.forloop.varname := rfl

theorem withInner_forloop (s : Step) (t : InnerStep) : (s.withInner t).forloop = s.forloop := rfl

theorem fetchSteps_nil (L : Lib) (c : Transport) (st : Run) (done : List Step) :
    fetchSteps L c st done [] = ⟨st.r, done, st.world, false⟩ := rfl

theorem fetchSteps_loop (L : Lib) (c : Transport) (st : Run) (done rest : List Step) (s : Step)
    (h : s.forloop.varname ≠ []) :
    fetchSteps L c st done (s :: rest) =
      (let p := replaceFromVariablesForLoop L st.world.job s
       let w1 : World := { st.world with job := p.1 }
       let st2 := runForValues L c p.2.1.forloop.varname p.2.1.forloop.steps ⟨w1, st.r⟩ p.2.1.forloop.values.vis
       if p.2.2 = true then ⟨st.r, done ++ p.2.1 :: rest, w1, true⟩
       else if st2.r.err.isSome = true then ⟨st2.r, done ++ p.2.1 :: rest, st2.world, false⟩
       else fetchSteps L c st2 (done ++ [p.2.1]) rest) := by
  rw [fetchSteps]
  simp only [h, ne_eq, not_false_eq_true, if_true]

theorem fetchSteps_plain (L : Lib) (c : Transport) (st : Run) (done rest : List Step) (s : Step)
    (h : s.forloop.varname = []) :
    fetchSteps L c st done (s :: rest) =
      (let q := runFetchJob L c st.world s.toInner
       let r1 : Result := { st.r with steps := st.r.steps ++ [q.1], status := q.1.status }
       match q.2.1 with
       | some e => ⟨{ r1 with err := some e }, done ++ s.withInner q.2.2.1 :: rest, q.2.2.2, false⟩
       | none => fetchSteps L c ⟨q.2.2.2, r1⟩ (done ++ [s.withInner q.2.2.1]) rest) := by
  rw [fetchSteps]
  simp only [h, ne_eq, not_true_eq_false, if_false]

theorem fetchSteps_templates (L : Lib) (c : Transport) (todo : List Step) :
    ∀ (st : Run) (done : List Step),
      (fetchSteps L c st done todo).steps.map (fun s => s.forloop.steps)
        = (done ++ todo).map (fun s => s.forloop.steps) := by
  induction todo with
  | nil => intro st done; simp [fetchSteps_nil]
  | cons s rest ih =>
    intro st done
    by_cases h : s.forloop.varname = []
    · rw [fetchSteps_plain L c st done rest s h]
      dsimp only
      split
      · simp [withInner_forloop]
      · rw [ih]; simp [withInner_forloop]
    · rw [fetchSteps_loop L c st done rest s h]
      dsimp only
      split_ifs
      · simp [replaceFromVariablesForLoop_steps]
      · simp [replaceFromVariablesForLoop_steps]
      · rw [ih]; simp [replaceFromVariablesForLoop_steps]

/-- C7. After `fetchJob` the inner steps of every loop container (and so their url, body,
headers, cookies, conditions and varfrom) are what they were before the run,
whatever the transport answers, and the step an iteration works on,
`deepCopyStep s`, has the fields of the template `s`: every iteration starts from
the original template text. -/
theorem C7_loop_templates_unchanged (L : Lib) (c : Transport) (j : Job) :
    (fetchJob L c j).world.job.steps.map (fun s => s.forloop.steps)
        = j.steps.map (fun s => s.forloop.steps) ∧
    (fetchJob L c j).steps.map (fun s => s.forloop.steps) = j.steps.map (fun s => s.forloop.steps) ∧
    ∀ s : InnerStep, deepCopyStep s = s := by
  have h := fetchSteps_templates L c j.steps ⟨⟨j, []⟩, ⟨0, [], none⟩⟩ []
  simp only [List.nil_append] at h
  exact ⟨h, h, deepCopyStep_eq⟩

/-! ### Calls follow the declared order (C5) -/

theorem runInnerSteps_cons (L : Lib) (c : Transport) (st : Run) (s : InnerStep) (rest : List InnerStep) :
    runInnerSteps L c st (s :: rest) =
      (let q := runFetchJob L c st.world (deepCopyStep s)
       let r1 : Result := { st.r with steps := st.r.steps ++ [q.1], status := q.1.status }
       match q.2.1 with
       | some e => ⟨q.2.2.2, { r1 with err := some e }⟩
       | none => runInnerSteps L c ⟨q.2.2.2, r1⟩ rest) := by
  rw [runInnerSteps]

theorem runInnerSteps_err_none (L : Lib) (c : Transport) (steps : List InnerStep) :
    ∀ st : Run, (runInnerSteps L c st steps).r.err = none →
      st.r.err = none ∧
      (runInnerSteps L c st steps).world
        = steps.foldl (fun w s => declaredStep L c w (deepCopyStep s)) st.world := by
  induction steps with
  | nil => intro st h; exact ⟨h, rfl⟩
  | cons s rest ih =>
    intro st h
    rw [runInnerSteps_cons] at h ⊢
    dsimp only at h ⊢
    cases hq : (runFetchJob L c st.world (deepCopyStep s)).2.1 with
    | some e => rw [hq] at h; simp at h
    | none =>
      rw [hq] at h
      dsimp only at h ⊢
      have := ih _ h
      exact ⟨this.1, this.2⟩

theorem runForValues_err_none (L : Lib) (c : Transport) (varname : Str) (steps : List InnerStep)
    (values : List Str) :
    ∀ st : Run, (runForValues L c varname steps st values).r.err = none →
      st.r.err = none ∧
      (runForValues L c varname steps st values).world
        = declaredLoop L c varname steps st.world values := by
  induction values with
  | nil => intro st h; exact ⟨h, rfl⟩
  | cons v vs ih =>
    intro st h
    rw [runForValues] at h ⊢
    obtain ⟨h1, h2⟩ := ih _ h
    obtain ⟨h3, h4⟩ := runInnerSteps_err_none L c steps _ h1
    refine ⟨h3, ?_⟩
    rw [h2, h4]
    simp [declaredLoop]

theorem fetchSteps_declared (L : Lib) (c : Transport) (todo : List Step) :
    ∀ (st : Run) (done : List Step),
      (fetchSteps L c st done todo).result.err = none →
      (fetchSteps L c st done todo).panicked = false →
      (fetchSteps L c st done todo).world = declaredRun L c st.world todo := by
  induction todo with
  | nil => intro st done _ _; rfl
  | cons s rest ih =>
    intro st done he hp
    by_cases h : s.forloop.varname = []
    · rw [fetchSteps_plain L c st done rest s h] at he hp ⊢
      dsimp only at he hp ⊢
      cases hq : (runFetchJob L c st.world s.toInner).2.1 with
      | some e => rw [hq] at he; simp at he
      | none =>
        rw [hq] at he hp
        dsimp only at he hp ⊢
        rw [ih _ _ he hp]
        simp [declaredRun, h, declaredStep]
    · rw [fetchSteps_loop L c st done rest s h] at he hp ⊢
      dsimp only at he hp ⊢
      by_cases h1 : (replaceFromVariablesForLoop L st.world.job s).2.2 = true
      · rw [if_pos h1] at hp
        simp at hp
      · rw [if_neg h1] at he hp ⊢
        split_ifs at he hp ⊢ with h2
        · dsimp only at he
          rw [he] at h2
          simp at h2
        · have hh := Option.not_isSome_iff_eq_none.mp h2
          rw [ih _ _ he hp]
          rw [(runForValues_err_none L c _ _ _ _ hh).2]
          simp [declaredRun, h]

/-- A run that ends without an error and without a panic hands the transport the requests
of the declared order. -/
theorem fetchJob_declared (L : Lib) (c : Transport) (j : Job)
    (herr : (fetchJob L c j).result.err = none) (hpanic : (fetchJob L c j).panicked = false) :
    (fetchJob L c j).world.log = (declaredRun L c ⟨j, []⟩ j.steps).log := by
  have h := fetchSteps_declared L c j.steps ⟨⟨j, []⟩, ⟨0, [], none⟩⟩ [] herr hpanic
  show (fetchSteps L c ⟨⟨j, []⟩, ⟨0, [], none⟩⟩ [] j.steps).world.log = _
  rw [h]

theorem variablesFromJob_ok (L : Lib) (hL : NeverFails L) (raw : Str) (header : List (Str × Str))
    (vs : List VarfromItem) : ∀ j : Job, (variablesFromJob L raw header j vs).2 = none := by
  induction vs with
  | nil => intro j; rfl
  | cons v vs ih =>
    intro j
    rw [variablesFromJob]
    split_ifs with h1 h2
    · obtain ⟨m, hm⟩ := hL.2 v.syntaxRe raw
      have : ∃ j2, variableFromBody L j v raw = .ok j2 := by
        unfold variableFromBody
        rw [hm]
        dsimp only
        split_ifs
        · exact ⟨_, rfl⟩
        · exact ⟨_, rfl⟩
      obtain ⟨j2, hj2⟩ := this
      rw [hj2]
      exact ih j2
    · exact ih _
    · exact ih _

theorem fetchStep_ok (L : Lib) (c : Transport) (hc : AnswersBelow400 c) (hL : NeverFails L)
    (w : World) (s : InnerStep) : (fetchStep L c w s).2.1 = none := by
  unfold fetchStep
  split_ifs with h1
  · rfl
  · dsimp only
    rw [hL.1]
    dsimp only
    obtain ⟨res, hres, hst, b, hb⟩ := hc w.log
      (addOptions L (replaceFromVariables L w.job s).1 (replaceFromVariables L w.job s).2
        ⟨(replaceFromVariables L w.job s).2.method, (replaceFromVariables L w.job s).2.url,
          (replaceFromVariables L w.job s).2.body, []⟩)
    rw [hres]
    dsimp only
    rw [if_neg (by omega)]
    have hv : (variablesFrom L (appendResponseCookiesToJob (replaceFromVariables L w.job s).1 res)
        (replaceFromVariables L w.job s).2 res).2 = none := by
      unfold variablesFrom
      split_ifs
      · rfl
      · rw [hb]
        exact variablesFromJob_ok L hL _ _ _ _
    rcases hvv : variablesFrom L (appendResponseCookiesToJob (replaceFromVariables L w.job s).1 res)
        (replaceFromVariables L w.job s).2 res with ⟨j3, e⟩
    rw [hvv] at hv
    dsimp only at hv
    subst hv
    rfl

theorem runFetchJob_ok (L : Lib) (c : Transport) (hc : AnswersBelow400 c) (hL : NeverFails L)
    (w : World) (s : InnerStep) : (runFetchJob L c w s).2.1 = none := by
  unfold runFetchJob
  split_ifs
  · rfl
  · have h := fetchStep_ok L c hc hL w s
    rcases hf : fetchStep L c w s with ⟨status, err, s1, w1⟩
    rw [hf] at h
    dsimp only at h
    subst h
    rfl

theorem runInnerSteps_ok (L : Lib) (c : Transport) (hc : AnswersBelow400 c) (hL : NeverFails L)
    (steps : List InnerStep) : ∀ st : Run, (runInnerSteps L c st steps).r.err = st.r.err := by
  induction steps with
  | nil => intro st; rfl
  | cons s rest ih =>
    intro st
    rw [runInnerSteps_cons]
    dsimp only
    rw [runFetchJob_ok L c hc hL]
    dsimp only
    rw [ih]

theorem runForValues_ok (L : Lib) (c : Transport) (hc : AnswersBelow400 c) (hL : NeverFails L)
    (varname : Str) (steps : List InnerStep) (values : List Str) :
    ∀ st : Run, (runForValues L c varname steps st values).r.err = st.r.err := by
  induction values with
  | nil => intro st; rfl
  | cons v vs ih =>
    intro st
    rw [runForValues, ih, runInnerSteps_ok L c hc hL]

theorem fetchSteps_ok (L : Lib) (c : Transport) (hc : AnswersBelow400 c) (hL : NeverFails L)
    (todo : List Step) :
    ∀ (st : Run) (done : List Step), st.r.err = none →
      (fetchSteps L c st done todo).result.err = none := by
  induction todo with
  | nil => intro st done h; exact h
  | cons s rest ih =>
    intro st done hst
    by_cases h : s.forloop.varname = []
    · rw [fetchSteps_plain L c st done rest s h]
      dsimp only
      rw [runFetchJob_ok L c hc hL]
      dsimp only
      exact ih _ _ hst
    · rw [fetchSteps_loop L c st done rest s h]
      dsimp only
      have hr := runForValues_ok L c hc hL (replaceFromVariablesForLoop L st.world.job s).2.1.forloop.varname
        (replaceFromVariablesForLoop L st.world.job s).2.1.forloop.steps
        (replaceFromVariablesForLoop L st.world.job s).2.1.forloop.values.vis
        ⟨{ st.world with job := (replaceFromVariablesForLoop L st.world.job s).1 }, st.r⟩
      dsimp only at hr
      split_ifs with h1 h2
      · exact hst
      · rw [hr]; exact hst
      · exact ih _ _ (by rw [hr]; exact hst)

/-- A run with a transport that answers below 400 ends without error when requests
build and patterns compile. -/
theorem fetchJob_ok (L : Lib) (c : Transport) (hc : AnswersBelow400 c) (hL : NeverFails L) (j : Job) :
    (fetchJob L c j).result.err = none :=
  fetchSteps_ok L c hc hL j.steps _ _ rfl

/-- C5, as stated, fails: the text `parenText` parses to `parenJob`, whose first step has
a `varfrom` with the pattern `(()`; the transport answers every request with status
200 and a readable body, the pattern does not compile, the run ends with that
error after the first request, and the request of the second step, which the
declared order has, is not sent. -/
theorem C5_counterexample :
    parseJob parenLib ⟨parenText, none⟩ = .ok parenJob ∧
    AnswersBelow400 transport200 ∧
    (fetchJob parenLib transport200 parenJob).panicked = false ∧
    (fetchJob parenLib transport200 parenJob).result.err.map (fun e => e.error)
      = some (.regexpCompile "missing closing )".toList) ∧
    (fetchJob parenLib transport200 parenJob).world.log.map (fun r => (r.method, r.url))
      = [("GET".toList, "https://x/a".toList)] ∧
    (declaredRun parenLib transport200 ⟨parenJob, []⟩ parenJob.steps).log.map (fun r => (r.method, r.url))
      = [("GET".toList, "https://x/a".toList), ("GET".toList, "https://x/b".toList)] ∧
    (fetchJob parenLib transport200 parenJob).world.log
      ≠ (declaredRun parenLib transport200 ⟨parenJob, []⟩ parenJob.steps).log :=
  ⟨by rfl, fun _ _ => ⟨_, rfl, by decide, _, rfl⟩, by decide, by decide, by decide, by decide,
   by decide⟩

/-- C5, amended. For every job, library and transport, when the run of `fetchJob` ends
without an error (every request was built, every answer had a status below 400,
every body was read and every pattern compiled) and without a panic, the requests
handed to the transport are those of the declared order: the top-level steps in
order, a loop container expanded value by value, for each value in order the loop
variable bound to it and each inner step in order. -/
theorem C5_calls_follow_declared_order (L : Lib) (c : Transport) (j : Job)
    (herr : (fetchJob L c j).result.err = none) (hpanic : (fetchJob L c j).panicked = false) :
    (fetchJob L c j).world.log = (declaredRun L c ⟨j, []⟩ j.steps).log :=
  fetchJob_declared L c j herr hpanic

/-- C5 amended, on Scenario 2: the run ends without error and without panic, the calls
are those of the declared order, and they are exactly three GET requests, to
`https://x/a`, `https://x/b` and `https://x/c`, in that order. -/
theorem C5_calls_follow_declared_order_witness :
    (fetchJob demoLib transport200 scenario2Job).result.err = none ∧
    (fetchJob demoLib transport200 scenario2Job).panicked = false ∧
    (fetchJob demoLib transport200 scenario2Job).world.log
      = (declaredRun demoLib transport200 ⟨scenario2Job, []⟩ scenario2Job.steps).log ∧
    (fetchJob demoLib transport200 scenario2Job).world.log.map (fun r => (r.method, r.url))
      = [("GET".toList, "https://x/a".toList), ("GET".toList, "https://x/b".toList),
         ("GET".toList, "https://x/c".toList)] :=
  ⟨by decide, by decide,
   C5_calls_follow_declared_order demoLib transport200 scenario2Job (by decide) (by decide),
   by decide⟩

/-! ### Substitution of variables (C9, C10) -/

theorem replaceGo_skip (old new : Str) (w t : Str) :
    replaceGo old new w.length (w ++ t) = replaceGo old new 0 t := by
  induction w with
  | nil => rfl
  | cons c w ih => simpa [replaceGo] using ih

theorem replaceGo_match (old new t : Str) (c : Char) (o : Str) (h : old = c :: o) :
    replaceGo old new 0 (old ++ t) = new ++ replaceGo old new 0 t := by
  subst h
  have hp : (c :: o).isPrefixOf (c :: (o ++ t)) = true := by
    rw [List.isPrefixOf_iff_prefix]; exact List.prefix_append (c :: o) t
  show replaceGo (c :: o) new 0 (c :: (o ++ t)) = _
  rw [replaceGo]
  rw [if_pos hp]
  simp only [List.length_cons, Nat.add_sub_cancel]
  rw [replaceGo_skip]

theorem replaceGo_step (old new t : Str) (c : Char) (h : old.isPrefixOf (c :: t) = false) :
    replaceGo old new 0 (c :: t) = c :: replaceGo old new 0 t := by
  simp [replaceGo, h]

theorem replaceAll_placeholder (s n v : Str) :
    replaceAll s (placeholder n) v = replaceGo (placeholder n) v 0 s := rfl

/-- Text without an opening curl is copied by the scanner. -/
theorem replaceGo_noOpen (n v : Str) (w t : Str) (h : ∀ c ∈ w, c ≠ '{') :
    replaceGo (placeholder n) v 0 (w ++ t) = w ++ replaceGo (placeholder n) v 0 t := by
  induction w with
  | nil => rfl
  | cons c w ih =>
    have hc : c ≠ '{' := h c (List.mem_cons_self _ _)
    have : (placeholder n).isPrefixOf (c :: (w ++ t)) = false := by
      simp [placeholder, List.isPrefixOf, Ne.symm hc]
    rw [List.cons_append, replaceGo_step _ _ _ _ this, ih (fun d hd => h d (List.mem_cons_of_mem _ hd))]
    rfl

theorem tail_prefix_eq (b u q : Str) (hb : NoBrace b) (hu : NoBrace u)
    (h : (b ++ ['}', '}']).isPrefixOf (u ++ '}' :: '}' :: q) = true) : b = u := by
  induction b generalizing u with
  | nil =>
    cases u with
    | nil => rfl
    | cons d u =>
      have := (hu d (List.mem_cons_self _ _)).2
      simp [List.isPrefixOf] at h
      exact absurd h.1.symm this
  | cons c b ih =>
    cases u with
    | nil =>
      have := (hb c (List.mem_cons_self _ _)).2
      simp [List.isPrefixOf] at h
      exact absurd h.1 this
    | cons d u =>
      simp only [List.cons_append, List.isPrefixOf, Bool.and_eq_true, beq_iff_eq] at h
      rw [h.1, ih u (fun x hx => hb x (List.mem_cons_of_mem _ hx)) (fun x hx => hu x (List.mem_cons_of_mem _ hx)) h.2]

theorem noBrace_tail {c : Char} {s : Str} (h : NoBrace (c :: s)) : NoBrace s :=
  fun x hx => h x (List.mem_cons_of_mem _ hx)

/-- A placeholder of another name does not start where the placeholder of `n` starts. -/
theorem placeholder_no_start (a n q : Str) (ha : NoBrace a) (hn : NoBrace n) (hne : a ≠ n) :
    (placeholder a).isPrefixOf (placeholder n ++ q) = false := by
  cases h : (placeholder a).isPrefixOf (placeholder n ++ q) with
  | false => rfl
  | true =>
    exfalso
    apply hne
    apply tail_prefix_eq a n q ha hn
    simpa [placeholder, List.isPrefixOf] using h

/-- No placeholder starts at the second curl of a placeholder. -/
theorem placeholder_no_start_second (a n q : Str) (hn : NoBrace n) :
    (placeholder a).isPrefixOf ('{' :: (n ++ '}' :: '}' :: q)) = false := by
  cases n with
  | nil => simp [placeholder, List.isPrefixOf]
  | cons d n =>
    have := (hn d (List.mem_cons_self _ _)).1
    simp [placeholder, List.isPrefixOf, Ne.symm this]

/-- The scanner copies the placeholder of another name. -/
theorem replaceGo_pass (a v n q : Str) (ha : NoBrace a) (hn : NoBrace n) (hne : a ≠ n) :
    replaceGo (placeholder a) v 0 (placeholder n ++ q)
      = placeholder n ++ replaceGo (placeholder a) v 0 q := by
  have h0 := placeholder_no_start a n q ha hn hne
  have h1 := placeholder_no_start_second a n q hn
  have h2 : ∀ c ∈ n ++ ['}', '}'], c ≠ '{' := by
    intro c hc
    rcases List.mem_append.mp hc with h | h
    · exact (hn c h).1
    · simp at h; rw [h]; decide
  have e : placeholder n ++ q = '{' :: '{' :: ((n ++ ['}', '}']) ++ q) := by simp [placeholder]
  have e1 : '{' :: (n ++ '}' :: '}' :: q) = '{' :: ((n ++ ['}', '}']) ++ q) := by simp
  rw [e] at h0 ⊢
  rw [e1] at h1
  rw [replaceGo_step _ _ _ _ h0, replaceGo_step _ _ _ _ h1, replaceGo_noOpen _ _ _ _ h2]
  simp [placeholder]

theorem body_prefix_cut (b t rest : Str) (hb : NoBrace b)
    (h : (b ++ ['}', '}']).isPrefixOf (t ++ '{' :: rest) = true) :
    (b ++ ['}', '}']).isPrefixOf t = true := by
  induction b generalizing t with
  | nil =>
    match t, h with
    | [], h => simp [List.isPrefixOf] at h
    | [z], h => simp [List.isPrefixOf] at h
    | z :: z2 :: t, h =>
      simp only [List.nil_append, List.cons_append, List.isPrefixOf, Bool.and_eq_true, beq_iff_eq] at h ⊢
      exact ⟨h.1, h.2.1, trivial⟩
  | cons c b ih =>
    cases t with
    | nil =>
      have := (hb c (List.mem_cons_self _ _)).1
      simp [List.isPrefixOf] at h
      exact absurd h.1 this
    | cons z t =>
      simp only [List.cons_append, List.isPrefixOf, Bool.and_eq_true, beq_iff_eq] at h ⊢
      exact ⟨h.1, ih t (noBrace_tail hb) h.2⟩

theorem placeholder_isPrefixOf_cons (b : Str) (x y : Char) (t : Str) :
    (placeholder b).isPrefixOf (x :: y :: t)
      = ('{' == x && ('{' == y && (b ++ ['}', '}']).isPrefixOf t)) := rfl

/-- A placeholder that starts before the placeholder of another name ends before it. -/
theorem placeholder_prefix_cut (b u t q : Str) (hb : NoBrace b) (hu : NoBrace u) (hne : b ≠ u)
    (h : (placeholder b).isPrefixOf (t ++ (placeholder u ++ q)) = true) :
    (placeholder b).isPrefixOf t = true := by
  match t, h with
  | [], h =>
    have := placeholder_no_start b u q hb hu hne
    simp only [List.nil_append] at h
    rw [this] at h; cases h
  | [x], h =>
    exfalso
    have e : [x] ++ (placeholder u ++ q) = x :: '{' :: ('{' :: (u ++ '}' :: '}' :: q)) := by
      simp [placeholder]
    rw [e, placeholder_isPrefixOf_cons] at h
    simp only [Bool.and_eq_true, beq_iff_eq, true_and] at h
    cases b with
    | nil => simp [List.isPrefixOf] at h
    | cons c b =>
      have := (hb c (List.mem_cons_self _ _)).1
      simp only [List.cons_append, List.isPrefixOf, Bool.and_eq_true, beq_iff_eq] at h
      exact this h.2.1
  | x :: y :: t, h =>
    have e : x :: y :: t ++ (placeholder u ++ q) = x :: y :: (t ++ '{' :: ('{' :: (u ++ '}' :: '}' :: q))) := by
      simp [placeholder]
    rw [e, placeholder_isPrefixOf_cons] at h
    rw [placeholder_isPrefixOf_cons]
    simp only [Bool.and_eq_true, beq_iff_eq] at h ⊢
    exact ⟨h.1, h.2.1, body_prefix_cut b t _ hb h.2.2⟩

/-- A placeholder of an unknown name stays where it is when another name is replaced. -/
theorem replaceGo_keeps (b v u : Str) (hb : NoBrace b) (hu : NoBrace u) (hne : b ≠ u) (k : Nat) :
    ∀ p q : Str, p.length ≤ k →
      replaceGo (placeholder b) v 0 (p ++ (placeholder u ++ q))
        = replaceGo (placeholder b) v 0 p ++ (placeholder u ++ replaceGo (placeholder b) v 0 q) := by
  induction k with
  | zero =>
    intro p q hp
    have : p = [] := List.length_eq_zero.mp (Nat.le_zero.mp hp)
    subst this
    simpa [replaceGo] using replaceGo_pass b v u q hb hu hne
  | succ k ih =>
    intro p q hp
    cases p with
    | nil => simpa [replaceGo] using replaceGo_pass b v u q hb hu hne
    | cons c p =>
      cases hm : (placeholder b).isPrefixOf (c :: p ++ (placeholder u ++ q)) with
      | true =>
        have hpre := placeholder_prefix_cut b u (c :: p) q hb hu hne hm
        obtain ⟨r, hr⟩ := List.isPrefixOf_iff_prefix.mp hpre
        rw [← hr, List.append_assoc, replaceGo_match (placeholder b) v _ '{' ('{' :: (b ++ ['}', '}'])) rfl,
          replaceGo_match (placeholder b) v _ '{' ('{' :: (b ++ ['}', '}'])) rfl]
        have hlen : r.length ≤ k := by
          have := congrArg List.length hr
          simp [placeholder] at this
          simp at hp
          omega
        rw [ih r q hlen, List.append_assoc]
      | false =>
        have hm2 : (placeholder b).isPrefixOf (c :: p) = false := by
          cases h2 : (placeholder b).isPrefixOf (c :: p) with
          | false => rfl
          | true =>
            have := (List.isPrefixOf_iff_prefix.mp h2).trans (List.prefix_append (c :: p) (placeholder u ++ q))
            rw [← List.isPrefixOf_iff_prefix, hm] at this
            cases this
        rw [List.cons_append] at hm ⊢
        rw [replaceGo_step _ _ _ _ hm, replaceGo_step _ _ _ _ hm2]
        have hlen : p.length ≤ k := by simp at hp; omega
        rw [ih p q hlen]
        rfl

theorem render_cons (p : Piece) (ps : List Piece) : render (p :: ps) = p.text ++ render ps := by
  simp [render]

theorem render_append (ps qs : List Piece) : render (ps ++ qs) = render ps ++ render qs := by
  simp [render]

theorem render_lits (x : Str) : render (x.map .lit) = x := by
  induction x with
  | nil => rfl
  | cons c x ih => rw [List.map_cons, render_cons, ih]; rfl

theorem lit_no_start (a : Str) (ha : NoBrace a) (c : Char) (r : List Piece)
    (h : c = '{' → nextLit r ≠ some '{') (hr : WellFormed r) :
    (placeholder a).isPrefixOf (c :: render r) = false := by
  by_cases hc : c = '{'
  · subst hc
    have hn := h rfl
    cases r with
    | nil => rfl
    | cons p r =>
      cases p with
      | lit d =>
        have hd : d ≠ '{' := fun e => hn (by rw [e]; rfl)
        rw [render_cons]
        show (placeholder a).isPrefixOf ('{' :: d :: render r) = false
        rw [placeholder_isPrefixOf_cons]
        simp [Ne.symm hd]
      | ph n =>
        rw [render_cons]
        show (placeholder a).isPrefixOf ('{' :: '{' :: ('{' :: (n ++ ['}', '}']) ++ render r)) = false
        rw [placeholder_isPrefixOf_cons]
        cases a with
        | nil => simp [List.isPrefixOf]
        | cons e a =>
          have := (ha e (List.mem_cons_self _ _)).1
          simp [List.isPrefixOf, this]
  · simp [placeholder, List.isPrefixOf, Ne.symm hc]

/-- Replacing one variable in a well-formed text replaces its placeholders piece by piece. -/
theorem replaceGo_render (a x : Str) (ha : NoBrace a) (ps : List Piece) (h : WellFormed ps) :
    replaceGo (placeholder a) x 0 (render ps) = render (ps.flatMap (substPiece a x)) := by
  induction ps with
  | nil => rfl
  | cons p ps ih =>
    cases p with
    | lit c =>
      have hw : (c = '{' → nextLit ps ≠ some '{') ∧ WellFormed ps := h
      rw [render_cons]
      show replaceGo (placeholder a) x 0 (c :: render ps) = _
      rw [replaceGo_step _ _ _ _ (lit_no_start a ha c ps hw.1 hw.2), ih hw.2]
      simp [render, substPiece, Piece.text]
    | ph n =>
      have hw : NoBrace n ∧ WellFormed ps := h
      rw [render_cons]
      show replaceGo (placeholder a) x 0 (placeholder n ++ render ps) = _
      by_cases hna : n = a
      · subst hna
        rw [replaceGo_match (placeholder n) x _ '{' ('{' :: (n ++ ['}', '}'])) rfl, ih hw.2]
        rw [List.flatMap_cons, render_append]
        simp [substPiece, render_lits]
      · rw [replaceGo_pass a x n _ ha hw.1 (Ne.symm hna), ih hw.2]
        rw [List.flatMap_cons, render_append]
        simp [substPiece, hna, render, Piece.text]

theorem nextLit_subst (a x : Str) (hx : NoBrace x) (r : List Piece)
    (h : nextLit (r.flatMap (substPiece a x)) = some '{') : nextLit r = some '{' := by
  induction r with
  | nil => simp [nextLit] at h
  | cons p r ih =>
    cases p with
    | lit d => simpa [substPiece, nextLit] using h
    | ph n =>
      show nextLit r = some '{'
      by_cases hna : n = a
      · cases x with
        | nil => apply ih; simpa [substPiece, hna] using h
        | cons e x =>
          have := (hx e (List.mem_cons_self _ _)).1
          simp [substPiece, hna, nextLit] at h
          exact absurd h this
      · apply ih; simpa [substPiece, hna, nextLit] using h

theorem wellFormed_lits (x : Str) (hx : NoBrace x) (l : List Piece) (hl : WellFormed l) :
    WellFormed (x.map .lit ++ l) := by
  induction x with
  | nil => exact hl
  | cons c x ih =>
    exact ⟨fun hc => absurd hc (hx c (List.mem_cons_self _ _)).1, ih (noBrace_tail hx)⟩

theorem wellFormed_subst (a x : Str) (hx : NoBrace x) (ps : List Piece) (h : WellFormed ps) :
    WellFormed (ps.flatMap (substPiece a x)) := by
  induction ps with
  | nil => exact h
  | cons p ps ih =>
    cases p with
    | lit c =>
      have hw : (c = '{' → nextLit ps ≠ some '{') ∧ WellFormed ps := h
      exact ⟨fun hc hn => hw.1 hc (nextLit_subst a x hx ps hn), ih hw.2⟩
    | ph n =>
      have hw : NoBrace n ∧ WellFormed ps := h
      rw [List.flatMap_cons]
      by_cases hna : n = a
      · simp only [substPiece, hna, if_true]
        exact wellFormed_lits x hx _ (ih hw.2)
      · simp only [substPiece, hna, if_false]
        exact ⟨hw.1, ih hw.2⟩

theorem substPiece_lits (b y x : Str) : (x.map Piece.lit).flatMap (substPiece b y) = x.map Piece.lit := by
  induction x with
  | nil => rfl
  | cons c x ih => rw [List.map_cons, List.flatMap_cons, ih]; rfl

theorem substPieces_comm (ps : List Piece) (e1 e2 : Str × Str) (hne : e1.1 ≠ e2.1) :
    substPieces (substPieces ps e1) e2 = substPieces (substPieces ps e2) e1 := by
  unfold substPieces
  rw [List.flatMap_assoc, List.flatMap_assoc]
  congr 1
  funext p
  cases p with
  | lit c => rfl
  | ph n =>
    by_cases h1 : n = e1.1
    · subst h1
      simp [substPiece, hne, substPiece_lits]
    · by_cases h2 : n = e2.1
      · subst h2
        simp [substPiece, Ne.symm hne, substPiece_lits]
      · simp [substPiece, h1, h2]

theorem foldl_substText (order : List (Str × Str)) (h : ∀ e ∈ order, NoBrace e.1 ∧ NoBrace e.2) :
    ∀ ps, WellFormed ps →
      order.foldl substText (render ps) = render (order.foldl substPieces ps) := by
  induction order with
  | nil => intro ps _; rfl
  | cons e order ih =>
    intro ps hps
    have he := h e (List.mem_cons_self _ _)
    rw [List.foldl_cons, List.foldl_cons]
    have : substText (render ps) e = render (substPieces ps e) := replaceGo_render e.1 e.2 he.1 ps hps
    rw [this]
    exact ih (fun e' he' => h e' (List.mem_cons_of_mem _ he')) _ (wellFormed_subst e.1 e.2 he.2 ps hps)

/-- On a well-formed text the result of the substitutions does not depend on the order. -/
theorem foldl_substText_perm (vars order : List (Str × Str)) (hperm : order.Perm vars)
    (hkeys : (vars.map Prod.fst).Nodup) (h : ∀ e ∈ vars, NoBrace e.1 ∧ NoBrace e.2)
    (t : Str) (ht : IsTemplate t) :
    order.foldl substText t = vars.foldl substText t := by
  obtain ⟨ps, hps, rfl⟩ := ht
  rw [foldl_substText order (fun e he => h e (hperm.mem_iff.mp he)) ps hps, foldl_substText vars h ps hps]
  congr 1
  apply List.Perm.foldl_eq' hperm
  intro x hx y hy z
  by_cases hxy : x.1 = y.1
  · have hk : (order.map Prod.fst).Nodup := (hperm.map Prod.fst).nodup_iff.mpr hkeys
    have : x = y := List.inj_on_of_nodup_map hk hx hy hxy
    rw [this]
  · exact substPieces_comm z x y hxy

theorem foldl_varReplaceAll (order : Vars) :
    ∀ s : InnerStep, order.foldl varReplaceAll s =
      { s with
        url := order.foldl substText s.url,
        body := order.foldl substText s.body,
        headers := s.headers.map (fun h => { h with value := order.foldl substText h.value }),
        cookies := s.cookies.map (fun c => { c with value := order.foldl substText c.value }) } := by
  induction order with
  | nil => intro s; simp
  | cons e order ih =>
    intro s
    rw [List.foldl_cons, ih]
    simp [varReplaceAll, varReplaceURL, varReplaceBody, varReplaceHeaders, varReplaceCookies, substText,
      List.map_map, Function.comp_def]

theorem replaceFromVariablesIn_url (L : Lib) (order : Vars) (j : Job) (s : InnerStep) :
    (replaceFromVariablesIn L order j s).2.url = substAll order s.url := by
  simp [replaceFromVariablesIn, foldl_varReplaceAll, substAll]

theorem replaceFromVariablesIn_body (L : Lib) (order : Vars) (j : Job) (s : InnerStep) :
    (replaceFromVariablesIn L order j s).2.body = substAll order s.body := by
  simp [replaceFromVariablesIn, foldl_varReplaceAll, substAll]

theorem lookup_none_ne {β : Type} (m : List (Str × β)) (u : Str) (h : lookup m u = none) :
    ∀ e ∈ m, e.1 ≠ u := by
  intro e he heq
  have : (m.find? (fun e => e.1 == u)) = none := by
    unfold lookup at h
    cases hf : m.find? (fun e => e.1 == u) with
    | none => rfl
    | some x => rw [hf] at h; cases h
  rw [List.find?_eq_none] at this
  exact this e he (by simp [heq])

theorem substAll_keeps (u : Str) (hu : NoBrace u) (order : Vars)
    (h : ∀ e ∈ order, NoBrace e.1 ∧ e.1 ≠ u) :
    ∀ p q : Str, substAll order (p ++ (placeholder u ++ q))
      = substAll order p ++ (placeholder u ++ substAll order q) := by
  induction order with
  | nil => intro p q; rfl
  | cons e order ih =>
    intro p q
    have he := h e (List.mem_cons_self _ _)
    unfold substAll at ih ⊢
    rw [List.foldl_cons, List.foldl_cons, List.foldl_cons]
    have : substText (p ++ (placeholder u ++ q)) e
        = substText p e ++ (placeholder u ++ substText q e) :=
      replaceGo_keeps e.1 e.2 u he.1 hu he.2 p.length p q (Nat.le_refl _)
    rw [this]
    exact ih (fun e' he' => h e' (List.mem_cons_of_mem _ he')) _ _

/-- C9, as stated, fails: with the variable `a = 1` and the URL `{{x{{a}}}}`, the name
`x{{a}}` is not a key of the map and its placeholder is the URL, and after
`replaceFromVariables` the URL is `{{x1}}`, which does not contain it. -/
theorem C9_counterexample :
    lookup jobVarA.vars nestedName = none ∧
    containsStr (httpStep "GET".toList (placeholder nestedName)).url (placeholder nestedName) = true ∧
    (replaceFromVariables demoLib jobVarA (httpStep "GET".toList (placeholder nestedName))).2.url
      = placeholder "x1".toList ∧
    containsStr (replaceFromVariables demoLib jobVarA (httpStep "GET".toList (placeholder nestedName))).2.url
      (placeholder nestedName) = false := by
  refine ⟨by decide, by decide, by decide, by decide⟩

/-- C9, amended. When the name `u` and the keys of the map contain no curly bracket and
`u` is not a key, every occurrence of `{{u}}` in the URL and in the body stays
where it is: the text before it and the text after it are substituted on their
own and the placeholder stands between the two results. -/
theorem C9_unknown_placeholder_kept (L : Lib) (j : Job) (s : InnerStep) (u : Str)
    (hu : NoBrace u) (hkeys : ∀ e ∈ j.vars, NoBrace e.1) (hnot : lookup j.vars u = none) :
    (∀ p q : Str, s.url = p ++ (placeholder u ++ q) →
      (replaceFromVariables L j s).2.url
        = substAll j.vars p ++ (placeholder u ++ substAll j.vars q)) ∧
    (∀ p q : Str, s.body = p ++ (placeholder u ++ q) →
      (replaceFromVariables L j s).2.body
        = substAll j.vars p ++ (placeholder u ++ substAll j.vars q)) := by
  have h : ∀ e ∈ j.vars, NoBrace e.1 ∧ e.1 ≠ u :=
    fun e he => ⟨hkeys e he, lookup_none_ne j.vars u hnot e he⟩
  constructor
  · intro p q hs
    rw [replaceFromVariables, replaceFromVariablesIn_url, hs]
    exact substAll_keeps u hu j.vars h p q
  · intro p q hs
    rw [replaceFromVariables, replaceFromVariablesIn_body, hs]
    exact substAll_keeps u hu j.vars h p q

/-- C9 amended, on the URL `https://{{url}}/{{unknown}}/{{id}}` with the variables `url`
and `id`: the placeholder of `unknown` is kept between `https://google.com/` and `/7`. -/
theorem C9_unknown_placeholder_kept_witness :
    NoBrace "unknown".toList ∧ (∀ e ∈ jobTwoVars.vars, NoBrace e.1) ∧
    lookup jobTwoVars.vars "unknown".toList = none ∧
    (replaceFromVariables demoLib jobTwoVars
        (httpStep "GET".toList ("https://\x7b\x7burl\x7d\x7d/".toList
          ++ (placeholder "unknown".toList ++ "/\x7b\x7bid\x7d\x7d".toList)))).2.url
      = "https://google.com/".toList ++ (placeholder "unknown".toList ++ "/7".toList) := by
  refine ⟨by decide, by decide, by decide, ?_⟩
  have h := (C9_unknown_placeholder_kept demoLib jobTwoVars
    (httpStep "GET".toList ("https://\x7b\x7burl\x7d\x7d/".toList
      ++ (placeholder "unknown".toList ++ "/\x7b\x7bid\x7d\x7d".toList)))
    "unknown".toList (by decide) (by decide) (by decide)).1
    "https://\x7b\x7burl\x7d\x7d/".toList "/\x7b\x7bid\x7d\x7d".toList rfl
  rw [h]
  decide

theorem foldl_varReplaceAll_perm (vars order : Vars) (hperm : order.Perm vars)
    (hkeys : (vars.map Prod.fst).Nodup) (hvars : ∀ e ∈ vars, NoBrace e.1 ∧ NoBrace e.2)
    (s : InnerStep) (hurl : IsTemplate s.url) (hbody : IsTemplate s.body)
    (hh : ∀ h ∈ s.headers, IsTemplate h.value) (hc : ∀ c ∈ s.cookies, IsTemplate c.value) :
    order.foldl varReplaceAll s = vars.foldl varReplaceAll s := by
  rw [foldl_varReplaceAll, foldl_varReplaceAll]
  rw [foldl_substText_perm vars order hperm hkeys hvars s.url hurl,
    foldl_substText_perm vars order hperm hkeys hvars s.body hbody]
  have e1 : s.headers.map (fun h => ({ h with value := order.foldl substText h.value } : Header))
      = s.headers.map (fun h => ({ h with value := vars.foldl substText h.value } : Header)) := by
    apply List.map_congr_left
    intro h hm
    rw [foldl_substText_perm vars order hperm hkeys hvars h.value (hh h hm)]
  have e2 : s.cookies.map (fun c => ({ c with value := order.foldl substText c.value } : Cookie))
      = s.cookies.map (fun c => ({ c with value := vars.foldl substText c.value } : Cookie)) := by
    apply List.map_congr_left
    intro c hm
    rw [foldl_substText_perm vars order hperm hkeys hvars c.value (hc c hm)]
  rw [e1, e2]

/-- C10, as stated, fails: with the variables `a = b` and `b = y`, none of whose values
contains a placeholder, the URL `{{{{a}}}}` becomes `y` when `a` is replaced first
and `{{b}}` when `b` is replaced first. -/
theorem C10_counterexample :
    (∀ e ∈ jobChain.vars, ∀ n ∈ jobChain.vars, containsStr e.2 (placeholder n.1) = false) ∧
    (replaceFromVariablesIn demoLib jobChain.vars jobChain (httpStep "GET".toList nestedUrl)).2.url
      = "y".toList ∧
    (replaceFromVariablesIn demoLib jobChain.vars.reverse jobChain (httpStep "GET".toList nestedUrl)).2.url
      = placeholder "b".toList := by
  refine ⟨by decide, by decide, by decide⟩

/-- C10, amended. When the variable names and values contain no curly bracket and the URL,
the body, the header values (global and local) and the job cookie values are made
of placeholders `{{n}}`, `n` without curly bracket, and other characters of which
no two consecutive ones are both `{`, `replaceFromVariables` gives the same step
(URL, body, header values, cookie values) and the same job for every order in
which the variables are iterated. -/
theorem C10_order_irrelevant (L : Lib) (j : Job) (s : InnerStep) (order : Vars)
    (hperm : order.Perm j.vars) (hkeys : (j.vars.map Prod.fst).Nodup)
    (hvars : ∀ e ∈ j.vars, NoBrace e.1 ∧ NoBrace e.2)
    (hurl : IsTemplate s.url) (hbody : IsTemplate s.body)
    (hh : ∀ h ∈ j.globalHeaders.vis ++ s.headers, IsTemplate h.value)
    (hc : ∀ c ∈ j.cookies, IsTemplate c.value) :
    replaceFromVariablesIn L order j s = replaceFromVariablesIn L j.vars j s := by
  have hhs : (appendSlice L (⟨[], []⟩ : Header) j.globalHeaders s.headers).1.vis
      = j.globalHeaders.vis ++ s.headers := by
    unfold appendSlice
    split_ifs <;> rfl
  have key : order.foldl varReplaceAll
        { s with headers := (appendSlice L (⟨[], []⟩ : Header) j.globalHeaders s.headers).1.vis,
                 cookies := [] ++ j.cookies }
      = j.vars.foldl varReplaceAll
        { s with headers := (appendSlice L (⟨[], []⟩ : Header) j.globalHeaders s.headers).1.vis,
                 cookies := [] ++ j.cookies } := by
    apply foldl_varReplaceAll_perm j.vars order hperm hkeys hvars
    · exact hurl
    · exact hbody
    · intro h hm
      exact hh h (by rw [← hhs]; exact hm)
    · intro c hm
      exact hc c (by simpa using hm)
  unfold replaceFromVariablesIn
  simp only [key]

/-- C10 amended, on a POST step with URL `https://{{url}}/{{id}}` and a JSON body, with
the variables `url` and `id` iterated in the two possible orders. -/
theorem C10_order_irrelevant_witness :
    jobTwoVars.vars.reverse.Perm jobTwoVars.vars ∧ (jobTwoVars.vars.map Prod.fst).Nodup ∧
    (∀ e ∈ jobTwoVars.vars, NoBrace e.1 ∧ NoBrace e.2) ∧
    replaceFromVariablesIn demoLib jobTwoVars.vars.reverse jobTwoVars stepTwoVars
      = replaceFromVariablesIn demoLib jobTwoVars.vars jobTwoVars stepTwoVars ∧
    (replaceFromVariablesIn demoLib jobTwoVars.vars.reverse jobTwoVars stepTwoVars).2.url
      = "https://google.com/7".toList :=
  ⟨List.reverse_perm _, by decide, by decide,
   C10_order_irrelevant demoLib jobTwoVars stepTwoVars jobTwoVars.vars.reverse
     (List.reverse_perm _) (by decide) (by decide)
     ⟨urlPieces, by decide, rfl⟩ ⟨bodyPieces, by decide, rfl⟩
     (by
       intro h hm
       have hm2 : h = ⟨"X-Id".toList, placeholder "id".toList⟩ ∨ h = ⟨"Host".toList, placeholder "url".toList⟩ := by
         simpa [jobTwoVars, stepTwoVars, httpStep, Job.init] using hm
       rcases hm2 with e | e
       · rw [e]; exact ⟨[Piece.ph "id".toList], by decide, rfl⟩
       · rw [e]; exact ⟨[Piece.ph "url".toList], by decide, rfl⟩)
     (by
       intro c hm
       have hm2 : c = ⟨"sid".toList, placeholder "id".toList, "/".toList, "x".toList, [], 0, false, false⟩ := by
         simpa [jobTwoVars, Job.init] using hm
       rw [hm2]; exact ⟨[Piece.ph "id".toList], by decide, rfl⟩),
   by decide⟩

/-! ### Parsing of job texts (C4, C6) -/

theorem splitLineStart_match (c1 c2 : Char) (acc s : Str) :
    splitLineStart c1 c2 true acc (c1 :: c2 :: s) = acc.reverse :: splitLineStart c1 c2 false [] s := by
  simp [splitLineStart]

theorem splitLineStart_step (c1 c2 : Char) (bol : Bool) (acc : Str) (x : Char) (s : Str)
    (h : (bol && x == c1 && s.head? == some c2) = false) :
    splitLineStart c1 c2 bol acc (x :: s) = splitLineStart c1 c2 (x == '\n') (x :: acc) s := by
  cases s with
  | nil => simp [splitLineStart]
  | cons y s =>
    rw [splitLineStart]
    have : (bol && x == c1 && y == c2) = false := by simpa using h
    simp [this]

theorem splitLineStart_line (c1 c2 : Char) (l : Str) (hl : OneLine l) (acc t : Str) :
    splitLineStart c1 c2 false acc (l ++ t) = splitLineStart c1 c2 false (l.reverse ++ acc) t := by
  induction l generalizing acc with
  | nil => rfl
  | cons x l ih =>
    have hx : x ≠ '\n' := hl x (List.mem_cons_self _ _)
    rw [List.cons_append, splitLineStart_step c1 c2 false acc x (l ++ t) (by simp)]
    have : (x == '\n') = false := by simpa using hx
    rw [this, ih (fun c hc => hl c (List.mem_cons_of_mem _ hc))]
    simp

theorem splitLineStart_newline (c1 c2 : Char) (h1 : c1 ≠ '\n') (bol : Bool) (acc t : Str) :
    splitLineStart c1 c2 bol acc ('\n' :: t) = splitLineStart c1 c2 true ('\n' :: acc) t := by
  rw [splitLineStart_step c1 c2 bol acc '\n' t (by simp [Ne.symm h1])]
  rfl

/-- A line that does not start with `c1`, read from the start of a line. -/
theorem splitLineStart_other (c1 c2 : Char) (h1 : c1 ≠ '\n') (l : Str) (hl : OneLine l)
    (hh : l.head? ≠ some c1) (acc t : Str) :
    splitLineStart c1 c2 true acc (l ++ '\n' :: t)
      = splitLineStart c1 c2 true ('\n' :: (l.reverse ++ acc)) t := by
  cases l with
  | nil => exact splitLineStart_newline c1 c2 h1 true acc t
  | cons x l =>
    have hx : x ≠ '\n' := hl x (List.mem_cons_self _ _)
    have hx1 : x ≠ c1 := fun e => hh (by rw [e]; rfl)
    rw [List.cons_append, splitLineStart_step c1 c2 true acc x _ (by simp [hx1])]
    have : (x == '\n') = false := by simpa using hx
    rw [this, splitLineStart_line c1 c2 l (fun c hc => hl c (List.mem_cons_of_mem _ hc)),
      splitLineStart_newline c1 c2 h1]
    simp

theorem splitLineStart_others (c1 c2 : Char) (h1 : c1 ≠ '\n') (ls : List Str)
    (hl : ∀ l ∈ ls, OneLine l ∧ l.head? ≠ some c1) (t : Str) :
    ∀ acc, splitLineStart c1 c2 true acc (ls.flatMap (fun l => l ++ ['\n']) ++ t)
      = splitLineStart c1 c2 true ((ls.flatMap (fun l => l ++ ['\n'])).reverse ++ acc) t := by
  induction ls with
  | nil => intro acc; rfl
  | cons l ls ih =>
    intro acc
    have h := hl l (List.mem_cons_self _ _)
    have e : (l :: ls).flatMap (fun l => l ++ ['\n']) ++ t
        = l ++ '\n' :: (ls.flatMap (fun l => l ++ ['\n']) ++ t) := by simp
    rw [e, splitLineStart_other c1 c2 h1 l h.1 h.2, ih (fun l' hl' => hl l' (List.mem_cons_of_mem _ hl'))]
    simp

theorem restLines_ok (b : Block) (hb : b.Ok) :
    ∀ l ∈ b.restLines, OneLine l ∧ l.head? ≠ some '-' := by
  intro l hl
  rcases List.mem_append.mp hl with h | h
  · obtain ⟨l', hl', rfl⟩ := List.mem_map.mp h
    refine ⟨?_, by simp⟩
    intro c hc
    rcases List.mem_cons.mp hc with rfl | hc
    · decide
    · rcases List.mem_cons.mp hc with rfl | hc
      · decide
      · exact hb.2.2 l' hl' c hc
  · rw [List.eq_of_mem_replicate h]
    exact ⟨fun c hc => (by cases hc), (by simp)⟩

/-- The steps of a job text: `regexp.Split` gives the empty text before the first `- `
and then the body of every block. -/
theorem splitLineStart_jobText (bs : List Block) (hbs : ∀ b ∈ bs, b.Ok) :
    ∀ acc, splitLineStart '-' ' ' true acc (jobText bs) = acc.reverse :: bs.map Block.body := by
  induction bs with
  | nil => intro acc; rfl
  | cons b bs ih =>
    intro acc
    have hb := hbs b (List.mem_cons_self _ _)
    have e : jobText (b :: bs) = '-' :: ' ' :: (b.first ++ '\n' :: (b.restLines.flatMap (fun l => l ++ ['\n']) ++ jobText bs)) := by
      simp [jobText, Block.text, Block.body]
    rw [e, splitLineStart_match, splitLineStart_line _ _ _ hb.1, splitLineStart_newline _ _ (by decide),
      splitLineStart_others _ _ (by decide) _ (restLines_ok b hb), ih (fun b' hb' => hbs b' (List.mem_cons_of_mem _ hb'))]
    simp [Block.body]

theorem replaceGo_newline (s : Str) :
    replaceGo ['\n'] [] 0 s = s.filter (fun c => c != '\n') := by
  induction s with
  | nil => rfl
  | cons c s ih =>
    by_cases hc : c = '\n'
    · subst hc
      simp [replaceGo, List.isPrefixOf, ih]
    · have : ('\n' == c) = false := by simpa using Ne.symm hc
      simp [replaceGo, List.isPrefixOf, this, ih, hc]

theorem stripNL_eq (s : Str) : replaceAll s ['\n'] [] = s.filter (fun c => c != '\n') :=
  replaceGo_newline s

theorem stripNL_oneLine (l : Str) (hl : OneLine l) : replaceAll l ['\n'] [] = l := by
  rw [stripNL_eq, List.filter_eq_self]
  intro c hc
  simpa using hl c hc

theorem stripNL_blank (ls : List Str) (h : ∀ l ∈ ls, l = []) :
    replaceAll (ls.flatMap (fun l => l ++ ['\n'])) ['\n'] [] = [] := by
  rw [stripNL_eq, List.filter_eq_nil_iff]
  intro c hc
  obtain ⟨l, hl, hcl⟩ := List.mem_flatMap.mp hc
  rw [h l hl] at hcl
  simp at hcl
  simp [hcl]

theorem stripNL_append (a b : Str) :
    replaceAll (a ++ b) ['\n'] [] = replaceAll a ['\n'] [] ++ replaceAll b ['\n'] [] := by
  simp [stripNL_eq]

/-- The rows of the lines after the first one, line feeds removed. -/
theorem splitLineStart_conts (k : Nat) (conts : List Str) (hc : ∀ l ∈ conts, OneLine l) :
    ∀ acc, (splitLineStart ' ' ' ' true acc
        ((conts.map (fun l => ' ' :: ' ' :: l) ++ List.replicate k []).flatMap (fun l => l ++ ['\n']))).map
          (fun row => replaceAll row ['\n'] [])
      = replaceAll acc.reverse ['\n'] [] :: conts := by
  induction conts with
  | nil =>
    intro acc
    have h := splitLineStart_others ' ' ' ' (by decide) (List.replicate k [])
      (fun l hl => by rw [List.eq_of_mem_replicate hl]; exact ⟨fun c hc => (by cases hc), (by simp)⟩) [] acc
    simp only [List.append_nil] at h
    simp only [List.map_nil, List.nil_append]
    rw [h]
    simp only [splitLineStart, List.map_cons, List.map_nil, List.reverse_append, List.reverse_reverse]
    rw [stripNL_append, stripNL_blank _ (fun l hl => List.eq_of_mem_replicate hl)]
    simp
  | cons l ls ih =>
    intro acc
    have e : ((l :: ls).map (fun l => ' ' :: ' ' :: l) ++ List.replicate k []).flatMap (fun l => l ++ ['\n'])
        = ' ' :: ' ' :: (l ++ '\n' :: ((ls.map (fun l => ' ' :: ' ' :: l) ++ List.replicate k []).flatMap
            (fun l => l ++ ['\n']))) := by simp
    rw [e, splitLineStart_match, splitLineStart_line _ _ _ (hc l (List.mem_cons_self _ _)),
      splitLineStart_newline _ _ (by decide)]
    rw [List.map_cons, ih (fun l' hl' => hc l' (List.mem_cons_of_mem _ hl'))]
    simp only [List.append_nil, List.reverse_cons, List.reverse_reverse]
    rw [stripNL_append, stripNL_oneLine l (hc l (List.mem_cons_self _ _))]
    simp [stripNL_eq]

/-- The rows of a block, line feeds removed, are its lines. -/
theorem splitLineStart_body (b : Block) (hb : b.Ok) :
    (splitLineStart ' ' ' ' true [] b.body).map (fun row => replaceAll row ['\n'] [])
      = b.first :: b.conts := by
  obtain ⟨c, r, hfirst, hc⟩ := hb.2.1
  have hh : b.first.head? ≠ some ' ' := by
    rw [hfirst]
    intro e
    simp at e
    rw [e] at hc
    simp [isTrim] at hc
  unfold Block.body Block.restLines
  rw [splitLineStart_other ' ' ' ' (by decide) b.first hb.1 hh, splitLineStart_conts b.blanks b.conts hb.2.2]
  simp only [List.append_nil, List.reverse_cons, List.reverse_reverse]
  rw [stripNL_append, stripNL_oneLine b.first hb.1]
  simp [stripNL_eq]

theorem createStepRows_congr (L : Lib) (rows : List Str) :
    ∀ (rows2 : List Str) (j : Job) (stp : Step),
      rows.map (fun row => replaceAll row ['\n'] []) = rows2.map (fun row => replaceAll row ['\n'] []) →
      createStepRows L j stp rows = createStepRows L j stp rows2 := by
  induction rows with
  | nil =>
    intro rows2 j stp h
    cases rows2 with
    | nil => rfl
    | cons r rs => simp at h
  | cons r rs ih =>
    intro rows2 j stp h
    cases rows2 with
    | nil => simp at h
    | cons r2 rs2 =>
      simp only [List.map_cons, List.cons.injEq] at h
      rw [createStepRows, createStepRows, h.1]
      cases createStepLine L j stp (replaceAll r2 ['\n'] []) with
      | error e => rfl
      | ok p => exact ih rs2 p.1 p.2 h.2

theorem createStepRows_lines (L : Lib) (ls : List Str) (h : ∀ l ∈ ls, OneLine l) :
    ∀ (j : Job) (stp : Step), createStepRows L j stp ls = createLines L j stp ls := by
  induction ls with
  | nil => intro j stp; rfl
  | cons l ls ih =>
    intro j stp
    rw [createStepRows, createLines, stripNL_oneLine l (h l (List.mem_cons_self _ _))]
    cases createStepLine L j stp l with
    | error e => rfl
    | ok p => exact ih (fun l' hl' => h l' (List.mem_cons_of_mem _ hl')) p.1 p.2

/-- `createStep` on the body of a block works on the lines of the block. -/
theorem createStep_body (L : Lib) (j : Job) (b : Block) (hb : b.Ok) :
    createStep L j b.body = createStepEnd (createLines L j Step.zero (b.first :: b.conts)) := by
  unfold createStep
  have hl : ∀ l ∈ b.first :: b.conts, OneLine l := by
    intro l hl
    rcases List.mem_cons.mp hl with rfl | h
    · exact hb.1
    · exact hb.2.2 l h
  rw [createStepRows_congr L _ (b.first :: b.conts) j Step.zero, createStepRows_lines L _ hl]
  rw [splitLineStart_body b hb]
  symm
  rw [List.map_congr_left (fun l h => stripNL_oneLine l (hl l h))]
  simp

theorem trimStr_body_ne (b : Block) (hb : b.Ok) : trimStr b.body ≠ [] := by
  obtain ⟨c, r, hfirst, hc⟩ := hb.2.1
  intro h
  unfold trimStr at h
  rw [List.rdropWhile_eq_nil_iff] at h
  have e : b.body = c :: (r ++ '\n' :: b.restLines.flatMap (fun l => l ++ ['\n'])) := by
    simp [Block.body, hfirst]
  rw [e, List.dropWhile_cons_of_neg (by simp [hc])] at h
  have := h c (List.mem_cons_self _ _)
  rw [hc] at this
  cases this

theorem createStepsLoop_blocks (L : Lib) (bs : List Block) (hbs : ∀ b ∈ bs, b.Ok) :
    ∀ j, createStepsLoop L j (bs.map Block.body) = createBlocks L j bs := by
  induction bs with
  | nil => intro j; rfl
  | cons b bs ih =>
    intro j
    have hb := hbs b (List.mem_cons_self _ _)
    rw [List.map_cons, createStepsLoop, if_neg (trimStr_body_ne b hb), createStep_body L j b hb, createBlocks]
    cases h : createStepEnd (createLines L j Step.zero (b.first :: b.conts)) with
    | mk j1 e =>
      cases e with
      | some e => rfl
      | none => exact ih (fun b' hb' => hbs b' (List.mem_cons_of_mem _ hb')) j1

/-- `createSteps` on a job text made of blocks. -/
theorem createSteps_jobText (L : Lib) (j : Job) (bs : List Block) (hbs : ∀ b ∈ bs, b.Ok)
    (v : Option Vars) :
    createSteps L j ⟨jobText bs, v⟩ =
      (match createBlocks L j bs with
       | (j1, some e) => (j1, some e)
       | (j1, none) =>
         if j1.forcounter > 0 then (j1, some .forWithoutForend)
         else if j1.forcounter < 0 then (j1, some .forendWithoutFor)
         else (j1, none)) := by
  unfold createSteps
  rw [splitLineStart_jobText bs hbs []]
  have : createStepsLoop L j ([].reverse :: bs.map Block.body) = createBlocks L j bs := by
    rw [createStepsLoop, if_pos (by rfl)]
    exact createStepsLoop_blocks L bs hbs j
  rw [this]

theorem trimStr_clean (l : Str) (h0 : ∃ c0 rest, l = c0 :: rest ∧ isTrim c0 = false)
    (h1 : EndsClean l) : trimStr l = l := by
  obtain ⟨c0, rest, h0, hc0⟩ := h0
  obtain ⟨r, c, h1, hc⟩ := h1
  unfold trimStr
  have : l.dropWhile isTrim = l := by
    rw [h0, List.dropWhile_cons_of_neg (by simp [hc0])]
  rw [this, h1, List.rdropWhile_concat_neg _ _ _ (by simp [hc])]

theorem cutSpace_token (u : Str) (h : ∀ c ∈ u, c ≠ ' ') : cutSpace u = none := by
  induction u with
  | nil => rfl
  | cons c u ih =>
    have hc : c ≠ ' ' := h c (List.mem_cons_self _ _)
    simp [cutSpace, hc, ih (fun d hd => h d (List.mem_cons_of_mem _ hd))]

theorem cutSpace_word (w rest : Str) (h : ∀ c ∈ w, c ≠ ' ') :
    cutSpace (w ++ ' ' :: rest) = some (w, rest) := by
  induction w with
  | nil => simp [cutSpace]
  | cons c w ih =>
    have hc : c ≠ ' ' := h c (List.mem_cons_self _ _)
    simp [cutSpace, hc, ih (fun d hd => h d (List.mem_cons_of_mem _ hd))]

theorem token_endsClean (u : Str) (h : Token u) : EndsClean u := by
  obtain ⟨hne, hall⟩ := h
  refine ⟨u.dropLast, u.getLast hne, (List.dropLast_append_getLast hne).symm, ?_⟩
  have := hall _ (List.getLast_mem hne)
  simp [isTrim, this.1, this.2.1]

theorem endsClean_append (p l : Str) (h : EndsClean l) : EndsClean (p ++ l) := by
  obtain ⟨r, c, rfl, hc⟩ := h
  exact ⟨p ++ r, c, by simp, hc⟩

theorem endsClean_word (w l : Str) (h : EndsClean l) : EndsClean (w ++ ' ' :: l) := by
  have := endsClean_append (w ++ [' ']) l h
  simpa using this

theorem createHTTPStep_token (s : Step) (m u : Str) (hu : Token u) :
    createHTTPStep s m u = .ok { s with method := m, url := u } := by
  have h1 : cutSpace u = none := cutSpace_token u (fun c hc => (hu.2 c hc).1)
  unfold createHTTPStep
  simp [splitN, h1, hu.1]

theorem createHTTPStep_body (s : Step) (m u b : Str) (hu : Token u) :
    createHTTPStep s m (u ++ ' ' :: b)
      = .ok { s with method := m, url := u, body := if m ≠ "GET".toList then b else s.body } := by
  have h1 : cutSpace (u ++ ' ' :: b) = some (u, b) := cutSpace_word u b (fun c hc => (hu.2 c hc).1)
  unfold createHTTPStep
  by_cases hm : m = "GET".toList
  · simp [splitN, h1, hu.1, hm]
  · have hm2 : ¬ m = ['G', 'E', 'T'] := hm
    simp [splitN, h1, hu.1, hm2]

theorem createHTTPStep_args (m u : Str) (body : Option Str) (hu : Token u) :
    createHTTPStep Step.zero m (httpArgs u body)
      = .ok { Step.zero with method := m, url := u, body := httpBody m body } := by
  cases body with
  | none => exact createHTTPStep_token Step.zero m u hu
  | some b => exact createHTTPStep_body Step.zero m u b hu

theorem httpArgs_endsClean (u : Str) (body : Option Str) (hu : Token u)
    (hb : ∀ b, body = some b → EndsClean b) : EndsClean (httpArgs u body) := by
  cases body with
  | none => exact token_endsClean u hu
  | some b => exact endsClean_word u b (hb b rfl)

/-- A line `M URL` or `M URL BODY` sets the method, the URL and the body of the step. -/
theorem createStepLine_http (L : Lib) (j : Job) (m u : Str) (body : Option Str) (hm : m ∈ methods)
    (hu : Token u) (hb : ∀ b, body = some b → EndsClean b) :
    createStepLine L j Step.zero (m ++ ' ' :: httpArgs u body)
      = .ok (j, { Step.zero with method := m, url := u, body := httpBody m body }) := by
  have hend := endsClean_word m _ (httpArgs_endsClean u body hu hb)
  have hmem : m = "GET".toList ∨ m = "POST".toList ∨ m = "PATCH".toList ∨ m = "PUT".toList
      ∨ m = "DELETE".toList := by simpa [methods] using hm
  have hw : ∀ c ∈ m, c ≠ ' ' := by
    rcases hmem with h | h | h | h | h <;> subst h <;> decide
  have hsplit : splitN 2 (m ++ ' ' :: httpArgs u body) = [m, httpArgs u body] := by
    simp [splitN, cutSpace_word m _ hw]
  have htrim : trimStr (m ++ ' ' :: httpArgs u body) = m ++ ' ' :: httpArgs u body := by
    rcases hmem with h | h | h | h | h <;> subst h <;>
      exact trimStr_clean _ ⟨_, _, rfl, by decide⟩ hend
  unfold createStepLine
  rw [htrim, hsplit]
  rcases hmem with h | h | h | h | h <;> subst h <;>
    simp [toLower, lowerChar, lookup, stepTypes, createGet, createPost, createPatch, createPut,
      createDelete, createHTTPStep_args _ u body hu, Except.map]

theorem createStepLine_var (L : Lib) (j : Job) (stp : Step) (a : Str) (ha : EndsClean a) :
    createStepLine L j stp ("var".toList ++ ' ' :: a) = createVar L j stp a := by
  have hsplit : splitN 2 ("var".toList ++ ' ' :: a) = ["var".toList, a] := by
    simp [splitN, cutSpace]
  have ht : trimStr ("var".toList ++ ' ' :: a) = "var".toList ++ ' ' :: a :=
    trimStr_clean _ ⟨'v', _, rfl, by decide⟩ (endsClean_word _ a ha)
  unfold createStepLine
  rw [ht, hsplit]
  simp [toLower, lowerChar, lookup, stepTypes]

theorem createStepLine_forend (L : Lib) (j : Job) (stp : Step) :
    createStepLine L j stp "forend".toList = endForLoop L j stp [] := by
  have ht : trimStr "forend".toList = "forend".toList := by decide
  unfold createStepLine
  rw [ht]
  simp [splitN, cutSpace, toLower, lowerChar, lookup, stepTypes]

theorem createStepLine_for (L : Lib) (j : Job) (stp : Step) (v a : Str) (ha : EndsClean a) :
    createStepLine L j stp ("for".toList ++ ' ' :: (v ++ ' ' :: 'i' :: 'n' :: ' ' :: a))
      = startForLoop L j stp (v ++ ' ' :: 'i' :: 'n' :: ' ' :: a) := by
  have hsplit : splitN 2 ("for".toList ++ ' ' :: (v ++ ' ' :: 'i' :: 'n' :: ' ' :: a))
      = ["for".toList, v ++ ' ' :: 'i' :: 'n' :: ' ' :: a] := by
    simp [splitN, cutSpace]
  have hend : EndsClean ("for".toList ++ ' ' :: (v ++ ' ' :: 'i' :: 'n' :: ' ' :: a)) := by
    apply endsClean_word
    have := endsClean_word (v ++ ' ' :: 'i' :: ['n']) a ha
    simpa using this
  have ht : trimStr ("for".toList ++ ' ' :: (v ++ ' ' :: 'i' :: 'n' :: ' ' :: a))
      = "for".toList ++ ' ' :: (v ++ ' ' :: 'i' :: 'n' :: ' ' :: a) :=
    trimStr_clean _ ⟨'f', _, rfl, by decide⟩ hend
  unfold createStepLine
  rw [ht, hsplit]
  simp [toLower, lowerChar, lookup, stepTypes]

theorem startForLoop_open (L : Lib) (j : Job) (stp : Step) (v a : Str) (xs : List Str)
    (hv : Token v) (hj : L.jsonStrings a = some xs) (hadd : j.addTo = []) (harr : j.arrays = []) :
    startForLoop L j stp (v ++ ' ' :: 'i' :: 'n' :: ' ' :: a)
      = .ok ({ j with addTo := [j.steps.length], forcounter := j.forcounter + 1 },
             { stp with forloop := ⟨v, ⟨xs, List.replicate (L.jsonSpare xs) []⟩, []⟩ }) := by
  have h1 : cutSpace (v ++ ' ' :: 'i' :: 'n' :: ' ' :: a) = some (v, 'i' :: 'n' :: ' ' :: a) :=
    cutSpace_word v _ (fun c hc => (hv.2 c hc).1)
  have h2 : cutSpace ('i' :: 'n' :: ' ' :: a) = some (['i', 'n'], a) := by simp [cutSpace]
  have hsplit : splitN 3 (v ++ ' ' :: 'i' :: 'n' :: ' ' :: a) = [v, ['i', 'n'], a] := by
    simp [splitN, h1, h2]
  unfold startForLoop
  rw [hsplit]
  simp [hadd, harr, toLower, lowerChar, lookup, hj]

theorem createLines_vars (L : Lib) (decls : List VarDecl)
    (h : ∀ v ∈ decls, OneLine v.json ∧ EndsClean v.json ∧ L.jsonVariable v.json = some (v.name, v.value)
      ∧ v.name ≠ [] ∧ v.value ≠ []) :
    ∀ (j : Job) (stp : Step),
      createLines L j stp (decls.map (fun v => "var".toList ++ ' ' :: v.json))
        = ({ j with vars := declare j.vars decls }, stp, none) := by
  induction decls with
  | nil => intro j stp; rfl
  | cons v decls ih =>
    intro j stp
    obtain ⟨_, h2, h3, h4, h5⟩ := h v (List.mem_cons_self _ _)
    rw [List.map_cons, createLines, createStepLine_var L j stp v.json h2]
    simp only [createVar, h3, h4, h5, if_false]
    rw [ih (fun v' hv' => h v' (List.mem_cons_of_mem _ hv'))]
    rfl

theorem createLines_http (L : Lib) (j : Job) (d : HttpDesc) (hd : d.Good L) :
    createLines L j Step.zero (d.block.first :: d.block.conts)
      = ({ j with vars := declare j.vars d.decls }, d.step, none) := by
  show createLines L j Step.zero ((d.m ++ ' ' :: httpArgs d.u d.body) :: _) = _
  rw [createLines, createStepLine_http L j d.m d.u d.body hd.1 hd.2.1 (fun b hb => (hd.2.2.1 b hb).2)]
  exact createLines_vars L d.decls hd.2.2.2 j _

theorem methods_oneLine : ∀ m ∈ methods, ∀ c ∈ m, c ≠ '\n' := by decide

theorem methods_head : ∀ m ∈ methods, ∃ c r, m = c :: r ∧ isTrim c = false := by
  intro m hm
  have hmem : m = "GET".toList ∨ m = "POST".toList ∨ m = "PATCH".toList ∨ m = "PUT".toList
      ∨ m = "DELETE".toList := by simpa [methods] using hm
  rcases hmem with e | e | e | e | e <;> subst e <;> exact ⟨_, _, rfl, by decide⟩

theorem httpBlock_ok (L : Lib) (d : HttpDesc) (hd : d.Good L) : d.block.Ok := by
  refine ⟨?_, ?_, ?_⟩
  · intro c hc
    rcases List.mem_append.mp hc with h | h
    · exact methods_oneLine d.m hd.1 c h
    · rcases List.mem_cons.mp h with rfl | h
      · decide
      · cases hbody : d.body with
        | none =>
          rw [hbody] at h
          exact (hd.2.1.2 c h).2.2
        | some b =>
          rw [hbody] at h
          rcases List.mem_append.mp h with h | h
          · exact (hd.2.1.2 c h).2.2
          · rcases List.mem_cons.mp h with rfl | h
            · decide
            · exact (hd.2.2.1 b hbody).1 c h
  · obtain ⟨c, r, hm, hc⟩ := methods_head d.m hd.1
    exact ⟨c, r ++ ' ' :: httpArgs d.u d.body, by show d.m ++ _ = _; rw [hm]; rfl, hc⟩
  · intro l hl
    obtain ⟨v, hv, rfl⟩ := List.mem_map.mp hl
    intro c hc
    rcases List.mem_append.mp hc with h | h
    · have hvar : ∀ x ∈ "var".toList, x ≠ '\n' := by decide
      exact hvar c h
    · rcases List.mem_cons.mp h with rfl | h
      · decide
      · exact (hd.2.2.2 v hv).1 c h

theorem lookup_assign_same {β : Type} (m : List (Str × β)) (k : Str) (x : β) :
    lookup (assign m k x) k = some x := by
  induction m with
  | nil => simp [assign, lookup]
  | cons e m ih =>
    by_cases h : e.1 = k
    · simp [assign, h, lookup]
    · have h2 : (e.1 == k) = false := by simpa using h
      simp only [assign, h2, Bool.false_eq_true, if_false]
      unfold lookup at ih ⊢
      rw [List.find?_cons_of_neg _ (by simp [h])]
      exact ih

theorem lookup_assign_other {β : Type} (m : List (Str × β)) (k k2 : Str) (x : β) (hk : k2 ≠ k) :
    lookup (assign m k x) k2 = lookup m k2 := by
  induction m with
  | nil =>
    simp only [assign, lookup]
    rw [List.find?_cons_of_neg _ (by simp [Ne.symm hk])]
  | cons e m ih =>
    by_cases h : e.1 = k
    · have h2 : (e.1 == k) = true := by simpa using h
      simp only [assign, h2, if_true]
      unfold lookup
      rw [List.find?_cons_of_neg _ (by simp [Ne.symm hk]), List.find?_cons_of_neg _ (by simp [h, Ne.symm hk])]
    · have h2 : (e.1 == k) = false := by simpa using h
      simp only [assign, h2, Bool.false_eq_true, if_false]
      unfold lookup at ih ⊢
      by_cases h3 : e.1 = k2
      · rw [List.find?_cons_of_pos _ (by simp [h3]), List.find?_cons_of_pos _ (by simp [h3])]
      · rw [List.find?_cons_of_neg _ (by simp [h3]), List.find?_cons_of_neg _ (by simp [h3])]
        exact ih

theorem lookup_declare_other (decls : List VarDecl) (k : Str) (hk : k ∉ decls.map (fun v => v.name)) :
    ∀ m : Vars, lookup (declare m decls) k = lookup m k := by
  induction decls with
  | nil => intro m; rfl
  | cons w rest ih =>
    intro m
    simp only [List.map_cons, List.mem_cons, not_or] at hk
    show lookup (declare (assign m w.name w.value) rest) k = _
    rw [ih hk.2, lookup_assign_other m w.name k w.value hk.1]

theorem lookup_declare (decls : List VarDecl) (hn : (decls.map (fun v => v.name)).Nodup) :
    ∀ (m : Vars) (v : VarDecl), v ∈ decls → lookup (declare m decls) v.name = some v.value := by
  induction decls with
  | nil => intro m v hv; cases hv
  | cons w rest ih =>
    intro m v hv
    rw [List.map_cons, List.nodup_cons] at hn
    show lookup (declare (assign m w.name w.value) rest) v.name = _
    rcases List.mem_cons.mp hv with rfl | h
    · rw [lookup_declare_other rest v.name hn.1, lookup_assign_same]
    · exact ih hn.2 _ v h

theorem declare_append (m : Vars) (a b : List VarDecl) :
    declare m (a ++ b) = declare (declare m a) b := by
  simp [declare, List.foldl_append]

theorem createBlocks_http (L : Lib) (ds : List HttpDesc) (hd : ∀ d ∈ ds, d.Good L) :
    ∀ j : Job, j.addTo = [] → j.forRemoveNextStep = false →
      createBlocks L j (ds.map HttpDesc.block)
        = ({ j with steps := j.steps ++ ds.map HttpDesc.step,
                    vars := declare j.vars (ds.flatMap (fun d => d.decls)) }, none) := by
  induction ds with
  | nil => intro j _ _; simp [createBlocks, declare]
  | cons d ds ih =>
    intro j h1 h2
    rw [List.map_cons, createBlocks, createLines_http L j d (hd d (List.mem_cons_self _ _))]
    simp only [createStepEnd, h1, h2, List.length_nil, gt_iff_lt, Nat.lt_irrefl, if_false, addStepToJob,
      Bool.false_eq_true]
    rw [ih (fun d' hd' => hd d' (List.mem_cons_of_mem _ hd')) _ rfl rfl]
    simp [declare_append, h1, h2]

/-- C6. A job text made of k steps `- M U` (M one of GET, POST, PATCH, PUT, DELETE, U a
non-empty URL without space, tab or line feed; a body may follow the URL), each
optionally followed by `var` lines and blank lines, parses to exactly k top-level
steps in text order, the i-th with method M_i and URL U_i as written, and to the
variables of the caller with every declaration applied in text order, so that
each declared name holds its value when the declared names are distinct. -/
theorem C6_http_steps_parse (L : Lib) (ds : List HttpDesc) (v0 : Option Vars)
    (hd : ∀ d ∈ ds, d.Good L) :
    parseJob L ⟨jobText (ds.map HttpDesc.block), v0⟩
      = .ok { Job.init (declare (v0.getD []) (ds.flatMap (fun d => d.decls))) with
              steps := ds.map HttpDesc.step } ∧
    (ds.map HttpDesc.step).length = ds.length ∧
    (((ds.flatMap (fun d => d.decls)).map (fun v => v.name)).Nodup →
      ∀ v ∈ ds.flatMap (fun d => d.decls),
        lookup (declare (v0.getD []) (ds.flatMap (fun d => d.decls))) v.name = some v.value) := by
  refine ⟨?_, by simp, fun hn v hv => lookup_declare _ hn _ v hv⟩
  have hok : ∀ b ∈ ds.map HttpDesc.block, b.Ok := by
    intro b hb
    obtain ⟨d, hd1, rfl⟩ := List.mem_map.mp hb
    exact httpBlock_ok L d (hd d hd1)
  unfold parseJob
  rw [createSteps_jobText L _ _ hok, createBlocks_http L ds hd _ rfl rfl]
  simp [Job.init]

theorem forBlock_ok (v a : Str) (hv : Token v) (ha : OneLine a) : (forBlock v a).Ok := by
  refine ⟨?_, ⟨'f', _, rfl, by decide⟩, fun l hl => by cases hl⟩
  intro c hc
  have hfor : ∀ x ∈ "for".toList, x ≠ '\n' := by decide
  have hin : ∀ x ∈ [' ', 'i', 'n', ' '], x ≠ '\n' := by decide
  have e : (forBlock v a).first = "for".toList ++ (' ' :: (v ++ ([' ', 'i', 'n', ' '] ++ a))) := rfl
  rw [e] at hc
  rcases List.mem_append.mp hc with h | h
  · exact hfor c h
  · rcases List.mem_cons.mp h with rfl | h
    · decide
    · rcases List.mem_append.mp h with h | h
      · exact (hv.2 c h).2.2
      · rcases List.mem_append.mp h with h | h
        · exact hin c h
        · exact ha c h

theorem forendBlock_ok : forendBlock.Ok := by
  have h : ∀ x ∈ "forend".toList, x ≠ '\n' := by decide
  exact ⟨h, ⟨'f', _, rfl, by decide⟩, fun l hl => by cases hl⟩

theorem createBlocks_for (L : Lib) (vars : Vars) (v a : Str) (xs : List Str) (rest : List Block)
    (hv : Token v) (ha : EndsClean a) (hj : L.jsonStrings a = some xs) :
    createBlocks L (Job.init vars) (forBlock v a :: rest)
      = createBlocks L (loopJob vars v ⟨xs, List.replicate (L.jsonSpare xs) []⟩ [InnerStep.zero]) rest := by
  rw [createBlocks]
  show (match createStepEnd (createLines L (Job.init vars) Step.zero
      [("for".toList ++ ' ' :: (v ++ ' ' :: 'i' :: 'n' :: ' ' :: a))]) with
    | (j1, some e) => (j1, some e)
    | (j1, none) => createBlocks L j1 rest) = _
  rw [createLines, createStepLine_for L _ _ v a ha, startForLoop_open L _ _ v a xs hv hj rfl rfl]
  rfl

theorem createBlocks_inner (L : Lib) (vars : Vars) (v : Str) (values : Slice Str) (rest : List Block)
    (hs : List HttpDesc) (hh : ∀ d ∈ hs, d.Good L ∧ d.decls = []) :
    ∀ inner : List InnerStep,
      createBlocks L (loopJob vars v values inner) (hs.map HttpDesc.block ++ rest)
        = createBlocks L (loopJob vars v values (inner ++ hs.map (fun d => d.step.toInner))) rest := by
  induction hs with
  | nil => intro inner; simp
  | cons d hs ih =>
    intro inner
    obtain ⟨hg, hdecl⟩ := hh d (List.mem_cons_self _ _)
    rw [List.map_cons, List.cons_append, createBlocks, createLines_http L _ d hg, hdecl]
    have e : createStepEnd ({ loopJob vars v values inner with
          vars := declare (loopJob vars v values inner).vars [] }, d.step, none)
        = (loopJob vars v values (inner ++ [d.step.toInner]), none) := rfl
    rw [e]
    simp only
    rw [ih (fun d' hd' => hh d' (List.mem_cons_of_mem _ hd'))]
    simp

theorem createBlocks_forend (L : Lib) (vars : Vars) (v : Str) (values : Slice Str)
    (inner : List InnerStep) :
    createBlocks L (loopJob vars v values inner) [forendBlock]
      = ({ Job.init vars with steps := [loopStep v values (inner ++ [InnerStep.zero])] }, none) := by
  rw [createBlocks]
  show (match createStepEnd (createLines L (loopJob vars v values inner) Step.zero ["forend".toList]) with
    | (j1, some e) => (j1, some e)
    | (j1, none) => createBlocks L j1 []) = _
  rw [createLines, createStepLine_forend]
  rfl

/-- C4, as stated, fails: the text of Scenario 2 parses to a loop container with three
inner steps, not one: the `for` step and the `forend` step are stored in the
loop as empty steps around the GET step. -/
theorem C4_counterexample :
    parseJob demoLib ⟨scenario2Text, none⟩ = .ok scenario2Job ∧
    scenario2Job.steps.map (fun s => s.forloop.steps)
      = [[InnerStep.zero, scenario2Get, InnerStep.zero]] ∧
    scenario2Job.steps.map (fun s => s.forloop.steps.length) ≠ [1] := by
  refine ⟨by rfl, by decide, by decide⟩

/-- C4, amended. A job text made of a step `- for V in A` (A a JSON string array on one
line), n single-line HTTP steps (`- M URL` or `- M URL BODY`) and a step `- forend` parses to exactly one
top-level step: a loop container with varName V, values the decoded A, and n + 2
inner steps: an empty step, the n HTTP steps in text order, and an empty step. -/
theorem C4_for_loop_parse (L : Lib) (v a : Str) (xs : List Str) (hs : List HttpDesc)
    (v0 : Option Vars) (hv : Token v) (ha1 : OneLine a) (ha2 : EndsClean a)
    (hj : L.jsonStrings a = some xs) (hh : ∀ d ∈ hs, d.Good L ∧ d.decls = []) :
    parseJob L ⟨jobText (forBlock v a :: (hs.map HttpDesc.block ++ [forendBlock])), v0⟩
      = .ok { Job.init (v0.getD []) with
              steps := [loopStep v ⟨xs, List.replicate (L.jsonSpare xs) []⟩
                (InnerStep.zero :: (hs.map (fun d => d.step.toInner) ++ [InnerStep.zero]))] } := by
  have hok : ∀ b ∈ forBlock v a :: (hs.map HttpDesc.block ++ [forendBlock]), b.Ok := by
    intro b hb
    rcases List.mem_cons.mp hb with rfl | hb
    · exact forBlock_ok v a hv ha1
    · rcases List.mem_append.mp hb with hb | hb
      · obtain ⟨d, hd1, rfl⟩ := List.mem_map.mp hb
        exact httpBlock_ok L d (hh d hd1).1
      · rw [List.mem_singleton.mp hb]; exact forendBlock_ok
  unfold parseJob
  rw [createSteps_jobText L _ _ hok, createBlocks_for L _ v a xs _ hv ha2 hj,
    createBlocks_inner L _ v _ _ hs hh, createBlocks_forend]
  simp [Job.init]

theorem scenario1_good : ∀ d ∈ scenario1Descs, d.Good demoLib := by
  intro d hd
  have h : d = ⟨"GET".toList, "https://\x7b\x7burl\x7d\x7d".toList, none, [scenario1Var], 1⟩
      ∨ d = ⟨"POST".toList, "https://www.sunet.se/".toList, none, [], 0⟩ := by
    simpa [scenario1Descs] using hd
  rcases h with rfl | rfl
  · refine ⟨by decide, by decide, fun b hb => (by cases hb), ?_⟩
    intro v hv
    rw [List.mem_singleton.mp hv]
    exact ⟨by decide, ⟨scenario1Var.json.dropLast, '\x7d', by decide, by decide⟩, rfl, by decide, by decide⟩
  · exact ⟨by decide, by decide, fun b hb => (by cases hb), fun v hv => (by cases hv)⟩

/-- C6 on the text of `TestAddJob`: the blocks of Scenario 1 give the test's text with a
final line feed, both texts parse to the steps (GET, `https://{{url}}`) and
(POST, `https://www.sunet.se/`), and `vars["url"]` is `google.com`. -/
theorem C6_http_steps_parse_witness :
    (∀ d ∈ scenario1Descs, d.Good demoLib) ∧
    jobText (scenario1Descs.map HttpDesc.block) = scenario1Text ++ ['\n'] ∧
    parseJob demoLib ⟨jobText (scenario1Descs.map HttpDesc.block), none⟩ = .ok scenario1Job ∧
    parseJob demoLib ⟨scenario1Text, none⟩ = .ok scenario1Job ∧
    lookup scenario1Job.vars "url".toList = some "google.com".toList :=
  ⟨scenario1_good, by decide,
   (C6_http_steps_parse demoLib scenario1Descs none scenario1_good).1, by rfl, by decide⟩

/-- C4 amended, on the text of Scenario 2: values `["a","b","c"]` and the inner steps
empty, GET `https://x/{{name}}`, empty. -/
theorem C4_for_loop_parse_witness :
    Token "name".toList ∧ OneLine "[\"a\",\"b\",\"c\"]".toList ∧
    demoLib.jsonStrings "[\"a\",\"b\",\"c\"]".toList = some ["a".toList, "b".toList, "c".toList] ∧
    jobText (forBlock "name".toList "[\"a\",\"b\",\"c\"]".toList
      :: ([scenario2Desc].map HttpDesc.block ++ [forendBlock])) = scenario2Text ∧
    parseJob demoLib ⟨jobText (forBlock "name".toList "[\"a\",\"b\",\"c\"]".toList
      :: ([scenario2Desc].map HttpDesc.block ++ [forendBlock])), none⟩ = .ok scenario2Job :=
  ⟨by decide, by decide, rfl, by decide,
   C4_for_loop_parse demoLib "name".toList "[\"a\",\"b\",\"c\"]".toList
     ["a".toList, "b".toList, "c".toList] [scenario2Desc] none (by decide) (by decide)
     ⟨"[\"a\",\"b\",\"c\"".toList, ']', by decide, by decide⟩ rfl
     (fun d hd => by
       rw [List.mem_singleton.mp hd]
       exact ⟨⟨by decide, by decide, fun b hb => (by cases hb), fun v hv => (by cases hv)⟩, rfl⟩)⟩

/-! ### The variable map of a job (C8) -/

/-- C8 (evaluation at the failing input). The caller's map is the empty map at address 0. A
first `parseJob` on the text of Scenario 1 and a second one on a text without
`var` line, both with that map: the two jobs refer to the same map object, the
second job sees `url = google.com`, which only the first text declares, and the
caller's map has changed. With a nil map each job gets a map of its own. -/
theorem C8_jobs_share_the_callers_map :
    ((parseJobAt demoLib [[]] ⟨scenario1Text, some 0⟩).1.map (fun j => j.varsAt)) = some 0 ∧
    ((parseJobAt demoLib (parseJobAt demoLib [[]] ⟨scenario1Text, some 0⟩).2 ⟨plainText, some 0⟩).1.map
      (fun j => j.varsAt)) = some 0 ∧
    (parseJobAt demoLib (parseJobAt demoLib [[]] ⟨scenario1Text, some 0⟩).2 ⟨plainText, some 0⟩).2
      = [[("url".toList, "google.com".toList)]] ∧
    ((parseJobAt demoLib (parseJobAt demoLib [[]] ⟨scenario1Text, some 0⟩).2 ⟨plainText, some 0⟩).1.map
      (fun j => j.job.vars)) = some [("url".toList, "google.com".toList)] ∧
    ((parseJobAt demoLib [] ⟨scenario1Text, none⟩).1.map (fun j => j.varsAt)) = some 0 ∧
    ((parseJobAt demoLib (parseJobAt demoLib [] ⟨scenario1Text, none⟩).2 ⟨plainText, none⟩).1.map
      (fun j => j.varsAt)) = some 1 ∧
    (parseJobAt demoLib (parseJobAt demoLib [] ⟨scenario1Text, none⟩).2 ⟨plainText, none⟩).2
      = [[("url".toList, "google.com".toList)], []] := by
  refine ⟨by decide, by decide, by decide, by decide, by decide, by decide, by decide⟩

theorem parseJobAt_nil (L : Lib) (h : Heap) (t : Str) :
    (parseJobAt L h ⟨t, none⟩).1.map (fun j => j.job) = (parseJob L ⟨t, none⟩).toOption := by
  unfold parseJobAt parseJob
  simp only [Option.getD_none]
  have e : createSteps L (Job.init []) ⟨t, none⟩ = createSteps L (Job.init []) { steps := t, vars := none } := rfl
  rcases h1 : createSteps L (Job.init []) ⟨t, none⟩ with ⟨j, _ | e⟩ <;> rfl

theorem parseJobAt_some (L : Lib) (h : Heap) (t : Str) (a : Nat) :
    (parseJobAt L h ⟨t, some a⟩).1.map (fun j => j.job)
      = (parseJob L ⟨t, some (h.getD a [])⟩).toOption := by
  unfold parseJobAt parseJob
  simp only [Option.getD_some]
  rcases h1 : createSteps L (Job.init (h.getD a [])) ⟨t, some (h.getD a [])⟩ with ⟨j, _ | e⟩ <;> rfl

/-! ### The step runner (C11, C13, C14, C15) -/

theorem appendSlice_vis {α : Type} (L : Lib) (zero : α) (s : Slice α) (xs : List α) :
    (appendSlice L zero s xs).1.vis = s.vis ++ xs := by
  unfold appendSlice
  split_ifs <;> rfl

theorem replaceFromVariablesIn_vars (L : Lib) (order : Vars) (j : Job) (s : InnerStep) :
    (replaceFromVariablesIn L order j s).1.vars = j.vars ∧
    (replaceFromVariablesIn L order j s).1.cookies = j.cookies ∧
    (replaceFromVariablesIn L order j s).1.arrays = j.arrays ∧
    (replaceFromVariablesIn L order j s).1.globalAuth = j.globalAuth := by
  unfold replaceFromVariablesIn
  dsimp only
  split_ifs <;> exact ⟨rfl, rfl, rfl, rfl⟩

theorem replaceFromVariablesIn_headers (L : Lib) (order : Vars) (j : Job) (s : InnerStep) :
    (replaceFromVariablesIn L order j s).2.headers
      = (j.globalHeaders.vis ++ s.headers).map (fun h => { h with value := substAll order h.value }) := by
  simp [replaceFromVariablesIn, foldl_varReplaceAll, substAll, appendSlice_vis]

/-- C11. After `replaceFromVariables` the header list of the step is `job.globalHeaders`
followed by the local headers of the step, in that order and with that length,
every name unchanged and every value the original value with the variables
substituted. -/
theorem C11_headers_global_then_local (L : Lib) (j : Job) (s : InnerStep) :
    (replaceFromVariables L j s).2.headers
      = (j.globalHeaders.vis ++ s.headers).map
          (fun h => { name := h.name, value := substAll j.vars h.value }) ∧
    (replaceFromVariables L j s).2.headers.length = j.globalHeaders.vis.length + s.headers.length ∧
    (replaceFromVariables L j s).2.headers.map (fun h => h.name)
      = j.globalHeaders.vis.map (fun h => h.name) ++ s.headers.map (fun h => h.name) := by
  have h := replaceFromVariablesIn_headers L j.vars j s
  refine ⟨h, ?_, ?_⟩
  · rw [replaceFromVariables, h]; simp
  · rw [replaceFromVariables, h]; simp [List.map_map, Function.comp_def]

theorem fetchStep_skip (L : Lib) (c : Transport) (w : World) (s : InnerStep)
    (h : checkConditions w.job s = false) : fetchStep L c w s = (0, none, s, w) := by
  unfold fetchStep
  simp [h]

theorem fetchStep_run (L : Lib) (c : Transport) (w : World) (s : InnerStep)
    (hcond : checkConditions w.job s = true)
    (hreq : L.newRequestErr (replaceFromVariables L w.job s).2.method
      (replaceFromVariables L w.job s).2.url = none) :
    fetchStep L c w s =
      (match c w.log (builtRequest L w.job s) with
       | .error e => (-1, some ⟨.sending e, [], 0, [], none⟩, (replaceFromVariables L w.job s).2,
           ⟨(replaceFromVariables L w.job s).1, w.log ++ [builtRequest L w.job s]⟩)
       | .ok res =>
         if res.statusCode > 399 then
           (res.statusCode,
            some ⟨.httpStatus res.statusCode (replaceFromVariables L w.job s).2.method
              (replaceFromVariables L w.job s).2.url, (replaceFromVariables L w.job s).2.url,
              res.statusCode, bodyOrEmpty res, none⟩,
            (replaceFromVariables L w.job s).2,
            ⟨(replaceFromVariables L w.job s).1, w.log ++ [builtRequest L w.job s]⟩)
         else
           (match variablesFrom L (appendResponseCookiesToJob (replaceFromVariables L w.job s).1 res)
               (replaceFromVariables L w.job s).2 res with
            | (j3, some e) => (-1, some ⟨e, [], 0, [], none⟩, (replaceFromVariables L w.job s).2,
                ⟨j3, w.log ++ [builtRequest L w.job s]⟩)
            | (j3, none) => (res.statusCode, none, (replaceFromVariables L w.job s).2,
                ⟨j3, w.log ++ [builtRequest L w.job s]⟩))) := by
  unfold fetchStep
  simp only [hcond, Bool.not_true, Bool.false_eq_true, if_false]
  rw [hreq]
  rfl

/-- C13. `fetchStep` passes its guard exactly when the step has no conditions or has a
condition of type `exists` whose `var1` is a key of `job.vars`. When the guard
passes, `fetchStep` substitutes the variables and builds the request: if the
request does not build it returns status -1 with that error and the transport is
not called; if it builds, the transport is called with the request of the step,
once, and the answer decides the result. When the guard does not pass, `fetchStep`
returns status 0 and no error, the transport is not called, and the step and the
job are what they were. So, for a request that builds, the request of the step is
handed to the transport exactly when the guard passes. -/
theorem C13_guard_honours_exists_only (L : Lib) (c : Transport) (w : World) (s : InnerStep) :
    (checkConditions w.job s = true ↔
      (s.conditions = [] ∨
        ∃ cnd ∈ s.conditions, cnd.type = "exists".toList ∧ (lookup w.job.vars cnd.var1).isSome = true)) ∧
    (checkConditions w.job s = false → fetchStep L c w s = (0, none, s, w)) ∧
    (checkConditions w.job s = true →
      (∀ e, L.newRequestErr (replaceFromVariables L w.job s).2.method
            (replaceFromVariables L w.job s).2.url = some e →
        fetchStep L c w s
          = (-1, some ⟨.creating e, [], 0, [], none⟩, (replaceFromVariables L w.job s).2,
              ⟨(replaceFromVariables L w.job s).1, w.log⟩)) ∧
      (L.newRequestErr (replaceFromVariables L w.job s).2.method
            (replaceFromVariables L w.job s).2.url = none →
        (fetchStep L c w s).2.2.2.log = w.log ++ [builtRequest L w.job s] ∧
        (fetchStep L c w s).2.2.1 = (replaceFromVariables L w.job s).2 ∧
        (∀ e, c w.log (builtRequest L w.job s) = .error e →
          (fetchStep L c w s).1 = -1 ∧
          (fetchStep L c w s).2.1 = some ⟨.sending e, [], 0, [], none⟩) ∧
        (∀ res, c w.log (builtRequest L w.job s) = .ok res →
          ((fetchStep L c w s).1 = res.statusCode ∨ (fetchStep L c w s).1 = -1) ∧
          (res.statusCode > 399 → (fetchStep L c w s).1 = res.statusCode ∧
            (fetchStep L c w s).2.1.isSome = true)))) ∧
    (L.newRequestErr (replaceFromVariables L w.job s).2.method
          (replaceFromVariables L w.job s).2.url = none →
      ((fetchStep L c w s).2.2.2.log = w.log ++ [builtRequest L w.job s] ↔
        checkConditions w.job s = true)) := by
  have hrun : checkConditions w.job s = true →
      L.newRequestErr (replaceFromVariables L w.job s).2.method
            (replaceFromVariables L w.job s).2.url = none →
      (fetchStep L c w s).2.2.2.log = w.log ++ [builtRequest L w.job s] ∧
      (fetchStep L c w s).2.2.1 = (replaceFromVariables L w.job s).2 ∧
      (∀ e, c w.log (builtRequest L w.job s) = .error e →
        (fetchStep L c w s).1 = -1 ∧
        (fetchStep L c w s).2.1 = some ⟨.sending e, [], 0, [], none⟩) ∧
      (∀ res, c w.log (builtRequest L w.job s) = .ok res →
        ((fetchStep L c w s).1 = res.statusCode ∨ (fetchStep L c w s).1 = -1) ∧
        (res.statusCode > 399 → (fetchStep L c w s).1 = res.statusCode ∧
          (fetchStep L c w s).2.1.isSome = true)) := by
    intro hcond hreq
    rw [fetchStep_run L c w s hcond hreq]
    cases hc : c w.log (builtRequest L w.job s) with
    | error e =>
      refine ⟨rfl, rfl, fun e2 h2 => ?_, fun res h2 => by cases h2⟩
      cases h2
      exact ⟨rfl, rfl⟩
    | ok res =>
      dsimp only
      by_cases h : res.statusCode > 399
      · rw [if_pos h]
        refine ⟨rfl, rfl, fun e2 h2 => (by cases h2), fun res2 h2 => ?_⟩
        cases h2
        exact ⟨Or.inl rfl, fun _ => ⟨rfl, rfl⟩⟩
      · rw [if_neg h]
        rcases hvv : variablesFrom L (appendResponseCookiesToJob (replaceFromVariables L w.job s).1 res)
            (replaceFromVariables L w.job s).2 res with ⟨j3, oe⟩
        cases oe with
        | some e3 =>
          refine ⟨rfl, rfl, fun e2 h2 => (by cases h2), fun res2 h2 => ?_⟩
          cases h2
          exact ⟨Or.inr rfl, fun hh => absurd hh h⟩
        | none =>
          refine ⟨rfl, rfl, fun e2 h2 => (by cases h2), fun res2 h2 => ?_⟩
          cases h2
          exact ⟨Or.inl rfl, fun hh => absurd hh h⟩
  refine ⟨?_, fetchStep_skip L c w s, fun hcond => ⟨fun e he => ?_, hrun hcond⟩, fun hreq => ?_⟩
  · unfold checkConditions
    by_cases h : s.conditions = []
    · simp [h]
    · have hlen : ¬ s.conditions.length = 0 := fun e => h (List.length_eq_zero.mp e)
      simp [h, hlen]
  · unfold fetchStep
    simp only [hcond, Bool.not_true, Bool.false_eq_true, if_false]
    rw [he]
  · refine ⟨fun hlog => ?_, fun hcond => (hrun hcond hreq).1⟩
    cases hcond : checkConditions w.job s with
    | true => rfl
    | false =>
      rw [fetchStep_skip L c w s hcond] at hlog
      have hnil := List.self_eq_append_right.mp hlog
      cases hnil

/-- C13 on `GET https://x/{{id}}` in a job with the variable `id`: under the condition
`exists` on `id` the request `GET https://x/7` is handed to the transport; under
the conditions `true` on `id` and `exists` on a variable the job lacks nothing is
sent and status 0 is returned. -/
theorem C13_guard_honours_exists_only_witness :
    checkConditions jobIdSid stepIfExists = true ∧
    (fetchStep demoLib transport200 ⟨jobIdSid, []⟩ stepIfExists).2.2.2.log
      = [] ++ [builtRequest demoLib jobIdSid stepIfExists] ∧
    (builtRequest demoLib jobIdSid stepIfExists).url = "https://x/7".toList ∧
    checkConditions jobIdSid stepIfTrue = false ∧
    fetchStep demoLib transport200 ⟨jobIdSid, []⟩ stepIfTrue = (0, none, stepIfTrue, ⟨jobIdSid, []⟩) :=
  ⟨by decide,
   ((C13_guard_honours_exists_only demoLib transport200 ⟨jobIdSid, []⟩ stepIfExists).2.2.1
      (by decide)).2 rfl |>.1,
   by decide, by decide,
   (C13_guard_honours_exists_only demoLib transport200 ⟨jobIdSid, []⟩ stepIfTrue).2.1 (by decide)⟩

/-- C14. When the guard passes, the request builds, the transport answers with status c and
the extraction does not fail, `fetchStep` returns status c, and an error exactly
when c is 400 or more; that error carries status c, the substituted URL and the
body of the answer (empty when it cannot be read), and the variables and cookies
of the job are what they were before the step. -/
theorem C14_error_iff_status_400 (L : Lib) (c : Transport) (w : World) (s : InnerStep)
    (res : Response) (hcond : checkConditions w.job s = true)
    (hreq : L.newRequestErr (replaceFromVariables L w.job s).2.method
      (replaceFromVariables L w.job s).2.url = none)
    (hres : c w.log (builtRequest L w.job s) = .ok res)
    (hext : res.statusCode ≤ 399 →
      (variablesFrom L (appendResponseCookiesToJob (replaceFromVariables L w.job s).1 res)
        (replaceFromVariables L w.job s).2 res).2 = none) :
    (fetchStep L c w s).1 = res.statusCode ∧
    ((fetchStep L c w s).2.1.isSome = true ↔ 400 ≤ res.statusCode) ∧
    (400 ≤ res.statusCode →
      (fetchStep L c w s).2.1
        = some ⟨.httpStatus res.statusCode (replaceFromVariables L w.job s).2.method
            (replaceFromVariables L w.job s).2.url, (replaceFromVariables L w.job s).2.url,
            res.statusCode, bodyOrEmpty res, none⟩ ∧
      (fetchStep L c w s).2.2.2.job.vars = w.job.vars ∧
      (fetchStep L c w s).2.2.2.job.cookies = w.job.cookies) := by
  rw [fetchStep_run L c w s hcond hreq, hres]
  dsimp only
  by_cases h : res.statusCode > 399
  · rw [if_pos h]
    have hv := replaceFromVariablesIn_vars L w.job.vars w.job s
    refine ⟨rfl, ⟨fun _ => (by omega), fun _ => rfl⟩, fun _ => ⟨rfl, hv.1, hv.2.1⟩⟩
  · rw [if_neg h]
    have hv := hext (by omega)
    rcases hvv : variablesFrom L (appendResponseCookiesToJob (replaceFromVariables L w.job s).1 res)
        (replaceFromVariables L w.job s).2 res with ⟨j3, e⟩
    rw [hvv] at hv
    dsimp only at hv
    subst hv
    dsimp only
    refine ⟨rfl, ⟨fun hh => (by cases hh), fun hh => (by omega)⟩, fun hh => (by omega)⟩

/-- C15. When the guard passes, the request builds and the transport returns an error,
`fetchStep` returns status -1 and an error that carries the transport error, and
the variables and cookies of the job are what they were before the step. -/
theorem C15_transport_error (L : Lib) (c : Transport) (w : World) (s : InnerStep) (e : Str)
    (hcond : checkConditions w.job s = true)
    (hreq : L.newRequestErr (replaceFromVariables L w.job s).2.method
      (replaceFromVariables L w.job s).2.url = none)
    (herr : c w.log (builtRequest L w.job s) = .error e) :
    (fetchStep L c w s).1 = -1 ∧
    (fetchStep L c w s).2.1 = some ⟨.sending e, [], 0, [], none⟩ ∧
    (fetchStep L c w s).2.2.2.job.vars = w.job.vars ∧
    (fetchStep L c w s).2.2.2.job.cookies = w.job.cookies := by
  rw [fetchStep_run L c w s hcond hreq, herr]
  have hv := replaceFromVariablesIn_vars L w.job.vars w.job s
  exact ⟨rfl, rfl, hv.1, hv.2.1⟩

/-- C14 on `GET https://x/{{id}}` answered with 404 and the body `not found`. -/
theorem C14_error_iff_status_400_witness :
    checkConditions jobIdSid stepGetId = true ∧
    (fetchStep demoLib transport404 ⟨jobIdSid, []⟩ stepGetId).1 = 404 ∧
    (fetchStep demoLib transport404 ⟨jobIdSid, []⟩ stepGetId).2.1
      = some ⟨.httpStatus 404 "GET".toList "https://x/7".toList, "https://x/7".toList, 404,
          "not found".toList, none⟩ ∧
    (fetchStep demoLib transport404 ⟨jobIdSid, []⟩ stepGetId).2.2.2.job.vars = jobIdSid.vars ∧
    (fetchStep demoLib transport404 ⟨jobIdSid, []⟩ stepGetId).2.2.2.job.cookies = jobIdSid.cookies := by
  have h := C14_error_iff_status_400 demoLib transport404 ⟨jobIdSid, []⟩ stepGetId
    ⟨404, [], [], .ok "not found".toList⟩ (by decide) rfl rfl (fun h => absurd h (by decide))
  have h2 := h.2.2 (by decide)
  exact ⟨by decide, h.1, h2.1, h2.2.1, h2.2.2⟩

/-- C15 on `GET https://x/{{id}}` with a transport that fails. -/
theorem C15_transport_error_witness :
    checkConditions jobIdSid stepGetId = true ∧
    (fetchStep demoLib transportDown ⟨jobIdSid, []⟩ stepGetId).1 = -1 ∧
    (fetchStep demoLib transportDown ⟨jobIdSid, []⟩ stepGetId).2.1
      = some ⟨.sending "timeout".toList, [], 0, [], none⟩ ∧
    (fetchStep demoLib transportDown ⟨jobIdSid, []⟩ stepGetId).2.2.2.job.vars = jobIdSid.vars ∧
    (fetchStep demoLib transportDown ⟨jobIdSid, []⟩ stepGetId).2.2.2.job.cookies = jobIdSid.cookies := by
  have h := C15_transport_error demoLib transportDown ⟨jobIdSid, []⟩ stepGetId "timeout".toList
    (by decide) rfl rfl
  exact ⟨by decide, h.1, h.2.1, h.2.2.1, h.2.2.2⟩

/-! ### Substitution of loop values (C16, C17, C18) -/

/-- C16, as stated, fails: with the array `a = ["p","q"]` and the values `["x", "{{a}}"]`
the values become `["p","q"]`: the value `x` before the slot is dropped, where the
claim has `["x","p","q"]`. A single value `{{a}}` gives the array. -/
theorem C16_counterexample :
    valuesAfter demoLib jobArrayA (loopOf ["x".toList, placeholder "a".toList] [])
      = ["p".toList, "q".toList] ∧
    valuesAfter demoLib jobArrayA (loopOf ["x".toList, placeholder "a".toList] [])
      ≠ ["x".toList] ++ ["p".toList, "q".toList] ++ [] ∧
    valuesAfter demoLib jobArrayA (loopOf [placeholder "a".toList] []) = ["p".toList, "q".toList] := by
  refine ⟨by decide, by decide, by decide⟩

/-- C17 (evaluation at the failing input). With the variable `v = ["p","q"]` and the values
`["{{v}}", "z"]` the values become `["p","q","q"]`, whatever the spare capacity:
`append(values[:0], ...)` writes over `z` before `values[1:]` is read. With a
further `{{v}}` slot the second slot is lost as well, and with `v = []` and two
slots the call panics. A slot at the end is replaced as the claim says. -/
theorem C17_splice_overwrites_later_values :
    valuesAfter loopLib jobVarList (loopOf [placeholder "v".toList, "z".toList] [])
      = ["p".toList, "q".toList, "q".toList] ∧
    valuesAfter loopLib jobVarList (loopOf [placeholder "v".toList, "z".toList] [[], []])
      = ["p".toList, "q".toList, "q".toList] ∧
    valuesAfter loopLib jobVarList (loopOf [placeholder "v".toList, placeholder "v".toList] [])
      = ["p".toList, "q".toList, "q".toList] ∧
    (replaceFromVariablesForLoop loopLib jobVarEmpty
      (loopOf [placeholder "v".toList, placeholder "v".toList] [])).2.2 = true ∧
    valuesAfter loopLib jobVarList (loopOf ["a".toList, placeholder "v".toList] [])
      = ["a".toList, "p".toList, "q".toList] := by
  refine ⟨by decide, by decide, by decide, by decide, by decide⟩

/-- C18 (evaluation at the failing input). With the variable `v = 7`, which is no JSON
array, the value `id-{{v}}` becomes `7`: the slot is assigned the value of the
variable and the text around the placeholder is lost, where the claim has `id-7`.
A slot that is the placeholder alone becomes `7` as the claim says. -/
theorem C18_slot_is_assigned_the_value :
    demoLib.jsonStrings "7".toList = none ∧
    valuesAfter demoLib jobVarSeven (loopOf ["id-".toList ++ placeholder "v".toList] []) = ["7".toList] ∧
    replaceAll ("id-".toList ++ placeholder "v".toList) (placeholder "v".toList) "7".toList
      = "id-7".toList ∧
    valuesAfter demoLib jobVarSeven (loopOf [placeholder "v".toList] []) = ["7".toList] := by
  refine ⟨by decide, by decide, by decide, by decide⟩

theorem foldl_fixed {α β : Type} (f : β → α → β) (b : β) (l : List α) (h : ∀ x ∈ l, f b x = b) :
    l.foldl f b = b := by
  induction l with
  | nil => rfl
  | cons x l ih =>
    rw [List.foldl_cons, h x (List.mem_cons_self _ _)]
    exact ih (fun y hy => h y (List.mem_cons_of_mem _ hy))

theorem forArrayStep_miss (fs : ForState) (e : Str × Slice Str)
    (h : ∀ x ∈ fs.values.vis, containsStr x (placeholder e.1) = false) : forArrayStep fs e = fs := by
  have : fs.values.vis.any (fun storedValue => containsStr storedValue (placeholder e.1)) = false := by
    rw [List.any_eq_false]
    intro x hx
    simp [h x hx]
  simp [forArrayStep, replaceForLoopArray, this]

theorem forArrayStep_hit (fs : ForState) (e : Str × Slice Str)
    (h : ∃ x ∈ fs.values.vis, containsStr x (placeholder e.1) = true) :
    forArrayStep fs e = { fs with values := e.2, shared := some e.1 } := by
  have : fs.values.vis.any (fun storedValue => containsStr storedValue (placeholder e.1)) = true := by
    rw [List.any_eq_true]
    exact h
  simp [forArrayStep, replaceForLoopArray, this]

theorem replaceForLoopStrings_miss (L : Lib) (values : Slice Str) (n v : Str)
    (h : ∀ x ∈ values.vis, containsStr x (placeholder n) = false) :
    replaceForLoopStrings L values n v
      = { a0 := values.arr, cur := values, onA0 := true, panicked := false } := by
  unfold replaceForLoopStrings
  apply foldl_fixed
  intro i hi
  have hi2 : i < values.vis.length := List.mem_range.mp hi
  have hget : values.arr.getD i [] = values.vis.get ⟨i, hi2⟩ := by
    rw [List.getD_eq_getElem?_getD, Slice.arr, List.getElem?_append_left hi2,
      List.getElem?_eq_getElem hi2]
    rfl
  have hc : containsStr (values.arr.getD i []) (placeholder n) = false := by
    rw [hget]
    exact h _ (List.get_mem _ _ _)
  unfold replaceForLoopStringsAt
  dsimp only
  rw [hc]
  rfl

theorem forStringStep_miss (L : Lib) (vars : Vars) :
    ∀ fs : ForState, fs.panicked = false →
      (∀ e ∈ vars, ∀ x ∈ fs.values.vis, containsStr x (placeholder e.1) = false) →
      (vars.foldl (forStringStep L) fs).values = fs.values ∧
      (vars.foldl (forStringStep L) fs).panicked = false := by
  induction vars with
  | nil => intro fs hp _; exact ⟨rfl, hp⟩
  | cons e vars ih =>
    intro fs hp h
    rw [List.foldl_cons]
    have hm := replaceForLoopStrings_miss L fs.values e.1 e.2 (h e (List.mem_cons_self _ _))
    have hv : (forStringStep L fs e).values = fs.values := by
      simp [forStringStep, hp, hm]
    have hq : (forStringStep L fs e).panicked = false := by
      simp [forStringStep, hp, hm]
    have := ih (forStringStep L fs e) hq (by
      intro e' he' x hx
      rw [hv] at hx
      exact h e' (List.mem_cons_of_mem _ he') x hx)
    rw [hv] at this
    exact this

/-- C16, amended. When a value of a loop container contains `{{a}}` for a known array `a`,
and no value of the container or of the array contains the placeholder of another
array or of a variable, `replaceFromVariablesForLoop` makes the array the value
list of the container: the values before and after the slot are dropped (a single
value `{{a}}` yields exactly `arrays[a]`). The call does not panic. -/
theorem C16_array_replaces_all_values (L : Lib) (j : Job) (s : Step) (a : Str) (arr : Slice Str)
    (hkeys : (j.arrays.map Prod.fst).Nodup) (ha : (a, arr) ∈ j.arrays)
    (hs : ∃ x ∈ s.forloop.values.vis, containsStr x (placeholder a) = true)
    (hother : ∀ e ∈ j.arrays, e.1 ≠ a →
      ∀ x ∈ s.forloop.values.vis ++ arr.vis, containsStr x (placeholder e.1) = false)
    (hvars : ∀ e ∈ j.vars, ∀ x ∈ arr.vis, containsStr x (placeholder e.1) = false) :
    (replaceFromVariablesForLoop L j s).2.1.forloop.values = arr ∧
    (replaceFromVariablesForLoop L j s).2.2 = false := by
  obtain ⟨l1, l2, hl⟩ := List.append_of_mem ha
  have hne : ∀ e ∈ l1 ++ l2, e.1 ≠ a := by
    rw [hl, List.map_append, List.map_cons] at hkeys
    have h1 := List.nodup_middle.mp hkeys
    rw [List.nodup_cons] at h1
    intro e he heq
    apply h1.1
    have hm := List.mem_map_of_mem Prod.fst he
    rw [heq, List.map_append] at hm
    exact hm
  have hmem : ∀ e ∈ l1 ++ l2, e ∈ j.arrays := by
    intro e he
    rw [hl]
    rcases List.mem_append.mp he with h | h
    · exact List.mem_append_left _ h
    · exact List.mem_append_right _ (List.mem_cons_of_mem _ h)
  have e1 : j.arrays.foldl forArrayStep
      { arrays := j.arrays, values := s.forloop.values, shared := none, panicked := false }
      = { arrays := j.arrays, values := arr, shared := some a, panicked := false } := by
    conv => lhs; arg 3; rw [hl]
    rw [List.foldl_append, List.foldl_cons]
    rw [foldl_fixed forArrayStep _ l1 (fun e he => forArrayStep_miss _ e (fun x hx =>
      hother e (hmem e (List.mem_append_left _ he)) (hne e (List.mem_append_left _ he)) x
        (List.mem_append_left _ hx)))]
    rw [forArrayStep_hit _ (a, arr) hs]
    exact foldl_fixed forArrayStep _ l2 (fun e he => forArrayStep_miss _ e (fun x hx =>
      hother e (hmem e (List.mem_append_right _ he)) (hne e (List.mem_append_right _ he)) x
        (List.mem_append_right _ hx)))
  have e2 := forStringStep_miss L j.vars
    { arrays := j.arrays, values := arr, shared := some a, panicked := false } rfl hvars
  unfold replaceFromVariablesForLoop
  dsimp only
  rw [e1]
  exact ⟨e2.1, e2.2⟩

/-- C16 amended, on the array `a = ["p","q"]` and the values `["x", "{{a}}"]`. -/
theorem C16_array_replaces_all_values_witness :
    (jobArrayA.arrays.map Prod.fst).Nodup ∧
    (replaceFromVariablesForLoop demoLib jobArrayA
      (loopOf ["x".toList, placeholder "a".toList] [])).2.1.forloop.values
        = ⟨["p".toList, "q".toList], []⟩ ∧
    (replaceFromVariablesForLoop demoLib jobArrayA
      (loopOf ["x".toList, placeholder "a".toList] [])).2.2 = false :=
  ⟨by decide,
   C16_array_replaces_all_values demoLib jobArrayA (loopOf ["x".toList, placeholder "a".toList] [])
     "a".toList ⟨["p".toList, "q".toList], []⟩ (by decide) (by decide) (by decide) (by decide)
     (by decide)⟩

/-! ### Extraction from the body (C12) -/

theorem countOcc_append_ge (sub w t : Str) : countOcc sub t ≤ countOcc sub (w ++ t) := by
  induction w with
  | nil => exact Nat.le_refl _
  | cons c w ih =>
    show _ ≤ (if sub.isPrefixOf (c :: (w ++ t)) then 1 else 0) + countOcc sub (w ++ t)
    omega

theorem countOcc_self (c : Char) (o t : Str) :
    countOcc (c :: o) ((c :: o) ++ t) = 1 + countOcc (c :: o) (o ++ t) := by
  have hp : (c :: o).isPrefixOf (c :: (o ++ t)) = true := by
    rw [List.isPrefixOf_iff_prefix]; exact List.prefix_append (c :: o) t
  show (if (c :: o).isPrefixOf (c :: (o ++ t)) then 1 else 0) + _ = _
  rw [if_pos hp]
  rfl

theorem countOcc_cons (sub : Str) (c : Char) (s : Str) :
    countOcc sub (c :: s) = (if sub.isPrefixOf (c :: s) then 1 else 0) + countOcc sub s := rfl

theorem starts_append (sub s q : Str) (h : sub.isPrefixOf s = true) :
    sub.isPrefixOf (s ++ q) = true := by
  rw [List.isPrefixOf_iff_prefix] at h ⊢
  exact h.trans (List.prefix_append s q)

/-- A text in which `old` does not start anywhere is copied by the scanner. -/
theorem replaceGo_absent (old new s q : Str) (h : countOcc old (s ++ q) = 0) :
    replaceGo old new 0 s = s := by
  induction s with
  | nil => rfl
  | cons c s ih =>
    rw [List.cons_append, countOcc_cons] at h
    have hp : old.isPrefixOf (c :: s) = false := by
      cases hh : old.isPrefixOf (c :: s) with
      | false => rfl
      | true =>
        have := starts_append old (c :: s) q hh
        rw [List.cons_append] at this
        rw [if_pos this] at h
        omega
    rw [replaceGo_step _ _ _ _ hp, ih (by omega)]

/-- The scanner copies the text before the only place where `old` starts. -/
theorem replaceGo_last (c : Char) (o w q : Str)
    (h : countOcc (c :: o) (w ++ ((c :: o) ++ q)) = 1) :
    replaceGo (c :: o) [] 0 (w ++ (c :: o)) = w := by
  induction w with
  | nil =>
    have := replaceGo_match (c :: o) [] [] c o rfl
    rw [List.append_nil] at this
    rw [List.nil_append, this]
    rfl
  | cons d w ih =>
    rw [List.cons_append, countOcc_cons] at h
    have h1 : 1 ≤ countOcc (c :: o) (w ++ ((c :: o) ++ q)) :=
      Nat.le_trans (by rw [countOcc_self]; omega) (countOcc_append_ge (c :: o) w _)
    have hp : (c :: o).isPrefixOf (d :: (w ++ (c :: o))) = false := by
      cases hh : (c :: o).isPrefixOf (d :: (w ++ (c :: o))) with
      | false => rfl
      | true =>
        have := starts_append (c :: o) (d :: (w ++ (c :: o))) q hh
        rw [List.cons_append, List.append_assoc] at this
        rw [if_pos this] at h
        omega
    rw [List.cons_append, replaceGo_step _ _ _ _ hp, ih (by omega)]

theorem splitGo_skip (sep acc w t : Str) :
    splitGo sep w.length acc (w ++ t) = splitGo sep 0 acc t := by
  induction w with
  | nil => cases t <;> rfl
  | cons c w ih => simpa [splitGo] using ih

theorem splitGo_match (acc t : Str) (c : Char) (o : Str) :
    splitGo (c :: o) 0 acc ((c :: o) ++ t) = acc.reverse :: splitGo (c :: o) 0 [] t := by
  have hp : (c :: o).isPrefixOf (c :: (o ++ t)) = true := by
    rw [List.isPrefixOf_iff_prefix]; exact List.prefix_append (c :: o) t
  show splitGo (c :: o) 0 acc (c :: (o ++ t)) = _
  rw [splitGo]
  rw [if_pos hp]
  simp only [List.length_cons, Nat.add_sub_cancel]
  rw [splitGo_skip]

/-- Text without an opening curl goes to the piece that is being read. -/
theorem splitGo_noOpen (n acc w t : Str) (h : ∀ c ∈ w, c ≠ '{') :
    splitGo (placeholder n) 0 acc (w ++ t) = splitGo (placeholder n) 0 (w.reverse ++ acc) t := by
  induction w generalizing acc with
  | nil => rfl
  | cons c w ih =>
    have hc : c ≠ '{' := h c (List.mem_cons_self _ _)
    have hp : (placeholder n).isPrefixOf (c :: (w ++ t)) = false := by
      simp [placeholder, List.isPrefixOf, Ne.symm hc]
    rw [List.cons_append, splitGo, if_neg (by rw [hp]; simp),
      ih (c :: acc) (fun d hd => h d (List.mem_cons_of_mem _ hd))]
    simp

theorem noMeta_noOpen (s : Str) (h : NoMeta s) : ∀ c ∈ s, c ≠ '{' := by
  intro c hc e
  subst e
  exact h _ hc (by decide)

/-- The find text `A{{StepTestSyntax}}B` splits into `A` and `B`. -/
theorem splitStr_find (A B : Str) (hA : NoMeta A) (hB : NoMeta B) :
    splitStr (A ++ (searchSyntax ++ B)) searchSyntax = [A, B] := by
  show splitGo (placeholder "StepTestSyntax".toList) 0 [] (A ++ (searchSyntax ++ B)) = _
  rw [splitGo_noOpen _ _ _ _ (noMeta_noOpen A hA)]
  show splitGo ('{' :: '{' :: ("StepTestSyntax".toList ++ ['}', '}'])) 0 (A.reverse ++ [])
    (('{' :: '{' :: ("StepTestSyntax".toList ++ ['}', '}'])) ++ B) = _
  rw [splitGo_match]
  have := splitGo_noOpen "StepTestSyntax".toList [] B [] (noMeta_noOpen B hB)
  rw [List.append_nil] at this
  show _ :: splitGo (placeholder "StepTestSyntax".toList) 0 [] B = _
  rw [this]
  simp [splitGo]

/-- The pattern of the find text `A{{StepTestSyntax}}B` is `(A).+(B)`. -/
theorem createSearchPattern_find (A B : Str) (hA : NoMeta A) (hB : NoMeta B) :
    createSearchPattern (A ++ (searchSyntax ++ B))
      = '(' :: (A ++ (").+(".toList ++ (B ++ [')']))) := by
  have h1 : replaceAll (A ++ (searchSyntax ++ B)) searchSyntax searchSyntaxReplace
      = A ++ (").+(".toList ++ B) := by
    show replaceGo (placeholder "StepTestSyntax".toList) searchSyntaxReplace 0
      (A ++ (searchSyntax ++ B)) = _
    rw [replaceGo_noOpen _ _ _ _ (noMeta_noOpen A hA)]
    show A ++ replaceGo (placeholder "StepTestSyntax".toList) searchSyntaxReplace 0
      (placeholder "StepTestSyntax".toList ++ B) = _
    rw [replaceGo_match (placeholder "StepTestSyntax".toList) searchSyntaxReplace B '{' _ rfl]
    have := replaceGo_noOpen "StepTestSyntax".toList searchSyntaxReplace B [] (noMeta_noOpen B hB)
    rw [List.append_nil] at this
    rw [this]
    simp [replaceGo, searchSyntaxReplace]
  rw [createSearchPattern, h1]
  simp

theorem dotStarThen_absent (B s : Str) (h : countOcc B s = 0) : dotStarThen B s = none := by
  induction s with
  | nil =>
    have h0 : ¬ (B.isPrefixOf [] = true) := by
      intro hh
      simp [countOcc, hh] at h
    simp only [dotStarThen, matchHere, if_neg h0]
  | cons c s ih =>
    rw [countOcc_cons] at h
    have h0 : ¬ (B.isPrefixOf (c :: s) = true) := by
      intro hh
      rw [if_pos hh] at h
      omega
    have hs : dotStarThen B s = none := ih (by omega)
    simp only [dotStarThen, matchHere, hs, if_neg h0]
    split_ifs <;> rfl

/-- The greedy `.*` stops before the only place where `B` starts. -/
theorem dotStarThen_last (c : Char) (o w q : Str) (hw : OneLine w)
    (h : countOcc (c :: o) (w ++ ((c :: o) ++ q)) = 1) :
    dotStarThen (c :: o) (w ++ ((c :: o) ++ q)) = some (w ++ (c :: o)) := by
  induction w with
  | nil =>
    rw [List.nil_append, countOcc_self] at h
    have hs : dotStarThen (c :: o) (o ++ q) = none := dotStarThen_absent _ _ (by omega)
    have hp : (c :: o).isPrefixOf (c :: (o ++ q)) = true := by
      rw [List.isPrefixOf_iff_prefix]; exact List.prefix_append (c :: o) q
    show dotStarThen (c :: o) (c :: (o ++ q)) = _
    simp only [dotStarThen, matchHere, hs, if_pos hp]
    split_ifs <;> rfl
  | cons d w ih =>
    rw [List.cons_append, countOcc_cons] at h
    have h1 : 1 ≤ countOcc (c :: o) (w ++ ((c :: o) ++ q)) :=
      Nat.le_trans (by rw [countOcc_self]; omega) (countOcc_append_ge (c :: o) w _)
    have hd : d ≠ '\n' := hw d (List.mem_cons_self _ _)
    have := ih (fun x hx => hw x (List.mem_cons_of_mem _ hx)) (by omega)
    show dotStarThen (c :: o) (d :: (w ++ ((c :: o) ++ q))) = _
    simp only [dotStarThen, if_neg hd, this]
    rfl

theorem dotPlusThen_last (c : Char) (o v q : Str) (hv : v ≠ []) (hl : OneLine v)
    (h : countOcc (c :: o) (v ++ ((c :: o) ++ q)) = 1) :
    dotPlusThen (c :: o) (v ++ ((c :: o) ++ q)) = some (v ++ (c :: o)) := by
  cases v with
  | nil => exact absurd rfl hv
  | cons d w =>
    rw [List.cons_append, countOcc_cons] at h
    have h1 : 1 ≤ countOcc (c :: o) (w ++ ((c :: o) ++ q)) :=
      Nat.le_trans (by rw [countOcc_self]; omega) (countOcc_append_ge (c :: o) w _)
    have hd : d ≠ '\n' := hl d (List.mem_cons_self _ _)
    have := dotStarThen_last c o w q (fun x hx => hl x (List.mem_cons_of_mem _ hx)) (by omega)
    show dotPlusThen (c :: o) (d :: (w ++ ((c :: o) ++ q))) = _
    simp only [dotPlusThen, if_neg hd, this]
    rfl

/-- The leftmost match of `(A).+(B)` in `p ++ A ++ v ++ B ++ q` is `A ++ v ++ B`. -/
theorem anchoredFind_body (a : Char) (A B p rest m : Str)
    (hAu : countOcc (a :: A) (p ++ ((a :: A) ++ rest)) = 1)
    (hm : dotPlusThen B rest = some m) :
    anchoredFind (a :: A) B (p ++ ((a :: A) ++ rest)) = some ((a :: A) ++ m) := by
  induction p with
  | nil =>
    have hp : (a :: A).isPrefixOf (a :: (A ++ rest)) = true := by
      rw [List.isPrefixOf_iff_prefix]; exact List.prefix_append (a :: A) rest
    have hd : (a :: (A ++ rest)).drop (a :: A).length = rest := by simp
    show anchoredFind (a :: A) B (a :: (A ++ rest)) = _
    rw [anchoredFind, if_pos hp, hd, hm]
  | cons d p ih =>
    rw [List.cons_append, countOcc_cons] at hAu
    have h1 : 1 ≤ countOcc (a :: A) (p ++ ((a :: A) ++ rest)) :=
      Nat.le_trans (by rw [countOcc_self]; omega) (countOcc_append_ge (a :: A) p _)
    have h0 : ¬ ((a :: A).isPrefixOf (d :: (p ++ ((a :: A) ++ rest))) = true) := by
      intro hh
      rw [if_pos hh] at hAu
      omega
    show anchoredFind (a :: A) B (d :: (p ++ ((a :: A) ++ rest))) = _
    rw [anchoredFind, if_neg h0]
    exact ih (by omega)

/-- C12. For a find text `A{{StepTestSyntax}}B` with `A` and `B` non-empty and free of
metacharacters, and a body `p ++ A ++ v ++ B ++ q` with `v` non-empty and without
line feed, in which `A` starts at one place only and `B` starts at one place only
after `A`, on which the library finds for the pattern `(A).+(B)` what package
regexp finds: `createSearchPattern` gives the pattern `(A).+(B)`, the match is
`A ++ v ++ B`, and `variableFromBody` returns no error and sets `vars[name]` to
exactly `v`. -/
theorem C12_body_extraction_sets_value (L : Lib) (j : Job) (name A B p v q : Str)
    (hA : A ≠ []) (hB : B ≠ []) (hAm : NoMeta A) (hBm : NoMeta B)
    (hv : v ≠ []) (hl : OneLine v)
    (hAu : countOcc A (p ++ (A ++ (v ++ (B ++ q)))) = 1)
    (hBu : countOcc B (v ++ (B ++ q)) = 1)
    (hre : L.regexpFind ('(' :: (A ++ (").+(".toList ++ (B ++ [')']))))
        (p ++ (A ++ (v ++ (B ++ q))))
      = .ok (anchoredFind A B (p ++ (A ++ (v ++ (B ++ q)))))) :
    createSearchPattern (A ++ (searchSyntax ++ B))
      = '(' :: (A ++ (").+(".toList ++ (B ++ [')']))) ∧
    anchoredFind A B (p ++ (A ++ (v ++ (B ++ q)))) = some (A ++ (v ++ B)) ∧
    variableFromBody L j
        ⟨"BODY".toList, name, A ++ (searchSyntax ++ B), createSearchPattern (A ++ (searchSyntax ++ B))⟩
        (p ++ (A ++ (v ++ (B ++ q))))
      = .ok { j with vars := assign j.vars name v } ∧
    lookup (assign j.vars name v) name = some v := by
  obtain ⟨a, A, rfl⟩ := List.exists_cons_of_ne_nil hA
  obtain ⟨b, B, rfl⟩ := List.exists_cons_of_ne_nil hB
  have hpat := createSearchPattern_find (a :: A) (b :: B) hAm hBm
  have hfind : anchoredFind (a :: A) (b :: B) (p ++ ((a :: A) ++ (v ++ ((b :: B) ++ q))))
      = some ((a :: A) ++ (v ++ (b :: B))) :=
    anchoredFind_body a A (b :: B) p _ _ hAu (dotPlusThen_last b B v q hv hl hBu)
  have hA1 : countOcc (a :: A) ((a :: A) ++ (v ++ ((b :: B) ++ q))) ≤ 1 := by
    rw [← hAu]; exact countOcc_append_ge _ _ _
  rw [countOcc_self] at hA1
  have hA0 : countOcc (a :: A) ((v ++ (b :: B)) ++ q) = 0 := by
    have := countOcc_append_ge (a :: A) A (v ++ ((b :: B) ++ q))
    rw [List.append_assoc]
    omega
  have hr1 : replaceAll ((a :: A) ++ (v ++ (b :: B))) (a :: A) [] = v ++ (b :: B) := by
    show replaceGo (a :: A) [] 0 ((a :: A) ++ (v ++ (b :: B))) = _
    rw [replaceGo_match _ _ _ a A rfl, replaceGo_absent _ _ _ q hA0]
    rfl
  have hr2 : replaceAll (v ++ (b :: B)) (b :: B) [] = v := replaceGo_last b B v q hBu
  refine ⟨hpat, hfind, ?_, lookup_assign_same _ _ _⟩
  unfold variableFromBody
  simp only []
  rw [hpat, hre, hfind, splitStr_find _ _ hAm hBm]
  simp only [Option.getD_some, List.foldl_cons, List.foldl_nil, hr1, hr2]
  rw [if_neg (by simp)]

/-- C12 on Scenario 3: the find text `token="{{StepTestSyntax}}"` on the body
`<a token="abc123">` sets `tok` to `abc123`. -/
theorem C12_body_extraction_sets_value_witness :
    countOcc "token=\"".toList "<a token=\"abc123\">".toList = 1 ∧
    countOcc "\"".toList "abc123\">".toList = 1 ∧
    createSearchPattern tokenFind = "(token=\").+(\")".toList ∧
    variableFromBody tokenLib jobIdSid
        ⟨"BODY".toList, "tok".toList, tokenFind, createSearchPattern tokenFind⟩
        "<a token=\"abc123\">".toList
      = .ok { jobIdSid with vars := assign jobIdSid.vars "tok".toList "abc123".toList } ∧
    lookup (assign jobIdSid.vars "tok".toList "abc123".toList) "tok".toList = some "abc123".toList := by
  have h := C12_body_extraction_sets_value tokenLib jobIdSid "tok".toList "token=\"".toList
    "\"".toList "<a ".toList "abc123".toList ">".toList (by decide) (by decide) (by decide)
    (by decide) (by decide) (by decide) (by decide) (by decide) rfl
  exact ⟨by decide, by decide, h.1, h.2.2.1, h.2.2.2⟩

/-! ### Loops in the parser (C19, C20) -/

theorem lookup_mem {β : Type} (m : List (Str × β)) (k : Str) (x : β) (h : lookup m k = some x) :
    (k, x) ∈ m := by
  induction m with
  | nil => simp [lookup] at h
  | cons e m ih =>
    by_cases he : e.1 = k
    · have : lookup (e :: m) k = some e.2 := by simp [lookup, List.find?_cons, he]
      rw [this] at h
      injection h with h
      rw [← he, ← h]
      exact List.mem_cons_self _ _
    · have : lookup (e :: m) k = lookup m k := by simp [lookup, List.find?_cons, he]
      rw [this] at h
      exact List.mem_cons_of_mem _ (ih h)

theorem sameLoop_http (j j1 : Job) (s1 : Step) (e : Except ParseError Step)
    (h : e.map (fun s => (j, s)) = .ok (j1, s1)) : SameLoop j j1 := by
  cases e with
  | error x => cases h
  | ok s => cases h; exact ⟨rfl, rfl, rfl⟩

theorem sameLoop_createVar (L : Lib) (j : Job) (s : Step) (a : Str) (j1 : Job) (s1 : Step)
    (h : createVar L j s a = .ok (j1, s1)) : SameLoop j j1 := by
  unfold createVar at h
  split at h
  · cases h
  · split_ifs at h
    cases h
    exact ⟨rfl, rfl, rfl⟩

theorem sameLoop_createArray (L : Lib) (j : Job) (s : Step) (a : Str) (j1 : Job) (s1 : Step)
    (h : createArray L j s a = .ok (j1, s1)) : SameLoop j j1 := by
  unfold createArray at h
  split at h
  · cases h
  · split_ifs at h
    cases h
    exact ⟨rfl, rfl, rfl⟩

theorem sameLoop_createVarFrom (L : Lib) (j : Job) (s : Step) (a : Str) (j1 : Job) (s1 : Step)
    (h : createVarFrom L j s a = .ok (j1, s1)) : SameLoop j j1 := by
  unfold createVarFrom at h
  split at h
  · cases h
  · split_ifs at h
    cases h
    exact ⟨rfl, rfl, rfl⟩

theorem sameLoop_createCookie (L : Lib) (j : Job) (s : Step) (a : Str) (j1 : Job) (s1 : Step)
    (h : createCookie L j s a = .ok (j1, s1)) : SameLoop j j1 := by
  unfold createCookie at h
  split at h
  · cases h
  · split_ifs at h
    cases h
    exact ⟨rfl, rfl, rfl⟩

theorem sameLoop_createHeader (L : Lib) (j : Job) (s : Step) (a : Str) (j1 : Job) (s1 : Step)
    (h : createHeader L j s a = .ok (j1, s1)) : SameLoop j j1 := by
  unfold createHeader at h
  split at h
  · cases h
  · split_ifs at h
    cases h
    exact ⟨rfl, rfl, rfl⟩

theorem sameLoop_createAuth (L : Lib) (j : Job) (s : Step) (a : Str) (j1 : Job) (s1 : Step)
    (h : createAuth L j s a = .ok (j1, s1)) : SameLoop j j1 := by
  unfold createAuth at h
  split at h
  · cases h
  · split_ifs at h
    cases h
    exact ⟨rfl, rfl, rfl⟩

theorem sameLoop_createGlobalHeader (L : Lib) (j : Job) (s : Step) (a : Str) (j1 : Job) (s1 : Step)
    (h : createGlobalHeader L j s a = .ok (j1, s1)) : SameLoop j j1 := by
  unfold createGlobalHeader at h
  split at h
  · cases h
  · split_ifs at h
    cases h
    exact ⟨rfl, rfl, rfl⟩

theorem sameLoop_createGlobalAuth (L : Lib) (j : Job) (s : Step) (a : Str) (j1 : Job) (s1 : Step)
    (h : createGlobalAuth L j s a = .ok (j1, s1)) : SameLoop j j1 := by
  unfold createGlobalAuth at h
  split at h
  · cases h
  · split_ifs at h
    cases h
    exact ⟨rfl, rfl, rfl⟩

theorem sameLoop_createIf (L : Lib) (j : Job) (s : Step) (a : Str) (j1 : Job) (s1 : Step)
    (h : createIf L j s a = .ok (j1, s1)) : SameLoop j j1 := by
  unfold createIf at h
  split at h
  · cases h
  · split_ifs at h
    cases h
    exact ⟨rfl, rfl, rfl⟩

/-- Every keyword but `for` and `forend` leaves the loop fields of the job alone. -/
theorem sameLoop_stepTypes (L : Lib) (t : Str) (f : StepFunc) (j : Job) (s : Step) (a : Str)
    (j1 : Job) (s1 : Step) (hf : lookup stepTypes t = some f)
    (h1 : t ≠ "for".toList) (h2 : t ≠ "forend".toList) (h : f L j s a = .ok (j1, s1)) :
    SameLoop j j1 := by
  have hm := lookup_mem _ _ _ hf
  simp only [stepTypes, List.mem_cons, Prod.mk.injEq, List.mem_nil_iff, or_false] at hm
  rcases hm with ⟨-, rfl⟩ | ⟨-, rfl⟩ | ⟨-, rfl⟩ | ⟨-, rfl⟩ | ⟨-, rfl⟩ | ⟨-, rfl⟩ | ⟨-, rfl⟩ | ⟨-, rfl⟩ |
    ⟨-, rfl⟩ | ⟨-, rfl⟩ | ⟨-, rfl⟩ | ⟨-, rfl⟩ | ⟨-, rfl⟩ | ⟨ht, -⟩ | ⟨ht, -⟩ | ⟨-, rfl⟩
  · exact sameLoop_http _ _ _ _ h
  · exact sameLoop_http _ _ _ _ h
  · exact sameLoop_http _ _ _ _ h
  · exact sameLoop_http _ _ _ _ h
  · exact sameLoop_http _ _ _ _ h
  · exact sameLoop_createVar _ _ _ _ _ _ h
  · exact sameLoop_createArray _ _ _ _ _ _ h
  · exact sameLoop_createVarFrom _ _ _ _ _ _ h
  · exact sameLoop_createCookie _ _ _ _ _ _ h
  · exact sameLoop_createHeader _ _ _ _ _ _ h
  · exact sameLoop_createAuth _ _ _ _ _ _ h
  · exact sameLoop_createGlobalHeader _ _ _ _ _ _ h
  · exact sameLoop_createGlobalAuth _ _ _ _ _ _ h
  · exact absurd ht h1
  · exact absurd ht h2
  · exact sameLoop_createIf _ _ _ _ _ _ h

/-- With a loop to add to, `startForLoop` reports a nested loop. -/
theorem startForLoop_nested (L : Lib) (j : Job) (s : Step) (a : Str) (h : j.addTo ≠ []) :
    startForLoop L j s a = .error (.nestedFor a) := by
  have : j.addTo.length > 0 := List.length_pos.mpr h
  simp [startForLoop, this]

theorem startForLoop_ok (L : Lib) (j : Job) (s : Step) (a : Str) (j1 : Job) (s1 : Step)
    (h : startForLoop L j s a = .ok (j1, s1)) :
    j.addTo = [] ∧ j1.forcounter = j.forcounter + 1 ∧ j1.addTo ≠ [] ∧
      j1.forRemoveNextStep = j.forRemoveNextStep := by
  by_cases hadd : j.addTo = []
  · refine ⟨hadd, ?_⟩
    unfold startForLoop at h
    simp only [] at h
    split_ifs at h
    all_goals
      first
      | (cases h; exact ⟨rfl, by simp, rfl⟩)
      | (split at h <;> cases h; exact ⟨rfl, by simp, rfl⟩)
  · rw [startForLoop_nested L j s a hadd] at h
    cases h

theorem endForLoop_ok (L : Lib) (j : Job) (s : Step) (a : Str) (j1 : Job) (s1 : Step)
    (h : endForLoop L j s a = .ok (j1, s1)) :
    1 ≤ j.forcounter ∧ j1.forcounter = j.forcounter - 1 ∧ j1.addTo = j.addTo ∧
      j1.forRemoveNextStep = true := by
  unfold endForLoop at h
  split_ifs at h with hc
  cases h
  exact ⟨by omega, rfl, rfl, rfl⟩

theorem parserAt_same (j j1 : Job) (o : Bool) (h : ParserAt j o) (hs : SameLoop j j1) :
    ParserAt j1 o := by
  unfold ParserAt at h ⊢
  rw [hs.1, hs.2.1, hs.2.2]
  exact h

/-- One row of a step: the loop fields follow the keyword of the row. -/
theorem createStepLine_loop (L : Lib) (j : Job) (stp : Step) (r : Str) (j1 : Job) (stp1 : Step)
    (o : Bool) (hp : ParserAt j o) (h : createStepLine L j stp r = .ok (j1, stp1)) :
    ParserAt j1 (loopWord o (toLower ((splitN 2 (trimStr r)).headD []))) ∧
    ∀ ks, loopsBalanced o (toLower ((splitN 2 (trimStr r)).headD []) :: ks)
      = loopsBalanced (loopWord o (toLower ((splitN 2 (trimStr r)).headD []))) ks := by
  unfold createStepLine at h
  simp only [] at h
  generalize toLower ((splitN 2 (trimStr r)).headD []) = t at h ⊢
  generalize (if (splitN 2 (trimStr r)).length > 1 then (splitN 2 (trimStr r)).getD 1 [] else []) = a at h
  by_cases ht : t = []
  · rw [if_pos ht] at h
    cases h
    subst ht
    exact ⟨hp, fun ks => rfl⟩
  · rw [if_neg ht] at h
    cases hf : lookup stepTypes t with
    | none => rw [hf] at h; cases h
    | some f =>
      rw [hf] at h
      simp only [] at h
      by_cases h1 : t = "for".toList
      · subst h1
        have hfe : f = startForLoop := by
          have : lookup stepTypes "for".toList = some startForLoop := rfl
          rw [this] at hf
          injection hf with hf
          exact hf.symm
        subst hfe
        have hs := startForLoop_ok L j stp a j1 stp1 h
        rcases hp with ⟨ho, hc, hr⟩ | ⟨ho, hc, ha, hr⟩
        · subst ho
          have hrem : j.forRemoveNextStep = false := by
            cases hb : j.forRemoveNextStep with
            | false => rfl
            | true => exact absurd hs.1 (hr hb)
          refine ⟨Or.inr ⟨rfl, ?_, hs.2.2.1, ?_⟩, fun ks => rfl⟩
          · rw [hs.2.1, hc]; rfl
          · rw [hs.2.2.2, hrem]
        · exact absurd hs.1 ha
      · by_cases h2 : t = "forend".toList
        · subst h2
          have hfe : f = endForLoop := by
            have : lookup stepTypes "forend".toList = some endForLoop := rfl
            rw [this] at hf
            injection hf with hf
            exact hf.symm
          subst hfe
          have hs := endForLoop_ok L j stp a j1 stp1 h
          rcases hp with ⟨ho, hc, hr⟩ | ⟨ho, hc, ha, hr⟩
          · have := hs.1
            omega
          · subst ho
            refine ⟨Or.inl ⟨rfl, ?_, fun _ => ?_⟩, fun ks => rfl⟩
            · rw [hs.2.1, hc]; rfl
            · rw [hs.2.2.1]; exact ha
        · have hs := sameLoop_stepTypes L t f j stp a j1 stp1 hf h1 h2 h
          have hw : loopWord o t = o := by rw [loopWord, if_neg h1, if_neg h2]
          rw [hw]
          refine ⟨parserAt_same j j1 o hp hs, fun ks => ?_⟩
          rw [loopsBalanced, if_neg h1, if_neg h2]

/-- The rows of a step: the loop fields follow the keywords of the rows. -/
theorem createStepRows_loop (L : Lib) (rows : List Str) (j : Job) (stp : Step) (j1 : Job)
    (stp1 : Step) (o : Bool) (hp : ParserAt j o)
    (h : createStepRows L j stp rows = (j1, stp1, none)) :
    ParserAt j1 ((rows.map rowKeyword).foldl loopWord o) ∧
    ∀ ks, loopsBalanced o (rows.map rowKeyword ++ ks)
      = loopsBalanced ((rows.map rowKeyword).foldl loopWord o) ks := by
  induction rows generalizing j stp o with
  | nil =>
    cases h
    exact ⟨hp, fun ks => rfl⟩
  | cons row rows ih =>
    rw [createStepRows] at h
    cases hl : createStepLine L j stp (replaceAll row ['\n'] []) with
    | error e => rw [hl] at h; cases h
    | ok p =>
      obtain ⟨j2, stp2⟩ := p
      rw [hl] at h
      have h1 := createStepLine_loop L j stp _ j2 stp2 o hp hl
      have h2 := ih j2 stp2 _ h1.1 h
      refine ⟨h2.1, fun ks => ?_⟩
      rw [List.map_cons, List.cons_append]
      show loopsBalanced o (toLower ((splitN 2 (trimStr (replaceAll row ['\n'] []))).headD []) :: _) = _
      rw [h1.2]
      exact h2.2 ks

/-- The rows of a step up to the first row that fails. -/
theorem createStepRows_fails (L : Lib) (rpre : List Str) (row : Str) (rpost : List Str)
    (j : Job) (stp : Step) (e : ParseError)
    (hpre : (createStepRows L j stp rpre).2.2 = none)
    (hrow : createStepLine L (createStepRows L j stp rpre).1 (createStepRows L j stp rpre).2.1
      (replaceAll row ['\n'] []) = .error e) :
    (createStepRows L j stp (rpre ++ row :: rpost)).2.2 = some e := by
  induction rpre generalizing j stp with
  | nil =>
    simp only [createStepRows] at hrow
    rw [List.nil_append, createStepRows, hrow]
  | cons r rpre ih =>
    rw [List.cons_append, createStepRows]
    rw [createStepRows] at hpre hrow
    cases hl : createStepLine L j stp (replaceAll r ['\n'] []) with
    | error x => rw [hl] at hpre; cases hpre
    | ok p =>
      obtain ⟨j2, stp2⟩ := p
      rw [hl] at hpre hrow
      exact ih j2 stp2 hpre hrow

theorem createStepEnd_error (r : Job × Step × Option ParseError) (e : ParseError)
    (h : r.2.2 = some e) : (createStepEnd r).2 = some e := by
  obtain ⟨j, stp, oe⟩ := r
  cases h
  rfl

theorem parserAt_leave (j2 : Job) (o : Bool) (hp2 : ParserAt j2 o) :
    ParserAt (if j2.forRemoveNextStep then { j2 with forRemoveNextStep := false, addTo := [] } else j2)
      o := by
  cases hb : j2.forRemoveNextStep with
  | false => simpa using hp2
  | true =>
    rcases hp2 with ⟨ho, hc, _⟩ | ⟨_, _, _, hr⟩
    · simp only [if_true]
      exact Or.inl ⟨ho, hc, fun hh => (by cases hh)⟩
    · rw [hb] at hr
      cases hr

/-- The end of a step keeps the loop fields, or leaves the loop that `forend` closed. -/
theorem createStepEnd_loop (j : Job) (stp : Step) (o : Bool) (hp : ParserAt j o) :
    ParserAt (createStepEnd (j, stp, none)).1 o ∧ (createStepEnd (j, stp, none)).2 = none := by
  refine ⟨?_, rfl⟩
  have hsame : SameLoop j (if j.addTo.length > 0 then addStepToForLoop j stp else addStepToJob j stp) := by
    split_ifs <;> exact ⟨rfl, rfl, rfl⟩
  exact parserAt_leave _ o (parserAt_same _ _ o hp hsame)

/-- A step: the loop fields follow the keywords of its rows. -/
theorem createStep_loop (L : Lib) (j : Job) (s : Str) (j1 : Job) (o : Bool) (hp : ParserAt j o)
    (h : createStep L j s = (j1, none)) :
    ParserAt j1 ((stepKeywords s).foldl loopWord o) ∧
    ∀ ks, loopsBalanced o (stepKeywords s ++ ks)
      = loopsBalanced ((stepKeywords s).foldl loopWord o) ks := by
  unfold createStep at h
  rcases hr : createStepRows L j Step.zero (splitLineStart ' ' ' ' true [] s) with ⟨j2, stp2, oe⟩
  rw [hr] at h
  cases oe with
  | some e =>
    have := createStepEnd_error (j2, stp2, some e) e rfl
    rw [h] at this
    cases this
  | none =>
    have h1 := createStepRows_loop L _ j Step.zero j2 stp2 o hp hr
    have h2 := createStepEnd_loop j2 stp2 _ h1.1
    rw [h] at h2
    exact ⟨h2.1, h1.2⟩

theorem stepsKeywords_cons (s : Str) (rest : List Str) (h : ¬ trimStr s = []) :
    stepsKeywords (s :: rest) = stepKeywords s ++ stepsKeywords rest := by
  rw [stepsKeywords, if_neg h]

theorem stepsKeywords_blank (s : Str) (rest : List Str) (h : trimStr s = []) :
    stepsKeywords (s :: rest) = stepsKeywords rest := by
  rw [stepsKeywords, if_pos h]

/-- The steps of a text: the loop fields follow the keywords of the rows. -/
theorem createStepsLoop_loop (L : Lib) (steps : List Str) (j j1 : Job) (o : Bool)
    (hp : ParserAt j o) (h : createStepsLoop L j steps = (j1, none)) :
    ParserAt j1 ((stepsKeywords steps).foldl loopWord o) ∧
    ∀ ks, loopsBalanced o (stepsKeywords steps ++ ks)
      = loopsBalanced ((stepsKeywords steps).foldl loopWord o) ks := by
  induction steps generalizing j o with
  | nil =>
    cases h
    exact ⟨hp, fun ks => rfl⟩
  | cons s rest ih =>
    rw [createStepsLoop] at h
    by_cases hb : trimStr s = []
    · rw [if_pos hb] at h
      rw [stepsKeywords_blank s rest hb]
      exact ih j o hp h
    · rw [if_neg hb] at h
      rw [stepsKeywords_cons s rest hb]
      rcases hs : createStep L j s with ⟨j2, oe⟩
      rw [hs] at h
      cases oe with
      | some e => cases h
      | none =>
        have h1 := createStep_loop L j s j2 o hp hs
        have h2 := ih j2 _ h1.1 h
        rw [List.foldl_append]
        refine ⟨h2.1, fun ks => ?_⟩
        rw [List.append_assoc, h1.2]
        exact h2.2 ks

/-- The steps of a text up to the first step that fails. -/
theorem createStepsLoop_fails (L : Lib) (pre : List Str) (s : Str) (post : List Str) (j : Job)
    (e : ParseError) (hpre : (createStepsLoop L j pre).2 = none) (hs : ¬ trimStr s = [])
    (hstep : (createStep L (createStepsLoop L j pre).1 s).2 = some e) :
    (createStepsLoop L j (pre ++ s :: post)).2 = some e := by
  induction pre generalizing j with
  | nil =>
    simp only [createStepsLoop] at hstep
    rw [List.nil_append, createStepsLoop, if_neg hs]
    rcases hc : createStep L j s with ⟨j2, oe⟩
    rw [hc] at hstep
    cases hstep
    rfl
  | cons p pre ih =>
    rw [List.cons_append, createStepsLoop]
    rw [createStepsLoop] at hpre hstep
    by_cases hb : trimStr p = []
    · rw [if_pos hb] at hpre hstep ⊢
      exact ih j hpre hstep
    · rw [if_neg hb] at hpre hstep ⊢
      rcases hc : createStep L j p with ⟨j2, oe⟩
      rw [hc] at hpre hstep
      cases oe with
      | some x => cases hpre
      | none => exact ih j2 hpre hstep

theorem parserAt_init (vars : Vars) : ParserAt (Job.init vars) false :=
  Or.inl ⟨rfl, rfl, fun h => (by cases h)⟩

theorem parseJob_error (L : Lib) (r : RawJob) (e : ParseError)
    (h : (createStepsLoop L (Job.init (r.vars.getD [])) (splitLineStart '-' ' ' true [] r.steps)).2
      = some e) : parseJob L r = .error e := by
  unfold parseJob createSteps
  rcases hc : createStepsLoop L (Job.init (r.vars.getD [])) (splitLineStart '-' ' ' true [] r.steps)
    with ⟨j2, oe⟩
  rw [hc] at h
  cases h
  rfl

/-- A text that is balanced leaves no `for` open. -/
theorem loopsBalanced_closed (ks : List Str) (o : Bool) (h : loopsBalanced o ks = true) :
    ks.foldl loopWord o = false := by
  induction ks generalizing o with
  | nil => simpa [loopsBalanced] using h
  | cons k ks ih =>
    rw [List.foldl_cons]
    rw [loopsBalanced] at h
    by_cases h1 : k = "for".toList
    · rw [if_pos h1] at h
      cases o with
      | true => simp at h
      | false =>
        simp only [Bool.false_eq_true, if_false] at h
        have hw : loopWord false k = true := by rw [loopWord, if_pos h1]
        rw [hw]
        exact ih true h
    · rw [if_neg h1] at h
      by_cases h2 : k = "forend".toList
      · rw [if_pos h2] at h
        cases o with
        | false => simp at h
        | true =>
          simp only [if_true] at h
          have hw : loopWord true k = false := by rw [loopWord, if_neg h1, if_pos h2]
          rw [hw]
          exact ih false h
      · rw [if_neg h2] at h
        have hw : loopWord o k = o := by rw [loopWord, if_neg h1, if_neg h2]
        rw [hw]
        exact ih o h

/-- The parse of a whole text: what `parseJob` returns in terms of the loop over the
steps. -/
theorem parseJob_ok (L : Lib) (r : RawJob) (j : Job) (h : parseJob L r = .ok j) :
    createStepsLoop L (Job.init (r.vars.getD [])) (splitLineStart '-' ' ' true [] r.steps) = (j, none) ∧
    j.forcounter = 0 := by
  unfold parseJob createSteps at h
  rcases hc : createStepsLoop L (Job.init (r.vars.getD [])) (splitLineStart '-' ' ' true [] r.steps)
    with ⟨j2, oe⟩
  rw [hc] at h
  cases oe with
  | some e => cases h
  | none =>
    simp only [] at h
    by_cases h1 : j2.forcounter > 0
    · rw [if_pos h1] at h; cases h
    · rw [if_neg h1] at h
      by_cases h2 : j2.forcounter < 0
      · rw [if_pos h2] at h; cases h
      · rw [if_neg h2] at h
        cases h
        exact ⟨rfl, by omega⟩

/-- C19. When the steps before a step parse without error, the rows of that step before
one of its rows parse without error, that row has the keyword `for`, and among
the rows before it a `for` is not closed by a later `forend`, `parseJob` fails
with the error of nested loops, raised for that row, and returns no job. -/
theorem C19_nested_for_is_rejected (L : Lib) (text : Str) (vars : Option Vars)
    (pre post : List Str) (s : Str) (rpre rpost : List Str) (row : Str)
    (htext : splitLineStart '-' ' ' true [] text = pre ++ s :: post)
    (hpre : (createStepsLoop L (Job.init (vars.getD [])) pre).2 = none)
    (hs : trimStr s ≠ [])
    (hrows : splitLineStart ' ' ' ' true [] s = rpre ++ row :: rpost)
    (hrpre : (createStepRows L (createStepsLoop L (Job.init (vars.getD [])) pre).1 Step.zero rpre).2.2
      = none)
    (hfor : rowKeyword row = "for".toList)
    (hopen : openAfter (stepsKeywords pre ++ rpre.map rowKeyword) = true) :
    parseJob L ⟨text, vars⟩ = .error (.nestedFor (rowArgs row)) := by
  rcases h1 : createStepsLoop L (Job.init (vars.getD [])) pre with ⟨j1, oe⟩
  rw [h1] at hpre hrpre
  simp only [] at hpre hrpre
  subst hpre
  rcases h2 : createStepRows L j1 Step.zero rpre with ⟨j2, stp2, oe2⟩
  rw [h2] at hrpre
  simp only [] at hrpre
  subst hrpre
  have hp1 := createStepsLoop_loop L pre _ j1 false (parserAt_init _) h1
  have hp2 := createStepRows_loop L rpre j1 Step.zero j2 stp2 _ hp1.1 h2
  have ho : (rpre.map rowKeyword).foldl loopWord ((stepsKeywords pre).foldl loopWord false) = true := by
    rw [← List.foldl_append]; exact hopen
  rw [ho] at hp2
  have hadd : j2.addTo ≠ [] := by
    rcases hp2.1 with ⟨h, _⟩ | ⟨_, _, h, _⟩
    · cases h
    · exact h
  have hline : createStepLine L j2 stp2 (replaceAll row ['\n'] [])
      = .error (.nestedFor (rowArgs row)) := by
    unfold createStepLine
    simp only []
    have hk : toLower ((splitN 2 (trimStr (replaceAll row ['\n'] []))).headD []) = "for".toList := hfor
    rw [hk, if_neg (by decide)]
    have : lookup stepTypes "for".toList = some startForLoop := rfl
    rw [this]
    exact startForLoop_nested L j2 stp2 _ hadd
  have hrowsE : (createStepRows L j1 Step.zero (rpre ++ row :: rpost)).2.2
      = some (.nestedFor (rowArgs row)) := by
    apply createStepRows_fails
    · rw [h2]
    · rw [h2]; exact hline
  have hstep : (createStep L j1 s).2 = some (.nestedFor (rowArgs row)) := by
    unfold createStep
    rw [hrows]
    exact createStepEnd_error _ _ hrowsE
  apply parseJob_error
  show (createStepsLoop L (Job.init (vars.getD [])) (splitLineStart '-' ' ' true [] text)).2 = _
  rw [htext]
  apply createStepsLoop_fails
  · rw [h1]
  · exact hs
  · rw [h1]; exact hstep

/-- C19 on a text with a `for` step, a GET step and a second `for` step. -/
theorem C19_nested_for_is_rejected_witness :
    openAfter (stepsKeywords [[], "for name in [\"a\",\"b\",\"c\"]\n".toList, "GET https://x/a\n".toList])
      = true ∧
    parseJob demoLib ⟨nestedText, none⟩ = .error (.nestedFor "y in [\"a\",\"b\",\"c\"]".toList) :=
  ⟨by decide,
   C19_nested_for_is_rejected demoLib nestedText none
     [[], "for name in [\"a\",\"b\",\"c\"]\n".toList, "GET https://x/a\n".toList]
     ["forend\n".toList, "forend\n".toList] "for y in [\"a\",\"b\",\"c\"]\n".toList [] []
     "for y in [\"a\",\"b\",\"c\"]\n".toList (by decide) rfl (by decide) (by decide) rfl (by decide)
     (by decide)⟩

/-- C20. Every job that `parseJob` returns has `forcounter` 0, and the text it comes from
has every `for` closed by a later `forend` and no `forend` without an open
`for`. So a text in which that is not so is rejected with an error, and so is a
text in which a `for` is followed by no `forend`. -/
theorem C20_parsed_loops_are_closed (L : Lib) (text : Str) (vars : Option Vars) :
    (∀ j, parseJob L ⟨text, vars⟩ = .ok j →
      j.forcounter = 0 ∧ loopsBalanced false (textKeywords text) = true) ∧
    (loopsBalanced false (textKeywords text) = false → ∃ e, parseJob L ⟨text, vars⟩ = .error e) ∧
    (openAfter (textKeywords text) = true → ∃ e, parseJob L ⟨text, vars⟩ = .error e) := by
  have hmain : ∀ j, parseJob L ⟨text, vars⟩ = .ok j →
      j.forcounter = 0 ∧ loopsBalanced false (textKeywords text) = true := by
    intro j h
    have h1 := parseJob_ok L ⟨text, vars⟩ j h
    have h2 := createStepsLoop_loop L _ _ j false (parserAt_init _) h1.1
    refine ⟨h1.2, ?_⟩
    have h3 := h2.2 []
    rw [List.append_nil] at h3
    show loopsBalanced false (stepsKeywords (splitLineStart '-' ' ' true [] text)) = true
    rw [h3]
    rcases h2.1 with ⟨ho, _⟩ | ⟨_, hc, _⟩
    · rw [ho]; rfl
    · rw [h1.2] at hc
      cases hc
  refine ⟨hmain, fun hb => ?_, fun ho => ?_⟩
  · cases hp : parseJob L ⟨text, vars⟩ with
    | error e => exact ⟨e, rfl⟩
    | ok j =>
      have := (hmain j hp).2
      rw [hb] at this
      cases this
  · cases hp : parseJob L ⟨text, vars⟩ with
    | error e => exact ⟨e, rfl⟩
    | ok j =>
      have := loopsBalanced_closed _ _ (hmain j hp).2
      unfold openAfter at ho
      rw [ho] at this
      cases this

/-- C20 on the text of Scenario 2, on a text with a `for` and no `forend`, and on a text
with a `forend` and no `for`. -/
theorem C20_parsed_loops_are_closed_witness :
    parseJob demoLib ⟨scenario2Text, none⟩ = .ok scenario2Job ∧
    scenario2Job.forcounter = 0 ∧ loopsBalanced false (textKeywords scenario2Text) = true ∧
    openAfter (textKeywords openText) = true ∧
    (∃ e, parseJob demoLib ⟨openText, none⟩ = .error e) ∧
    parseJob demoLib ⟨openText, none⟩ = .error .forWithoutForend ∧
    loopsBalanced false (textKeywords closeText) = false ∧
    (∃ e, parseJob demoLib ⟨closeText, none⟩ = .error e) ∧
    parseJob demoLib ⟨closeText, none⟩ = .error .forendNoFor :=
  ⟨rfl, ((C20_parsed_loops_are_closed demoLib scenario2Text none).1 scenario2Job rfl).1,
   ((C20_parsed_loops_are_closed demoLib scenario2Text none).1 scenario2Job rfl).2,
   by decide, (C20_parsed_loops_are_closed demoLib openText none).2.2 (by decide), rfl,
   by decide, (C20_parsed_loops_are_closed demoLib closeText none).2.1 (by decide), rfl⟩

/-! ### Conditions, HTTP lines and credentials (C21, C22, C27) -/

/-- C21. For an `if` argument that decodes to `i`: `createIf` appends `i` to the
conditions of the step and returns no error when the type of `i` is one of
`exists`, `equals`, `greater`, `less`, `true`, `false`, `var1` is not empty, and
`var2` is not empty or the type is `exists`; in every other case it returns an
error (and no step: the caller keeps the step as it was). -/
theorem C21_if_accepted_iff (L : Lib) (j : Job) (s : Step) (a : Str) (i : Condition)
    (hdec : L.jsonCondition a = some i) :
    allowedConditions = ["exists".toList, "equals".toList, "greater".toList, "less".toList,
      "true".toList, "false".toList] ∧
    ((i.type ∈ allowedConditions ∧ i.var1 ≠ [] ∧ (i.var2 ≠ [] ∨ i.type = "exists".toList)) →
      createIf L j s a = .ok (j, { s with conditions := s.conditions ++ [i] })) ∧
    (¬ (i.type ∈ allowedConditions ∧ i.var1 ≠ [] ∧ (i.var2 ≠ [] ∨ i.type = "exists".toList)) →
      ∃ e, createIf L j s a = .error e) ∧
    ((∃ j1 s1, createIf L j s a = .ok (j1, s1)) ↔
      (i.type ∈ allowedConditions ∧ i.var1 ≠ [] ∧ (i.var2 ≠ [] ∨ i.type = "exists".toList))) := by
  have hany : allowedConditions.any (fun c => i.type == c) = true ↔ i.type ∈ allowedConditions := by
    simp [List.any_eq_true]
  have hpos : (i.type ∈ allowedConditions ∧ i.var1 ≠ [] ∧ (i.var2 ≠ [] ∨ i.type = "exists".toList)) →
      createIf L j s a = .ok (j, { s with conditions := s.conditions ++ [i] }) := by
    rintro ⟨ht, h1, h2⟩
    have hne : i.type ≠ [] := by
      intro h0
      rw [h0] at ht
      revert ht
      decide
    have h3 : ¬ (i.var2 = [] ∧ i.type ≠ "exists".toList) := by
      rintro ⟨h4, h5⟩
      rcases h2 with h2 | h2
      · exact h2 h4
      · exact h5 h2
    unfold createIf
    rw [hdec]
    simp only []
    rw [if_neg hne, if_neg h1, if_neg h3, if_pos (hany.mpr ht)]
  have hneg : ¬ (i.type ∈ allowedConditions ∧ i.var1 ≠ [] ∧ (i.var2 ≠ [] ∨ i.type = "exists".toList)) →
      ∃ e, createIf L j s a = .error e := by
    intro hn
    unfold createIf
    rw [hdec]
    simp only []
    by_cases h0 : i.type = []
    · rw [if_pos h0]; exact ⟨_, rfl⟩
    · rw [if_neg h0]
      by_cases h1 : i.var1 = []
      · rw [if_pos h1]; exact ⟨_, rfl⟩
      · rw [if_neg h1]
        by_cases h3 : i.var2 = [] ∧ i.type ≠ "exists".toList
        · rw [if_pos h3]; exact ⟨_, rfl⟩
        · rw [if_neg h3]
          by_cases h4 : allowedConditions.any (fun c => i.type == c) = true
          · exfalso
            apply hn
            refine ⟨hany.mp h4, h1, ?_⟩
            by_cases h5 : i.var2 = []
            · right
              by_contra h6
              exact h3 ⟨h5, h6⟩
            · left; exact h5
          · rw [if_neg h4]; exact ⟨_, rfl⟩
  refine ⟨rfl, hpos, hneg, ?_, ?_⟩
  · rintro ⟨j1, s1, hok⟩
    by_contra hn
    obtain ⟨e, he⟩ := hneg hn
    rw [he] at hok
    cases hok
  · intro h
    exact ⟨_, _, hpos h⟩

/-- C21 on `if {"type":"exists","var1":"tok"}`, which is accepted, and on the same line
with the type `true`, which lacks `var2` and is rejected. -/
theorem C21_if_accepted_iff_witness :
    condLib.jsonCondition (ifText "exists".toList) = some ⟨"exists".toList, "tok".toList, []⟩ ∧
    createIf condLib (Job.init []) Step.zero (ifText "exists".toList)
      = .ok (Job.init [], { Step.zero with conditions := [⟨"exists".toList, "tok".toList, []⟩] }) ∧
    (∃ e, createIf condLib (Job.init []) Step.zero (ifText "true".toList) = .error e) :=
  ⟨rfl,
   (C21_if_accepted_iff condLib (Job.init []) Step.zero (ifText "exists".toList)
      ⟨"exists".toList, "tok".toList, []⟩ rfl).2.1 (by decide),
   (C21_if_accepted_iff condLib (Job.init []) Step.zero (ifText "true".toList)
      ⟨"true".toList, "tok".toList, []⟩ rfl).2.2.1 (by decide)⟩

/-- C22. For an HTTP keyword with its method `m`, the upper case of the keyword, and a
non-empty URL without space: the function of the keyword sets the method to `m`
and the URL; after `URL REST` the body is `REST`, all that follows the first
space, when `m` is not `GET`; the body is left alone when `m` is `GET` or when
there is no `REST`; arguments with an empty URL give an error (and no step). -/
theorem C22_http_step_fields (L : Lib) (j : Job) (s : Step) (kw m url rest : Str)
    (hk : (kw, m) ∈ httpKeywords) (hu : url ≠ []) (hsp : ∀ c ∈ url, c ≠ ' ') :
    m = kw.map Char.toUpper ∧
    ∃ f, lookup stepTypes kw = some f ∧
      f L j s url = .ok (j, { s with method := m, url := url }) ∧
      f L j s (url ++ ' ' :: rest)
        = .ok (j, { s with method := m, url := url,
                           body := if m = "GET".toList then s.body else rest }) ∧
      f L j s [] = .error (.httpNoURL m []) ∧
      f L j s (' ' :: rest) = .error (.httpNoURL m (' ' :: rest)) := by
  have h1 : cutSpace url = none := cutSpace_token url hsp
  have h2 : cutSpace (url ++ ' ' :: rest) = some (url, rest) := cutSpace_word url rest hsp
  have key : ∀ m : Str,
      createHTTPStep s m url = .ok { s with method := m, url := url } ∧
      createHTTPStep s m (url ++ ' ' :: rest)
        = .ok { s with method := m, url := url, body := if m = "GET".toList then s.body else rest } ∧
      createHTTPStep s m [] = .error (.httpNoURL m []) ∧
      createHTTPStep s m (' ' :: rest) = .error (.httpNoURL m (' ' :: rest)) := by
    intro m
    refine ⟨?_, ?_, ?_, ?_⟩
    · unfold createHTTPStep
      simp [splitN, h1, hu]
    · unfold createHTTPStep
      by_cases hm : m = "GET".toList
      · simp [splitN, h2, hu, hm]
      · have hm2 : ¬ m = ['G', 'E', 'T'] := hm
        simp [splitN, h2, hu, hm2]
    · rfl
    · unfold createHTTPStep
      simp [splitN, cutSpace]
  simp only [httpKeywords, List.mem_cons, Prod.mk.injEq, List.mem_nil_iff, or_false] at hk
  rcases hk with ⟨rfl, rfl⟩ | ⟨rfl, rfl⟩ | ⟨rfl, rfl⟩ | ⟨rfl, rfl⟩ | ⟨rfl, rfl⟩
  · refine ⟨by decide, createGet, rfl, ?_, ?_, ?_, ?_⟩
    · show (createHTTPStep s _ url).map _ = _; rw [(key _).1]; rfl
    · show (createHTTPStep s _ _).map _ = _; rw [(key _).2.1]; rfl
    · show (createHTTPStep s _ _).map _ = _; rw [(key _).2.2.1]; rfl
    · show (createHTTPStep s _ _).map _ = _; rw [(key _).2.2.2]; rfl
  · refine ⟨by decide, createPost, rfl, ?_, ?_, ?_, ?_⟩
    · show (createHTTPStep s _ url).map _ = _; rw [(key _).1]; rfl
    · show (createHTTPStep s _ _).map _ = _; rw [(key _).2.1]; rfl
    · show (createHTTPStep s _ _).map _ = _; rw [(key _).2.2.1]; rfl
    · show (createHTTPStep s _ _).map _ = _; rw [(key _).2.2.2]; rfl
  · refine ⟨by decide, createPatch, rfl, ?_, ?_, ?_, ?_⟩
    · show (createHTTPStep s _ url).map _ = _; rw [(key _).1]; rfl
    · show (createHTTPStep s _ _).map _ = _; rw [(key _).2.1]; rfl
    · show (createHTTPStep s _ _).map _ = _; rw [(key _).2.2.1]; rfl
    · show (createHTTPStep s _ _).map _ = _; rw [(key _).2.2.2]; rfl
  · refine ⟨by decide, createPut, rfl, ?_, ?_, ?_, ?_⟩
    · show (createHTTPStep s _ url).map _ = _; rw [(key _).1]; rfl
    · show (createHTTPStep s _ _).map _ = _; rw [(key _).2.1]; rfl
    · show (createHTTPStep s _ _).map _ = _; rw [(key _).2.2.1]; rfl
    · show (createHTTPStep s _ _).map _ = _; rw [(key _).2.2.2]; rfl
  · refine ⟨by decide, createDelete, rfl, ?_, ?_, ?_, ?_⟩
    · show (createHTTPStep s _ url).map _ = _; rw [(key _).1]; rfl
    · show (createHTTPStep s _ _).map _ = _; rw [(key _).2.1]; rfl
    · show (createHTTPStep s _ _).map _ = _; rw [(key _).2.2.1]; rfl
    · show (createHTTPStep s _ _).map _ = _; rw [(key _).2.2.2]; rfl

/-- C22 on `post https://x/a name=a b`: the body is `name=a b`, spaces included. -/
theorem C22_http_step_fields_witness :
    ("post".toList, "POST".toList) ∈ httpKeywords ∧
    createPost demoLib (Job.init []) Step.zero "https://x/a name=a b".toList
      = .ok (Job.init [], { Step.zero with method := "POST".toList, url := "https://x/a".toList,
                                            body := "name=a b".toList }) ∧
    createGet demoLib (Job.init []) Step.zero "https://x/a name=a b".toList
      = .ok (Job.init [], { Step.zero with method := "GET".toList, url := "https://x/a".toList }) := by
  have h := C22_http_step_fields demoLib (Job.init []) Step.zero "post".toList "POST".toList
    "https://x/a".toList "name=a b".toList (by decide) (by decide) (by decide)
  obtain ⟨_, f, hf, _, h2, _⟩ := h
  have hf2 : f = createPost := by
    have : lookup stepTypes "post".toList = some createPost := rfl
    rw [this] at hf
    injection hf with hf
    exact hf.symm
  subst hf2
  exact ⟨by decide, h2, rfl⟩

/-- C27. `addBasicAuth` gives the request the credentials of the step when the step has
a user name and a password, else those of the job when the job has both, else it
leaves the request as it is; with both sets of credentials the local ones are
used. -/
theorem C27_local_auth_first (L : Lib) (j : Job) (s : InnerStep) (req : Request) :
    ((s.auth.username ≠ [] ∧ s.auth.password ≠ []) →
      addBasicAuth L j s req = setBasicAuth L req s.auth.username s.auth.password ∧
      headerGet L (addBasicAuth L j s req).header "Authorization".toList
        = L.basicAuth s.auth.username s.auth.password) ∧
    (¬ (s.auth.username ≠ [] ∧ s.auth.password ≠ []) →
      (j.globalAuth.username ≠ [] ∧ j.globalAuth.password ≠ []) →
      addBasicAuth L j s req = setBasicAuth L req j.globalAuth.username j.globalAuth.password ∧
      headerGet L (addBasicAuth L j s req).header "Authorization".toList
        = L.basicAuth j.globalAuth.username j.globalAuth.password) ∧
    (¬ (s.auth.username ≠ [] ∧ s.auth.password ≠ []) →
      ¬ (j.globalAuth.username ≠ [] ∧ j.globalAuth.password ≠ []) →
      addBasicAuth L j s req = req) := by
  have hget : ∀ u p, headerGet L (setBasicAuth L req u p).header "Authorization".toList
      = L.basicAuth u p := by
    intro u p
    simp [headerGet, setBasicAuth, headerSet, lookup_assign_same]
  refine ⟨fun h => ?_, fun h1 h2 => ?_, fun h1 h2 => ?_⟩
  · have : addBasicAuth L j s req = setBasicAuth L req s.auth.username s.auth.password := by
      unfold addBasicAuth
      rw [if_pos h]
    rw [this]
    exact ⟨rfl, hget _ _⟩
  · have : addBasicAuth L j s req
        = setBasicAuth L req j.globalAuth.username j.globalAuth.password := by
      unfold addBasicAuth
      rw [if_neg h1, if_pos h2]
    rw [this]
    exact ⟨rfl, hget _ _⟩
  · unfold addBasicAuth
    rw [if_neg h1, if_neg h2]

/-- C27 on a step with the credentials `me` / `secret` in a job with the global
credentials `root` / `pw`, and on a step without credentials in that job. -/
theorem C27_local_auth_first_witness :
    headerGet demoLib (addBasicAuth demoLib jobGlobalAuth stepLocalAuth plainRequest).header
      "Authorization".toList = "me:secret".toList ∧
    headerGet demoLib (addBasicAuth demoLib jobGlobalAuth (httpStep "GET".toList "https://x/a".toList)
      plainRequest).header "Authorization".toList = "root:pw".toList ∧
    addBasicAuth demoLib (Job.init []) (httpStep "GET".toList "https://x/a".toList) plainRequest
      = plainRequest :=
  ⟨((C27_local_auth_first demoLib jobGlobalAuth stepLocalAuth plainRequest).1 (by decide)).2,
   ((C27_local_auth_first demoLib jobGlobalAuth (httpStep "GET".toList "https://x/a".toList)
      plainRequest).2.1 (by decide) (by decide)).2,
   (C27_local_auth_first demoLib (Job.init []) (httpStep "GET".toList "https://x/a".toList)
      plainRequest).2.2 (by decide) (by decide)⟩

/-! ### Headers of the request (C28) -/

theorem foldl_header (L : Lib) (hs : List Header) (req : Request) :
    (hs.foldl (fun r h => { r with header := headerSet L r.header h.name h.value }) req).header
      = hs.foldl (fun m h => headerSet L m h.name h.value) req.header := by
  induction hs generalizing req with
  | nil => rfl
  | cons x hs ih =>
    rw [List.foldl_cons, List.foldl_cons]
    exact ih _

theorem addHeaders_header (L : Lib) (s : InnerStep) (req : Request) :
    (addHeaders L s req).header
      = s.headers.foldl (fun m h => headerSet L m h.name h.value) req.header :=
  foldl_header L s.headers req

/-- After the headers are set one by one, a name reads as its last entry, or as it
read before when it has no entry. -/
theorem foldl_headerSet_lookup (L : Lib) (hs : List Header) (m : List (Str × Str)) (N : Str) :
    lookup (hs.foldl (fun m h => headerSet L m h.name h.value) m) (L.canonicalKey N)
      = match lastNamed L hs N with
        | some v => some v
        | none => lookup m (L.canonicalKey N) := by
  induction hs using List.reverseRecOn with
  | nil => rfl
  | append_singleton hs x ih =>
    rw [List.foldl_append, List.foldl_cons, List.foldl_nil]
    unfold lastNamed
    rw [List.filter_append]
    by_cases hx : L.canonicalKey x.name = L.canonicalKey N
    · have hb : (L.canonicalKey x.name == L.canonicalKey N) = true := by simp [hx]
      have hf : [x].filter (fun h => L.canonicalKey h.name == L.canonicalKey N) = [x] := by
        simp [List.filter, hb]
      rw [hf, List.getLast?_append, headerSet, hx, lookup_assign_same]
      rfl
    · have hb : (L.canonicalKey x.name == L.canonicalKey N) = false := by simp [hx]
      have hf : [x].filter (fun h => L.canonicalKey h.name == L.canonicalKey N) = [] := by
        simp [List.filter, hb]
      rw [hf, List.append_nil, headerSet, lookup_assign_other _ _ _ _ (Ne.symm hx)]
      exact ih

theorem addCookie_lookup (L : Lib) (req : Request) (c : Cookie) (k : Str)
    (hk : L.canonicalKey "Cookie".toList ≠ k) :
    lookup (addCookie L req c).header k = lookup req.header k := by
  unfold addCookie
  simp only []
  split_ifs <;> exact lookup_assign_other _ _ _ _ (Ne.symm hk)

theorem addCookies_lookup (L : Lib) (s : InnerStep) (req : Request) (k : Str)
    (hk : L.canonicalKey "Cookie".toList ≠ k ∨ s.cookies = []) :
    lookup (addCookies L s req).header k = lookup req.header k := by
  unfold addCookies
  rcases hk with hk | hk
  · generalize s.cookies = cs
    induction cs generalizing req with
    | nil => rfl
    | cons c cs ih =>
      rw [List.foldl_cons, ih, addCookie_lookup L req c k hk]
  · rw [hk]
    rfl

/-- The header map after `addOptions` read at a name with an entry in the headers of
the step. -/
theorem addOptions_named (L : Lib) (j : Job) (s : InnerStep) (req : Request) (N v : Str)
    (hv : lastNamed L s.headers N = some v)
    (hc : L.canonicalKey "Cookie".toList ≠ L.canonicalKey N ∨ s.cookies = []) :
    headerGet L (addOptions L j s req).header N = v := by
  unfold headerGet addOptions
  rw [addCookies_lookup L s _ _ hc, addHeaders_header L s _,
    foldl_headerSet_lookup, hv]
  rfl

/-- C28, as stated, fails for the name `Cookie`: for a job with the cookie `sid=1` and a
step with the header `Cookie: a=b`, the request reads `a=b; sid=1` under `Cookie`,
where the last entry named `Cookie` has the value `a=b`. -/
theorem C28_counterexample :
    lastNamed demoLib (replaceFromVariables demoLib jobIdSid stepCookieHeader).2.headers
      "Cookie".toList = some "a=b".toList ∧
    headerGet demoLib (builtRequest demoLib jobIdSid stepCookieHeader).header "Cookie".toList
      = "a=b; sid=1".toList ∧
    headerGet demoLib (builtRequest demoLib jobIdSid stepCookieHeader).header "Cookie".toList
      ≠ "a=b".toList := by
  refine ⟨by decide, by decide, by decide⟩

/-- C28, amended. After `addOptions`, every header name `N` with an entry in the header
list of the step reads as the value of its last entry, the names taken in
canonical form, unless `N` is `Cookie` and the step carries cookies; so a later
entry (a local header) overrides an earlier one (a global header), and an entry
named `User-Agent` overrides the fixed string. Without such an entry
`User-Agent` reads as the fixed string. -/
theorem C28_last_header_wins (L : Lib) (j : Job) (s : InnerStep) (req : Request) (N : Str) :
    (∀ v, lastNamed L s.headers N = some v →
      (L.canonicalKey "Cookie".toList ≠ L.canonicalKey N ∨ s.cookies = []) →
      headerGet L (addOptions L j s req).header N = v) ∧
    (∀ g l v, s.headers = g ++ l → lastNamed L l N = some v → lastNamed L s.headers N = some v) ∧
    (lastNamed L s.headers "User-Agent".toList = none →
      L.canonicalKey "Authorization".toList ≠ L.canonicalKey "User-Agent".toList →
      L.canonicalKey "Cookie".toList ≠ L.canonicalKey "User-Agent".toList →
      headerGet L (addOptions L j s req).header "User-Agent".toList = userAgent) := by
  refine ⟨fun v hv hc => addOptions_named L j s req N v hv hc, ?_, ?_⟩
  · intro g l v hs hl
    rw [hs]
    unfold lastNamed at hl ⊢
    rw [List.filter_append]
    cases hf : (l.filter (fun h => L.canonicalKey h.name == L.canonicalKey N)).getLast? with
    | none => rw [hf] at hl; cases hl
    | some x =>
      rw [hf] at hl
      rw [List.getLast?_append, hf]
      exact hl
  · intro hnone hauth hcookie
    unfold headerGet addOptions
    rw [addCookies_lookup L s _ _ (Or.inl hcookie), addHeaders_header L s _,
      foldl_headerSet_lookup, hnone]
    have hb : lookup (addBasicAuth L j s (setUserAgent L req)).header
        (L.canonicalKey "User-Agent".toList) = some userAgent := by
      have hua : lookup (setUserAgent L req).header (L.canonicalKey "User-Agent".toList)
          = some userAgent := lookup_assign_same _ _ _
      unfold addBasicAuth
      split_ifs
      · show lookup (assign _ _ _) _ = _
        rw [lookup_assign_other _ _ _ _ (Ne.symm hauth)]
        exact hua
      · show lookup (assign _ _ _) _ = _
        rw [lookup_assign_other _ _ _ _ (Ne.symm hauth)]
        exact hua
      · exact hua
    simp only []
    rw [hb]
    rfl

/-- C28 amended, on a step with the headers `X-A: 1`, `User-Agent: probe`, `X-A: 2`, and
on a step without headers. -/
theorem C28_last_header_wins_witness :
    lastNamed demoLib stepThreeHeaders.headers "X-A".toList = some "2".toList ∧
    headerGet demoLib (addOptions demoLib jobIdSid stepThreeHeaders plainRequest).header "X-A".toList
      = "2".toList ∧
    headerGet demoLib (addOptions demoLib jobIdSid stepThreeHeaders plainRequest).header
      "User-Agent".toList = "probe".toList ∧
    headerGet demoLib (addOptions demoLib jobIdSid stepGetId plainRequest).header
      "User-Agent".toList = userAgent :=
  ⟨by decide,
   (C28_last_header_wins demoLib jobIdSid stepThreeHeaders plainRequest "X-A".toList).1 _
     (by decide) (Or.inl (by decide)),
   (C28_last_header_wins demoLib jobIdSid stepThreeHeaders plainRequest "User-Agent".toList).1 _
     (by decide) (Or.inl (by decide)),
   (C28_last_header_wins demoLib jobIdSid stepGetId plainRequest "X-A".toList).2.2
     (by decide) (by decide) (by decide)⟩

/-! ### The server (C25, C26, C29, C30) -/

theorem foldl_count_errors (rs : List TimedResult) (n : Int) :
    rs.foldl (fun errors res => if res.result.err.isSome then errors + 1 else errors) n
      = n + ((rs.filter (fun r => r.result.err.isSome)).length : Int) := by
  induction rs generalizing n with
  | nil => simp
  | cons r rs ih =>
    rw [List.foldl_cons, ih]
    by_cases h : r.result.err.isSome = true
    · have hf : (r :: rs).filter (fun r => r.result.err.isSome)
          = r :: rs.filter (fun r => r.result.err.isSome) := by
        simp [List.filter_cons, h]
      rw [if_pos h, hf, List.length_cons]
      push_cast
      omega
    · have hf : (r :: rs).filter (fun r => r.result.err.isSome)
          = rs.filter (fun r => r.result.err.isSome) := by
        simp [List.filter_cons, h]
      rw [if_neg h, hf]

theorem foldl_error_messages (rs : List TimedResult) (acc : List ResultError) :
    rs.foldl (fun errors res =>
      match res.result.err with
      | some e => errors ++ [e]
      | none => errors) acc
      = acc ++ rs.filterMap (fun r => r.result.err) := by
  induction rs generalizing acc with
  | nil => simp
  | cons r rs ih =>
    rw [List.foldl_cons, ih]
    cases h : r.result.err with
    | none => simp [List.filterMap_cons, h]
    | some e => simp [List.filterMap_cons, h]

theorem filterMap_err_length (rs : List TimedResult) :
    (rs.filterMap (fun r => r.result.err)).length
      = (rs.filter (fun r => r.result.err.isSome)).length := by
  induction rs with
  | nil => rfl
  | cons r rs ih =>
    cases h : r.result.err with
    | none => simp [List.filterMap_cons, h, ih]
    | some e => simp [List.filterMap_cons, h, ih]

/-- C25 (evaluation at the failing input). For a result without error that took 10 ms and a
result with an error, `GetAverageFetchTime` returns 5: the sum leaves the failed
result out, the divisor counts it. The average of the results without error is
10. Without a failed result the two agree, and with failed results only both
are 0. -/
theorem C25_divisor_counts_failed_results :
    GetAverageFetchTime (serverWith [okResult, failedResult]) = 5 ∧
    averageOfErrorFree [okResult, failedResult] = 10 ∧
    GetAverageFetchTime (serverWith [okResult]) = 10 ∧
    averageOfErrorFree [okResult] = 10 ∧
    GetAverageFetchTime (serverWith [failedResult]) = 0 ∧
    averageOfErrorFree [failedResult] = 0 ∧
    GetAverageFetchTime (serverWith []) = 0 := by
  refine ⟨by decide, by decide, by decide, by decide, by decide, by decide, by decide⟩

/-- C26. `GetNumberOfErrors` is the number of results with an error, `GetErrorMessages`
holds the errors of those results in the order of the results, and the number is
the length of that list. -/
theorem C26_errors_counted_and_listed (srv : Server) :
    GetNumberOfErrors srv = ((srv.results.filter (fun r => r.result.err.isSome)).length : Int) ∧
    GetErrorMessages srv = srv.results.filterMap (fun r => r.result.err) ∧
    GetNumberOfErrors srv = ((GetErrorMessages srv).length : Int) := by
  have h1 : GetNumberOfErrors srv
      = ((srv.results.filter (fun r => r.result.err.isSome)).length : Int) := by
    unfold GetNumberOfErrors
    rw [foldl_count_errors]
    omega
  have h2 : GetErrorMessages srv = srv.results.filterMap (fun r => r.result.err) := by
    unfold GetErrorMessages
    rw [foldl_error_messages]
    rfl
  refine ⟨h1, h2, ?_⟩
  rw [h1, h2, filterMap_err_length]

/-- C29. `New` returns a server and no error, the server has a transport function, and
its number of virtual users is `v` when `v` is at least 1 and 100 otherwise. -/
theorem C29_new_server (client : Int → Transport) (v t : Int) (c : Option Transport) :
    (New client v t c).2 = none ∧
    (New client v t c).1.fetchFunc.isSome = true ∧
    (1 ≤ v → GetNumberOfVirtualUsers (New client v t c).1 = v) ∧
    (v ≤ 0 → GetNumberOfVirtualUsers (New client v t c).1 = 100) := by
  refine ⟨rfl, rfl, fun h => ?_, fun h => ?_⟩
  · show (if v < 1 then 100 else v) = v
    rw [if_neg (by omega)]
  · show (if v < 1 then (100 : Int) else v) = 100
    rw [if_pos (by omega)]

/-- C29 on `New(153, 30000, nil)`, as in `TestGetNumberOfVirtualUsers`, and on
`New(0, 0, nil)`. -/
theorem C29_new_server_witness :
    GetNumberOfVirtualUsers (New demoClient 153 30000 none).1 = 153 ∧
    GetNumberOfVirtualUsers (New demoClient 0 0 none).1 = 100 :=
  ⟨(C29_new_server demoClient 153 30000 none).2.2.1 (by decide),
   (C29_new_server demoClient 0 0 none).2.2.2 (by decide)⟩

/-- C30 (evaluation at the failing input). On a server that is not running `StopRunning`
returns the error and the server as it was. On a running server whose queue is
open and has no waiting sender it returns no error; `running` and `stopping` are
then false and true, as after `WaitDone`, on the server of `New` and `Start`. On
a running server with a job waiting in the send of `workerAddJob` the call
closes the queue under the sender: a panic. On a server that was stopped and
started again the queue is closed a second time: a panic. -/
theorem C30_stop_closes_the_queue_under_senders :
    (∀ (now : Int) (wait : Server → Server) (srv : Server),
      StopRunning now wait { srv with running := false }
        = .returns { srv with running := false } (some .notRunning)) ∧
    (∀ (now : Int) (wait : Server → Server) (srv : Server),
      StopRunning now wait { srv with running := true, parsedJobs := some ⟨[], false⟩ }
      = .returns { wait { srv with stopping := true, running := false,
                                   parsedJobs := some ⟨[], true⟩ } with endTime := now } none) ∧
    (StopRunning 9 noWait (Start 5 (New demoClient 1 30000 none).1)).panicked = false ∧
    (StopRunning 9 noWait (Start 5 (New demoClient 1 30000 none).1)).server.running = false ∧
    (StopRunning 9 noWait (Start 5 (New demoClient 1 30000 none).1)).server.stopping = true ∧
    (WaitDone 9 noWait noWait (Start 5 (New demoClient 1 30000 none).1)).server.running = false ∧
    (WaitDone 9 noWait noWait (Start 5 (New demoClient 1 30000 none).1)).server.stopping = true ∧
    IsRunning serverWithSender = true ∧
    (StopRunning 9 noWait serverWithSender).panicked = true ∧
    IsRunning (Start 12 (StopRunning 9 noWait (Start 5 (New demoClient 1 30000 none).1)).server) = true ∧
    (StopRunning 15 noWait
      (Start 12 (StopRunning 9 noWait (Start 5 (New demoClient 1 30000 none).1)).server)).panicked
      = true :=
  ⟨fun _ _ _ => rfl, fun _ _ _ => rfl, rfl, rfl, rfl, rfl, rfl, rfl, rfl, rfl, rfl⟩

/-! ### Methods of the parsed steps (C24) -/

theorem createHTTPStep_shape (s s1 : Step) (m a : Str) (h : createHTTPStep s m a = .ok s1) :
    s1.method = m ∧ s1.url ≠ [] := by
  unfold createHTTPStep at h
  simp only [] at h
  split_ifs at h with hv
  all_goals
    cases h
    exact ⟨rfl, hv⟩

theorem shape_http (j j1 : Job) (s s1 : Step) (m a : Str) (hm : m ∈ methods)
    (h : (createHTTPStep s m a).map (fun s => (j, s)) = .ok (j1, s1)) :
    j1.steps = j.steps ∧ HttpShape s1 := by
  cases he : createHTTPStep s m a with
  | error x => rw [he] at h; cases h
  | ok s2 =>
    rw [he] at h
    cases h
    have := createHTTPStep_shape s s1 m a he
    exact ⟨rfl, Or.inl ⟨by rw [this.1]; exact hm, this.2⟩⟩

theorem keeps_createVar (L : Lib) (j : Job) (s : Step) (a : Str) (j1 : Job) (s1 : Step)
    (h : createVar L j s a = .ok (j1, s1)) : KeepsHttp j s j1 s1 := by
  unfold createVar at h
  split at h
  · cases h
  · split_ifs at h
    cases h
    exact ⟨rfl, rfl, rfl, rfl⟩

theorem keeps_createArray (L : Lib) (j : Job) (s : Step) (a : Str) (j1 : Job) (s1 : Step)
    (h : createArray L j s a = .ok (j1, s1)) : KeepsHttp j s j1 s1 := by
  unfold createArray at h
  split at h
  · cases h
  · split_ifs at h
    cases h
    exact ⟨rfl, rfl, rfl, rfl⟩

theorem keeps_createVarFrom (L : Lib) (j : Job) (s : Step) (a : Str) (j1 : Job) (s1 : Step)
    (h : createVarFrom L j s a = .ok (j1, s1)) : KeepsHttp j s j1 s1 := by
  unfold createVarFrom at h
  split at h
  · cases h
  · split_ifs at h
    cases h
    exact ⟨rfl, rfl, rfl, rfl⟩

theorem keeps_createCookie (L : Lib) (j : Job) (s : Step) (a : Str) (j1 : Job) (s1 : Step)
    (h : createCookie L j s a = .ok (j1, s1)) : KeepsHttp j s j1 s1 := by
  unfold createCookie at h
  split at h
  · cases h
  · split_ifs at h
    cases h
    exact ⟨rfl, rfl, rfl, rfl⟩

theorem keeps_createHeader (L : Lib) (j : Job) (s : Step) (a : Str) (j1 : Job) (s1 : Step)
    (h : createHeader L j s a = .ok (j1, s1)) : KeepsHttp j s j1 s1 := by
  unfold createHeader at h
  split at h
  · cases h
  · split_ifs at h
    cases h
    exact ⟨rfl, rfl, rfl, rfl⟩

theorem keeps_createAuth (L : Lib) (j : Job) (s : Step) (a : Str) (j1 : Job) (s1 : Step)
    (h : createAuth L j s a = .ok (j1, s1)) : KeepsHttp j s j1 s1 := by
  unfold createAuth at h
  split at h
  · cases h
  · split_ifs at h
    cases h
    exact ⟨rfl, rfl, rfl, rfl⟩

theorem keeps_createGlobalHeader (L : Lib) (j : Job) (s : Step) (a : Str) (j1 : Job) (s1 : Step)
    (h : createGlobalHeader L j s a = .ok (j1, s1)) : KeepsHttp j s j1 s1 := by
  unfold createGlobalHeader at h
  split at h
  · cases h
  · split_ifs at h
    cases h
    exact ⟨rfl, rfl, rfl, rfl⟩

theorem keeps_createGlobalAuth (L : Lib) (j : Job) (s : Step) (a : Str) (j1 : Job) (s1 : Step)
    (h : createGlobalAuth L j s a = .ok (j1, s1)) : KeepsHttp j s j1 s1 := by
  unfold createGlobalAuth at h
  split at h
  · cases h
  · split_ifs at h
    cases h
    exact ⟨rfl, rfl, rfl, rfl⟩

theorem keeps_createIf (L : Lib) (j : Job) (s : Step) (a : Str) (j1 : Job) (s1 : Step)
    (h : createIf L j s a = .ok (j1, s1)) : KeepsHttp j s j1 s1 := by
  unfold createIf at h
  split at h
  · cases h
  · split_ifs at h
    cases h
    exact ⟨rfl, rfl, rfl, rfl⟩

theorem keeps_startForLoop (L : Lib) (j : Job) (s : Step) (a : Str) (j1 : Job) (s1 : Step)
    (h : startForLoop L j s a = .ok (j1, s1)) : KeepsHttp j s j1 s1 := by
  unfold startForLoop at h
  simp only [] at h
  split_ifs at h
  all_goals
    first
    | (cases h; exact ⟨rfl, rfl, rfl, rfl⟩)
    | (split at h <;> cases h; exact ⟨rfl, rfl, rfl, rfl⟩)

theorem keeps_endForLoop (L : Lib) (j : Job) (s : Step) (a : Str) (j1 : Job) (s1 : Step)
    (h : endForLoop L j s a = .ok (j1, s1)) : KeepsHttp j s j1 s1 := by
  unfold endForLoop at h
  split_ifs at h
  cases h
  exact ⟨rfl, rfl, rfl, rfl⟩

theorem shape_keeps (j j1 : Job) (s s1 : Step) (h : KeepsHttp j s j1 s1) (hs : HttpShape s) :
    j1.steps = j.steps ∧ HttpShape s1 := by
  refine ⟨h.1, ?_⟩
  unfold HttpShape at hs ⊢
  rw [h.2.1, h.2.2.1, h.2.2.2]
  exact hs

/-- Every function of `stepTypes` keeps the steps of the job and the shape of the step. -/
theorem shape_stepTypes (L : Lib) (t : Str) (f : StepFunc) (j : Job) (s : Step) (a : Str)
    (j1 : Job) (s1 : Step) (hf : lookup stepTypes t = some f) (hs : HttpShape s)
    (h : f L j s a = .ok (j1, s1)) : j1.steps = j.steps ∧ HttpShape s1 := by
  have hm := lookup_mem _ _ _ hf
  simp only [stepTypes, List.mem_cons, Prod.mk.injEq, List.mem_nil_iff, or_false] at hm
  rcases hm with ⟨-, rfl⟩ | ⟨-, rfl⟩ | ⟨-, rfl⟩ | ⟨-, rfl⟩ | ⟨-, rfl⟩ | ⟨-, rfl⟩ | ⟨-, rfl⟩ | ⟨-, rfl⟩ |
    ⟨-, rfl⟩ | ⟨-, rfl⟩ | ⟨-, rfl⟩ | ⟨-, rfl⟩ | ⟨-, rfl⟩ | ⟨-, rfl⟩ | ⟨-, rfl⟩ | ⟨-, rfl⟩
  · exact shape_http j j1 s s1 _ a (by decide) h
  · exact shape_http j j1 s s1 _ a (by decide) h
  · exact shape_http j j1 s s1 _ a (by decide) h
  · exact shape_http j j1 s s1 _ a (by decide) h
  · exact shape_http j j1 s s1 _ a (by decide) h
  · exact shape_keeps _ _ _ _ (keeps_createVar _ _ _ _ _ _ h) hs
  · exact shape_keeps _ _ _ _ (keeps_createArray _ _ _ _ _ _ h) hs
  · exact shape_keeps _ _ _ _ (keeps_createVarFrom _ _ _ _ _ _ h) hs
  · exact shape_keeps _ _ _ _ (keeps_createCookie _ _ _ _ _ _ h) hs
  · exact shape_keeps _ _ _ _ (keeps_createHeader _ _ _ _ _ _ h) hs
  · exact shape_keeps _ _ _ _ (keeps_createAuth _ _ _ _ _ _ h) hs
  · exact shape_keeps _ _ _ _ (keeps_createGlobalHeader _ _ _ _ _ _ h) hs
  · exact shape_keeps _ _ _ _ (keeps_createGlobalAuth _ _ _ _ _ _ h) hs
  · exact shape_keeps _ _ _ _ (keeps_startForLoop _ _ _ _ _ _ h) hs
  · exact shape_keeps _ _ _ _ (keeps_endForLoop _ _ _ _ _ _ h) hs
  · exact shape_keeps _ _ _ _ (keeps_createIf _ _ _ _ _ _ h) hs

theorem createStepLine_shape (L : Lib) (j : Job) (stp : Step) (r : Str) (j1 : Job) (stp1 : Step)
    (hs : HttpShape stp) (h : createStepLine L j stp r = .ok (j1, stp1)) :
    j1.steps = j.steps ∧ HttpShape stp1 := by
  unfold createStepLine at h
  simp only [] at h
  generalize toLower ((splitN 2 (trimStr r)).headD []) = t at h
  generalize (if (splitN 2 (trimStr r)).length > 1 then (splitN 2 (trimStr r)).getD 1 [] else []) = a at h
  by_cases ht : t = []
  · rw [if_pos ht] at h
    cases h
    exact ⟨rfl, hs⟩
  · rw [if_neg ht] at h
    cases hf : lookup stepTypes t with
    | none => rw [hf] at h; cases h
    | some f =>
      rw [hf] at h
      exact shape_stepTypes L t f j stp a j1 stp1 hf hs h

theorem createStepRows_shape (L : Lib) (rows : List Str) (j : Job) (stp : Step) (j1 : Job)
    (stp1 : Step) (hs : HttpShape stp) (h : createStepRows L j stp rows = (j1, stp1, none)) :
    j1.steps = j.steps ∧ HttpShape stp1 := by
  induction rows generalizing j stp with
  | nil =>
    cases h
    exact ⟨rfl, hs⟩
  | cons row rows ih =>
    rw [createStepRows] at h
    cases hl : createStepLine L j stp (replaceAll row ['\n'] []) with
    | error e => rw [hl] at h; cases h
    | ok p =>
      obtain ⟨j2, stp2⟩ := p
      rw [hl] at h
      have h1 := createStepLine_shape L j stp _ j2 stp2 hs hl
      have h2 := ih j2 stp2 h1.2 h
      exact ⟨h2.1.trans h1.1, h2.2⟩

theorem forall_modify {α : Type} (P : α → Prop) (f : α → α) (hf : ∀ c, P c → P (f c))
    (l : List α) (n : Nat) (h : ∀ s ∈ l, P s) : ∀ s ∈ List.modify f n l, P s := by
  induction l generalizing n with
  | nil =>
    intro s hs
    rw [List.modify_nil] at hs
    cases hs
  | cons a l ih =>
    cases n with
    | zero =>
      intro s hs
      rw [List.modify_zero_cons] at hs
      rcases List.mem_cons.mp hs with e | e
      · rw [e]; exact hf a (h a (List.mem_cons_self _ _))
      · exact h s (List.mem_cons_of_mem _ e)
    | succ n =>
      intro s hs
      rw [List.modify_succ_cons] at hs
      rcases List.mem_cons.mp hs with e | e
      · rw [e]; exact h a (List.mem_cons_self _ _)
      · exact ih n (fun x hx => h x (List.mem_cons_of_mem _ hx)) s e

/-- The end of a step adds a step of one of the two shapes to steps of these shapes. -/
theorem createStepEnd_shape (j : Job) (stp : Step) (hj : ∀ s ∈ j.steps, HttpShape s)
    (hs : HttpShape stp) : ∀ s ∈ (createStepEnd (j, stp, none)).1.steps, HttpShape s := by
  have h2 : ∀ s ∈ (if j.addTo.length > 0 then addStepToForLoop j stp else addStepToJob j stp).steps,
      HttpShape s := by
    split_ifs
    · show ∀ s ∈ List.modify _ _ _, HttpShape s
      apply forall_modify HttpShape
      · intro c hc
        exact hc
      · split_ifs
        · intro s hmem
          rcases List.mem_append.mp hmem with e | e
          · exact hj s e
          · rw [List.mem_singleton.mp e]
            exact Or.inr ⟨rfl, rfl, rfl⟩
        · exact hj
    · intro s hmem
      rcases List.mem_append.mp hmem with e | e
      · exact hj s e
      · rw [List.mem_singleton.mp e]
        exact hs
  have key : ∀ j2 : Job,
      (if j2.forRemoveNextStep then { j2 with forRemoveNextStep := false, addTo := [] } else j2).steps
        = j2.steps := by
    intro j2
    split_ifs <;> rfl
  have e : (createStepEnd (j, stp, none)).1.steps
      = (if j.addTo.length > 0 then addStepToForLoop j stp else addStepToJob j stp).steps := key _
  rw [e]
  exact h2

theorem createStep_shape (L : Lib) (j : Job) (s : Str) (j1 : Job)
    (hj : ∀ x ∈ j.steps, HttpShape x) (h : createStep L j s = (j1, none)) :
    ∀ x ∈ j1.steps, HttpShape x := by
  unfold createStep at h
  rcases hr : createStepRows L j Step.zero (splitLineStart ' ' ' ' true [] s) with ⟨j2, stp2, oe⟩
  rw [hr] at h
  cases oe with
  | some e =>
    have := createStepEnd_error (j2, stp2, some e) e rfl
    rw [h] at this
    cases this
  | none =>
    have h1 := createStepRows_shape L _ j Step.zero j2 stp2 (Or.inr ⟨rfl, rfl, rfl⟩) hr
    have h2 := createStepEnd_shape j2 stp2 (by rw [h1.1]; exact hj) h1.2
    rw [h] at h2
    exact h2

theorem createStepsLoop_shape (L : Lib) (steps : List Str) (j j1 : Job)
    (hj : ∀ x ∈ j.steps, HttpShape x) (h : createStepsLoop L j steps = (j1, none)) :
    ∀ x ∈ j1.steps, HttpShape x := by
  induction steps generalizing j with
  | nil =>
    cases h
    exact hj
  | cons s rest ih =>
    rw [createStepsLoop] at h
    by_cases hb : trimStr s = []
    · rw [if_pos hb] at h
      exact ih j hj h
    · rw [if_neg hb] at h
      rcases hs : createStep L j s with ⟨j2, oe⟩
      rw [hs] at h
      cases oe with
      | some e => cases h
      | none => exact ih j2 (createStep_shape L j s j2 hj hs) h

/-- C24, as stated, fails: the text `- if {"type":"exists","var1":"tok"}` parses to a job
with one top-level step that carries a condition, has no method and is no loop
container. -/
theorem C24_counterexample :
    parseJob condLib ⟨ifOnlyText, none⟩
      = .ok { Job.init [] with
              steps := [{ Step.zero with conditions := [⟨"exists".toList, "tok".toList, []⟩] }] } ∧
    ({ Step.zero with conditions := [⟨"exists".toList, "tok".toList, []⟩] } : Step).conditions ≠ [] ∧
    ({ Step.zero with conditions := [⟨"exists".toList, "tok".toList, []⟩] } : Step).method ∉ methods ∧
    ({ Step.zero with conditions := [⟨"exists".toList, "tok".toList, []⟩] } : Step).forloop.varname
      = [] := by
  refine ⟨by rfl, by decide, by decide, by decide⟩

/-- C24, amended. Every step in the top-level list of a job that `parseJob` returns has a
method of GET, POST, PATCH, PUT, DELETE and a URL, or has no method, no URL and
no body; so a step that carries a URL or a body has such a method, while a step
may carry headers, credentials, conditions or `varfrom` items without one. -/
theorem C24_steps_with_url_have_method (L : Lib) (text : Str) (vars : Option Vars) (j : Job)
    (h : parseJob L ⟨text, vars⟩ = .ok j) :
    ∀ s ∈ j.steps,
      ((s.method ∈ methods ∧ s.url ≠ []) ∨ (s.method = [] ∧ s.url = [] ∧ s.body = [])) ∧
      ((s.url ≠ [] ∨ s.body ≠ []) → s.method ∈ methods) := by
  have h1 := parseJob_ok L ⟨text, vars⟩ j h
  have h2 := createStepsLoop_shape L _ _ j (fun x hx => (by cases hx)) h1.1
  intro s hs
  refine ⟨h2 s hs, fun hub => ?_⟩
  rcases h2 s hs with hmeth | hempty
  · exact hmeth.1
  · rcases hub with hu | hb
    · exact absurd hempty.2.1 hu
    · exact absurd hempty.2.2 hb

/-- C24 amended, on the text of Scenario 1: the two steps have the methods GET and POST. -/
theorem C24_steps_with_url_have_method_witness :
    parseJob demoLib ⟨scenario1Text, none⟩ = .ok scenario1Job ∧
    scenario1Job.steps.map (fun s => s.url)
      = ["https://\x7b\x7burl\x7d\x7d".toList, "https://www.sunet.se/".toList] ∧
    "GET".toList ∈ methods ∧ "POST".toList ∈ methods :=
  ⟨by rfl, by decide,
   ((C24_steps_with_url_have_method demoLib scenario1Text none scenario1Job (by rfl))
      { Step.zero with method := "GET".toList, url := "https://\x7b\x7burl\x7d\x7d".toList }
      (by decide)).2 (Or.inl (by decide)),
   ((C24_steps_with_url_have_method demoLib scenario1Text none scenario1Job (by rfl))
      { Step.zero with method := "POST".toList, url := "https://www.sunet.se/".toList }
      (by decide)).2 (Or.inl (by decide))⟩

/-! ### Blank lines in a job text (C23) -/

theorem splitLineStart_two (c1 c2 : Char) (bol : Bool) (acc : Str) (x y : Char) (s : Str) :
    splitLineStart c1 c2 bol acc (x :: y :: s)
      = if (bol && x == c1 && y == c2) = true then acc.reverse :: splitLineStart c1 c2 false [] s
        else splitLineStart c1 c2 (x == '\n') (x :: acc) (y :: s) := by
  rw [splitLineStart]

/-- The scan of a text up to one of its line feeds does not look at what follows. -/
theorem splitLineStart_cut (c1 c2 : Char) (h1 : c1 ≠ '\n') (h2 : c2 ≠ '\n') (n : Nat) :
    ∀ (pre : Str), pre.length ≤ n → ∀ (bol : Bool) (acc : Str), ∃ front acc1, ∀ rest,
      splitLineStart c1 c2 bol acc (pre ++ '\n' :: rest)
        = front ++ splitLineStart c1 c2 true ('\n' :: acc1) rest := by
  induction n with
  | zero =>
    intro pre hn bol acc
    have : pre = [] := List.length_eq_zero.mp (Nat.le_zero.mp hn)
    subst this
    exact ⟨[], acc, fun rest => splitLineStart_newline c1 c2 h1 bol acc rest⟩
  | succ n ih =>
    intro pre hn bol acc
    match pre, hn with
    | [], _ => exact ⟨[], acc, fun rest => splitLineStart_newline c1 c2 h1 bol acc rest⟩
    | [x], _ =>
      refine ⟨[], x :: acc, fun rest => ?_⟩
      show splitLineStart c1 c2 bol acc (x :: '\n' :: rest) = _
      rw [splitLineStart_step c1 c2 bol acc x ('\n' :: rest) (by simp [Ne.symm h2]),
        splitLineStart_newline c1 c2 h1]
      rfl
    | x :: y :: p, hn =>
      by_cases hm : (bol && x == c1 && y == c2) = true
      · obtain ⟨front, acc1, hf⟩ := ih p (by simp at hn; omega) false []
        refine ⟨acc.reverse :: front, acc1, fun rest => ?_⟩
        show splitLineStart c1 c2 bol acc (x :: y :: (p ++ '\n' :: rest)) = _
        rw [splitLineStart_two, if_pos hm, hf rest]
        rfl
      · obtain ⟨front, acc1, hf⟩ := ih (y :: p) (by simp at hn ⊢; omega) (x == '\n') (x :: acc)
        refine ⟨front, acc1, fun rest => ?_⟩
        show splitLineStart c1 c2 bol acc (x :: y :: (p ++ '\n' :: rest)) = _
        rw [splitLineStart_two, if_neg hm]
        exact hf rest

/-- The text read before the scan starts goes in front of the first piece. -/
theorem splitLineStart_acc (c1 c2 : Char) (n : Nat) :
    ∀ (s : Str), s.length ≤ n → ∀ (bol : Bool), ∃ hd tl, ∀ acc,
      splitLineStart c1 c2 bol acc s = (acc.reverse ++ hd) :: tl := by
  induction n with
  | zero =>
    intro s hn bol
    have : s = [] := List.length_eq_zero.mp (Nat.le_zero.mp hn)
    subst this
    exact ⟨[], [], fun acc => by simp [splitLineStart]⟩
  | succ n ih =>
    intro s hn bol
    match s, hn with
    | [], _ => exact ⟨[], [], fun acc => by simp [splitLineStart]⟩
    | [x], _ => exact ⟨[x], [], fun acc => by simp [splitLineStart]⟩
    | x :: y :: p, hn =>
      by_cases hm : (bol && x == c1 && y == c2) = true
      · refine ⟨[], splitLineStart c1 c2 false [] p, fun acc => ?_⟩
        rw [splitLineStart_two, if_pos hm, List.append_nil]
      · obtain ⟨hd, tl, hf⟩ := ih (y :: p) (by simp at hn ⊢; omega) (x == '\n')
        refine ⟨x :: hd, tl, fun acc => ?_⟩
        rw [splitLineStart_two, if_neg hm, hf]
        simp

/-- A line that does not start with the separator, read from the start of a line. -/
theorem splitLineStart_noSep (c1 c2 : Char) (h1 : c1 ≠ '\n') (h2 : c2 ≠ '\n') (l : Str)
    (hl : OneLine l) (hh : ∀ r, l ≠ c1 :: c2 :: r) (acc t : Str) :
    splitLineStart c1 c2 true acc (l ++ '\n' :: t)
      = splitLineStart c1 c2 true ('\n' :: (l.reverse ++ acc)) t := by
  cases l with
  | nil => exact splitLineStart_newline c1 c2 h1 true acc t
  | cons x l =>
    have hx : x ≠ '\n' := hl x (List.mem_cons_self _ _)
    have hstep : (true && x == c1 && (l ++ '\n' :: t).head? == some c2) = false := by
      by_cases hx1 : x = c1
      · cases l with
        | nil => simp [Ne.symm h2]
        | cons y l =>
          have hy : y ≠ c2 := by
            intro e
            exact hh l (by rw [hx1, e])
          simp [hy]
      · simp [hx1]
    rw [List.cons_append, splitLineStart_step c1 c2 true acc x _ hstep]
    have : (x == '\n') = false := by simpa using hx
    rw [this, splitLineStart_line c1 c2 l (fun c hc => hl c (List.mem_cons_of_mem _ hc)),
      splitLineStart_newline c1 c2 h1]
    simp

theorem blank_oneLine (b : Str) (hb : Blank b) : OneLine b := by
  intro c hc e
  have := hb c hc
  rw [e] at this
  revert this
  decide

theorem rdropWhile_append_blank (l b : Str) (hb : Blank b) :
    (l ++ b).rdropWhile isTrim = l.rdropWhile isTrim := by
  induction b using List.reverseRecOn with
  | nil => rw [List.append_nil]
  | append_singleton b c ih =>
    have hc : isTrim c = true := hb c (by simp)
    rw [← List.append_assoc, List.rdropWhile_concat_pos _ _ _ hc]
    exact ih (fun d hd => hb d (by simp [hd]))

/-- Spaces and tabs after a text do not change what `strings.Trim` makes of it. -/
theorem trimStr_append_blank (x b : Str) (hb : Blank b) : trimStr (x ++ b) = trimStr x := by
  induction x with
  | nil =>
    have h1 : b.dropWhile isTrim = [] := by
      rw [List.dropWhile_eq_nil_iff]
      exact hb
    simp [trimStr, h1]
  | cons c x ih =>
    by_cases hc : isTrim c = true
    · unfold trimStr at ih ⊢
      rw [List.cons_append, List.dropWhile_cons_of_pos hc, List.dropWhile_cons_of_pos hc]
      exact ih
    · unfold trimStr
      rw [List.cons_append, List.dropWhile_cons_of_neg hc, List.dropWhile_cons_of_neg hc,
        ← List.cons_append, rdropWhile_append_blank _ _ hb]

theorem trimStr_blank (b : Str) (hb : Blank b) : trimStr b = [] := by
  have := trimStr_append_blank [] b hb
  rw [List.nil_append] at this
  rw [this]
  rfl

/-- A text that `strings.Trim` empties holds spaces and tabs only. -/
theorem trimStr_nil_blank (s : Str) (h : trimStr s = []) : Blank s := by
  unfold trimStr at h
  rw [List.rdropWhile_eq_nil_iff] at h
  have hd : s.dropWhile isTrim = [] := by
    cases e : s.dropWhile isTrim with
    | nil => rfl
    | cons c r =>
      have h1 : isTrim c = true := h c (by rw [e]; exact List.mem_cons_self _ _)
      have h2 := List.head_dropWhile_not isTrim s (by rw [e]; simp)
      simp [e] at h2
      rw [h1] at h2
      cases h2
  rw [List.dropWhile_eq_nil_iff] at hd
  exact hd

theorem trimStr_newline_ne (u v : Str) : trimStr (u ++ '\n' :: v) ≠ [] := by
  intro h
  have := trimStr_nil_blank _ h '\n' (by simp)
  revert this
  decide

theorem createStepLine_congr (L : Lib) (j : Job) (stp : Step) (r r2 : Str)
    (h : trimStr r = trimStr r2) : createStepLine L j stp r = createStepLine L j stp r2 := by
  unfold createStepLine
  rw [h]

theorem createStepLine_blank (L : Lib) (j : Job) (stp : Step) (r : Str) (h : trimStr r = []) :
    createStepLine L j stp r = .ok (j, stp) := by
  unfold createStepLine
  rw [h]
  rfl

/-- The rows of a step after rows that are read the same way. -/
theorem createStepRows_after (L : Lib) (F R R2 : List Str)
    (h : ∀ j stp, createStepRows L j stp R = createStepRows L j stp R2) :
    ∀ j stp, createStepRows L j stp (F ++ R) = createStepRows L j stp (F ++ R2) := by
  induction F with
  | nil => exact h
  | cons r F ih =>
    intro j stp
    rw [List.cons_append, List.cons_append, createStepRows, createStepRows]
    cases createStepLine L j stp (replaceAll r ['\n'] []) with
    | error e => rfl
    | ok p => exact ih p.1 p.2

theorem createStepRows_head (L : Lib) (X X2 : Str) (tl : List Str)
    (h : trimStr (replaceAll X ['\n'] []) = trimStr (replaceAll X2 ['\n'] [])) :
    ∀ j stp, createStepRows L j stp (X :: tl) = createStepRows L j stp (X2 :: tl) := by
  intro j stp
  rw [createStepRows, createStepRows, createStepLine_congr L j stp _ _ h]

theorem createStepRows_skip (L : Lib) (X Y : Str) (tl : List Str)
    (h : trimStr (replaceAll Y ['\n'] []) = []) :
    ∀ j stp, createStepRows L j stp (X :: Y :: tl) = createStepRows L j stp (X :: tl) := by
  intro j stp
  rw [createStepRows, createStepRows]
  cases createStepLine L j stp (replaceAll X ['\n'] []) with
  | error e => rfl
  | ok p =>
    show createStepRows L p.1 p.2 (Y :: tl) = _
    rw [createStepRows, createStepLine_blank L p.1 p.2 _ h]

/-- The rows of a step with a blank line after one of its line feeds, where the blank
line is empty or the next line starts a row. -/
theorem createStepRows_blank_line (L : Lib) (u b hd : Str) (hb : Blank b)
    (hhd : b = [] ∨ ∃ tl, ∀ acc, splitLineStart ' ' ' ' true acc hd = acc.reverse :: tl) :
    ∀ j stp, createStepRows L j stp (splitLineStart ' ' ' ' true [] (u ++ '\n' :: (b ++ '\n' :: hd)))
      = createStepRows L j stp (splitLineStart ' ' ' ' true [] (u ++ '\n' :: hd)) := by
  obtain ⟨front, acc1, hcut⟩ :=
    splitLineStart_cut ' ' ' ' (by decide) (by decide) u.length u (Nat.le_refl _) true []
  rw [hcut, hcut]
  apply createStepRows_after
  have hbl := blank_oneLine b hb
  by_cases h2 : ∃ r, b = ' ' :: ' ' :: r
  · obtain ⟨r, rfl⟩ := h2
    have hr : Blank r := fun c hc => hb c (by simp [hc])
    rcases hhd with h0 | ⟨tl, htl⟩
    · cases h0
    · have e1 : splitLineStart ' ' ' ' true ('\n' :: acc1) ((' ' :: ' ' :: r) ++ '\n' :: hd)
          = ('\n' :: acc1).reverse :: (r ++ ['\n']) :: tl := by
        show splitLineStart ' ' ' ' true ('\n' :: acc1) (' ' :: ' ' :: (r ++ '\n' :: hd)) = _
        rw [splitLineStart_match, splitLineStart_line ' ' ' ' r (blank_oneLine r hr),
          splitLineStart_newline ' ' ' ' (by decide), htl]
        simp
      rw [e1, htl]
      apply createStepRows_skip
      rw [stripNL_append, stripNL_oneLine r (blank_oneLine r hr)]
      have : replaceAll ['\n'] ['\n'] [] = [] := by decide
      rw [this, List.append_nil]
      exact trimStr_blank r hr
  · have hns : ∀ r, b ≠ ' ' :: ' ' :: r := fun r e => h2 ⟨r, e⟩
    rw [splitLineStart_noSep ' ' ' ' (by decide) (by decide) b hbl hns]
    obtain ⟨hd2, tl2, hacc⟩ := splitLineStart_acc ' ' ' ' hd.length hd (Nat.le_refl _) true
    rw [hacc, hacc]
    apply createStepRows_head
    have hnl : replaceAll ['\n'] ['\n'] [] = [] := by decide
    rcases hhd with h0 | ⟨tl, htl⟩
    · subst h0
      simp only [List.reverse_cons, List.reverse_nil, List.nil_append, List.append_assoc,
        stripNL_append, hnl, List.append_nil]
    · have hh : hd2 = [] := by
        have := htl []
        rw [hacc] at this
        simp at this
        exact this.1
      subst hh
      simp only [List.reverse_cons, List.reverse_append, List.reverse_reverse, List.append_nil,
        List.append_assoc, stripNL_append, hnl, List.nil_append,
        stripNL_oneLine b hbl]
      exact trimStr_append_blank _ b hb

/-- The steps of a text after steps that are read the same way. -/
theorem createStepsLoop_swap (L : Lib) (front : List Str) (P P2 : Str) (tl : List Str)
    (h1 : trimStr P ≠ []) (h2 : trimStr P2 ≠ []) (h : ∀ j, createStep L j P = createStep L j P2) :
    ∀ j, createStepsLoop L j (front ++ P :: tl) = createStepsLoop L j (front ++ P2 :: tl) := by
  induction front with
  | nil =>
    intro j
    rw [List.nil_append, List.nil_append, createStepsLoop, createStepsLoop, if_neg h1, if_neg h2, h j]
  | cons s front ih =>
    intro j
    rw [List.cons_append, List.cons_append, createStepsLoop, createStepsLoop]
    by_cases hb : trimStr s = []
    · rw [if_pos hb, if_pos hb]
      exact ih j
    · rw [if_neg hb, if_neg hb]
      rcases createStep L j s with ⟨j2, oe⟩
      cases oe with
      | some e => rfl
      | none => exact ih j2

/-- Where the next line starts a step or a row, or the text ends, the piece of the step
that is being read ends with an empty row. -/
theorem splitLineStart_next (post : Str)
    (hpost : post = [] ∨ (∃ r, post = '-' :: ' ' :: r) ∨ (∃ r, post = ' ' :: ' ' :: r)) :
    ∃ hd tl, (∀ acc, splitLineStart '-' ' ' true acc post = (acc.reverse ++ hd) :: tl) ∧
      ∃ tl2, ∀ acc, splitLineStart ' ' ' ' true acc hd = acc.reverse :: tl2 := by
  rcases hpost with h | ⟨r, h⟩ | ⟨r, h⟩
  · subst h
    exact ⟨[], [], fun acc => by simp [splitLineStart], [], fun acc => by simp [splitLineStart]⟩
  · subst h
    refine ⟨[], splitLineStart '-' ' ' false [] r, fun acc => ?_, [], fun acc => by simp [splitLineStart]⟩
    rw [splitLineStart_match, List.append_nil]
  · subst h
    obtain ⟨hd, tl, hacc⟩ := splitLineStart_acc '-' ' ' r.length r (Nat.le_refl _) false
    refine ⟨' ' :: ' ' :: hd, tl, fun acc => ?_, splitLineStart ' ' ' ' false [] hd, fun acc => ?_⟩
    · rw [splitLineStart_step '-' ' ' true acc ' ' (' ' :: r) (by simp),
        splitLineStart_step '-' ' ' _ (' ' :: acc) ' ' r (by simp)]
      show splitLineStart '-' ' ' false (' ' :: ' ' :: acc) r = _
      rw [hacc]
      simp
    · rw [splitLineStart_match]

/-- C23: a blank line at the start of a text that begins with a step is not ignored. A
line feed, alone or after a space and a tab, before the text `- GET https://x/a`
makes a piece of its own before the first step; `strings.Trim` with the cutset of
space and tab does not empty it, `createStep` runs on it, and the job gets an empty
step before the GET step. The same blank lines between two steps and at the end of
the text leave the job as it is. -/
theorem C23_leading_blank_line_adds_a_step :
    parseJob demoLib ⟨oneGetText, none⟩
      = .ok { Job.init [] with
              steps := [{ Step.zero with method := "GET".toList, url := "https://x/a".toList }] } ∧
    parseJob demoLib ⟨'\n' :: oneGetText, none⟩
      = .ok { Job.init [] with
              steps := [Step.zero,
                        { Step.zero with method := "GET".toList, url := "https://x/a".toList }] } ∧
    parseJob demoLib ⟨' ' :: '\t' :: '\n' :: oneGetText, none⟩
      = .ok { Job.init [] with
              steps := [Step.zero,
                        { Step.zero with method := "GET".toList, url := "https://x/a".toList }] } ∧
    [Step.zero, { Step.zero with method := "GET".toList, url := "https://x/a".toList }]
      ≠ [{ Step.zero with method := "GET".toList, url := "https://x/a".toList }] ∧
    parseJob demoLib ⟨oneGetText ++ '\n' :: oneGetText, none⟩
      = parseJob demoLib ⟨oneGetText ++ oneGetText, none⟩ ∧
    parseJob demoLib ⟨oneGetText ++ ' ' :: '\t' :: '\n' :: oneGetText, none⟩
      = parseJob demoLib ⟨oneGetText ++ oneGetText, none⟩ ∧
    parseJob demoLib ⟨oneGetText ++ " \t\n".toList, none⟩ = parseJob demoLib ⟨oneGetText, none⟩ := by
  refine ⟨by rfl, by rfl, by rfl, by decide, by rfl, by rfl, by rfl⟩

/-- A blank line (spaces and tabs, then a line feed) put after a line feed of a job text
and before a step, before a row of a step or at the end of the text, and a line
feed alone put after any line feed of the text, does not change what `parseJob`
returns: the same job or the same error. -/
theorem blank_line_keeps_job (L : Lib) (vars : Option Vars) (pre b post : Str)
    (hb : Blank b)
    (hpost : b = [] ∨ post = [] ∨ (∃ r, post = '-' :: ' ' :: r) ∨ (∃ r, post = ' ' :: ' ' :: r)) :
    parseJob L ⟨pre ++ '\n' :: (b ++ '\n' :: post), vars⟩ = parseJob L ⟨pre ++ '\n' :: post, vars⟩ := by
  obtain ⟨front, acc1, hcut⟩ :=
    splitLineStart_cut '-' ' ' (by decide) (by decide) pre.length pre (Nat.le_refl _) true []
  have hbl := blank_oneLine b hb
  have hns : ∀ r, b ≠ '-' :: ' ' :: r := by
    intro r e
    have := hb '-' (by rw [e]; exact List.mem_cons_self _ _)
    revert this
    decide
  have hpieces : ∃ hd tl, (∀ acc, splitLineStart '-' ' ' true acc post = (acc.reverse ++ hd) :: tl) ∧
      (b = [] ∨ ∃ tl2, ∀ acc, splitLineStart ' ' ' ' true acc hd = acc.reverse :: tl2) := by
    rcases hpost with h0 | h
    · obtain ⟨hd, tl, hacc⟩ := splitLineStart_acc '-' ' ' post.length post (Nat.le_refl _) true
      exact ⟨hd, tl, hacc, Or.inl h0⟩
    · obtain ⟨hd, tl, hacc, h2⟩ := splitLineStart_next post h
      exact ⟨hd, tl, hacc, Or.inr h2⟩
  obtain ⟨hd, tl, hacc, hhd⟩ := hpieces
  have e1 : splitLineStart '-' ' ' true [] (pre ++ '\n' :: post)
      = front ++ (acc1.reverse ++ '\n' :: hd) :: tl := by
    rw [hcut, hacc]
    simp
  have e2 : splitLineStart '-' ' ' true [] (pre ++ '\n' :: (b ++ '\n' :: post))
      = front ++ (acc1.reverse ++ '\n' :: (b ++ '\n' :: hd)) :: tl := by
    rw [hcut, splitLineStart_noSep '-' ' ' (by decide) (by decide) b hbl hns, hacc]
    simp
  have hstep : ∀ j, createStep L j (acc1.reverse ++ '\n' :: (b ++ '\n' :: hd))
      = createStep L j (acc1.reverse ++ '\n' :: hd) := by
    intro j
    unfold createStep
    rw [createStepRows_blank_line L acc1.reverse b hd hb hhd]
  have hloop := createStepsLoop_swap L front _ _ tl (trimStr_newline_ne _ _) (trimStr_newline_ne _ _)
    hstep (Job.init (vars.getD []))
  unfold parseJob createSteps
  simp only []
  rw [e1, e2, hloop]

/-- The text of Scenario 1 has a line feed alone between its two steps; a blank line of
a space and a tab before a step and before a row. -/
theorem blank_line_keeps_job_scenario1 :
    "- GET https://\x7b\x7burl\x7d\x7d\n  var \x7b \"name\": \"url\", \"value\": \"google.com\" \x7d".toList
      ++ '\n' :: ([] ++ '\n' :: "- POST https://www.sunet.se/".toList) = scenario1Text ∧
    parseJob demoLib ⟨"- GET https://\x7b\x7burl\x7d\x7d\n  var \x7b \"name\": \"url\", \"value\": \"google.com\" \x7d".toList
        ++ '\n' :: ([] ++ '\n' :: "- POST https://www.sunet.se/".toList), none⟩
      = parseJob demoLib ⟨"- GET https://\x7b\x7burl\x7d\x7d\n  var \x7b \"name\": \"url\", \"value\": \"google.com\" \x7d".toList
        ++ '\n' :: "- POST https://www.sunet.se/".toList, none⟩ ∧
    parseJob demoLib ⟨"- GET https://x/a".toList ++ '\n' :: (" \t".toList ++ '\n' :: oneGetText), none⟩
      = parseJob demoLib ⟨"- GET https://x/a".toList ++ '\n' :: oneGetText, none⟩ ∧
    parseJob condLib ⟨"- GET https://x/a".toList
        ++ '\n' :: ("   ".toList ++ '\n' :: (' ' :: ' ' :: 'i' :: 'f' :: ' ' :: ifText "exists".toList)), none⟩
      = parseJob condLib ⟨"- GET https://x/a".toList
        ++ '\n' :: (' ' :: ' ' :: 'i' :: 'f' :: ' ' :: ifText "exists".toList), none⟩ :=
  ⟨by decide,
   blank_line_keeps_job demoLib none _ [] _ (by decide) (Or.inl rfl),
   blank_line_keeps_job demoLib none _ " \t".toList _ (by decide)
     (Or.inr (Or.inr (Or.inl ⟨_, rfl⟩))),
   blank_line_keeps_job condLib none _ "   ".toList _ (by decide)
     (Or.inr (Or.inr (Or.inr ⟨_, rfl⟩)))⟩

/-! ### Steps without url, global headers and the loop counter -/

theorem loopFields_same (j j1 : Job) (hp : LoopFields j) (hs : SameLoop j j1) : LoopFields j1 := by
  obtain ⟨h1, h2, h3⟩ := hs
  unfold LoopFields
  rw [h1, h2, h3]
  exact hp

theorem betweenSteps_loopFields (j : Job) (h : BetweenSteps j) : LoopFields j := by
  rcases h with h | h
  · exact Or.inl h
  · exact Or.inr (Or.inl h)

theorem loopFields_counter (j : Job) (h : LoopFields j) : j.forcounter = 0 ∨ j.forcounter = 1 := by
  rcases h with ⟨h, _, _⟩ | ⟨h, _, _⟩ | ⟨h, _, _⟩
  · exact Or.inl h
  · exact Or.inr h
  · exact Or.inl h

/-- A row of a step keeps the loop fields in one of their three states. -/
theorem createStepLine_fields (L : Lib) (j : Job) (stp : Step) (r : Str) (j1 : Job) (stp1 : Step)
    (hp : LoopFields j) (h : createStepLine L j stp r = .ok (j1, stp1)) : LoopFields j1 := by
  unfold createStepLine at h
  simp only [] at h
  generalize toLower ((splitN 2 (trimStr r)).headD []) = t at h
  generalize (if (splitN 2 (trimStr r)).length > 1 then (splitN 2 (trimStr r)).getD 1 [] else []) = a at h
  by_cases ht : t = []
  · rw [if_pos ht] at h
    cases h
    exact hp
  · rw [if_neg ht] at h
    cases hf : lookup stepTypes t with
    | none => rw [hf] at h; cases h
    | some f =>
      rw [hf] at h
      simp only [] at h
      by_cases h1 : t = "for".toList
      · subst h1
        have hfe : f = startForLoop := by
          have : lookup stepTypes "for".toList = some startForLoop := rfl
          rw [this] at hf
          injection hf with hf
          exact hf.symm
        subst hfe
        have hs := startForLoop_ok L j stp a j1 stp1 h
        rcases hp with ⟨hc, _, hr⟩ | ⟨_, ha, _⟩ | ⟨_, ha, _⟩
        · refine Or.inr (Or.inl ⟨?_, hs.2.2.1, ?_⟩)
          · rw [hs.2.1, hc]; rfl
          · rw [hs.2.2.2, hr]
        · exact absurd hs.1 ha
        · exact absurd hs.1 ha
      · by_cases h2 : t = "forend".toList
        · subst h2
          have hfe : f = endForLoop := by
            have : lookup stepTypes "forend".toList = some endForLoop := rfl
            rw [this] at hf
            injection hf with hf
            exact hf.symm
          subst hfe
          have hs := endForLoop_ok L j stp a j1 stp1 h
          have hone := hs.1
          rcases hp with ⟨hc, _, _⟩ | ⟨hc, ha, _⟩ | ⟨hc, _, _⟩
          · omega
          · refine Or.inr (Or.inr ⟨?_, ?_, hs.2.2.2⟩)
            · rw [hs.2.1, hc]; rfl
            · rw [hs.2.2.1]; exact ha
          · omega
        · exact loopFields_same j j1 hp (sameLoop_stepTypes L t f j stp a j1 stp1 hf h1 h2 h)

/-- The rows of a step keep the loop fields in one of their three states, also in
the job that is left next to an error. -/
theorem createStepRows_fields (L : Lib) (rows : List Str) (j : Job) (stp : Step)
    (hp : LoopFields j) : LoopFields (createStepRows L j stp rows).1 := by
  induction rows generalizing j stp with
  | nil => exact hp
  | cons row rows ih =>
    rw [createStepRows]
    cases hl : createStepLine L j stp (replaceAll row ['\n'] []) with
    | error e => exact hp
    | ok p =>
      obtain ⟨j2, stp2⟩ := p
      exact ih j2 stp2 (createStepLine_fields L j stp _ j2 stp2 hp hl)

theorem leave_between (j2 : Job) (hp : LoopFields j2) :
    BetweenSteps (if j2.forRemoveNextStep then { j2 with forRemoveNextStep := false, addTo := [] }
      else j2) := by
  rcases hp with ⟨hc, ha, hr⟩ | ⟨hc, ha, hr⟩ | ⟨hc, ha, hr⟩
  · rw [hr]
    exact Or.inl ⟨hc, ha, hr⟩
  · rw [hr]
    exact Or.inr ⟨hc, ha, hr⟩
  · rw [hr]
    exact Or.inl ⟨hc, rfl, rfl⟩

/-- The end of a step leaves the loop fields in one of their three states, and in
one of the two states between steps when the step has no error. -/
theorem createStepEnd_fields (r : Job × Step × Option ParseError) (hp : LoopFields r.1) :
    LoopFields (createStepEnd r).1 ∧ ((createStepEnd r).2 = none → BetweenSteps (createStepEnd r).1) := by
  obtain ⟨j, stp, oe⟩ := r
  cases oe with
  | some e => exact ⟨hp, fun h => by cases h⟩
  | none =>
    have hsame : SameLoop j (if j.addTo.length > 0 then addStepToForLoop j stp else addStepToJob j stp) := by
      split_ifs <;> exact ⟨rfl, rfl, rfl⟩
    have hb := leave_between _ (loopFields_same _ _ hp hsame)
    exact ⟨betweenSteps_loopFields _ hb, fun _ => hb⟩

theorem createStep_fields (L : Lib) (j : Job) (s : Str) (hp : LoopFields j) :
    LoopFields (createStep L j s).1 ∧ ((createStep L j s).2 = none → BetweenSteps (createStep L j s).1) :=
  createStepEnd_fields _ (createStepRows_fields L _ j Step.zero hp)

/-- The steps of a text leave the loop fields in one of their three states, and in
one of the two states between steps when no step has an error. -/
theorem createStepsLoop_fields (L : Lib) (steps : List Str) (j : Job) (hp : BetweenSteps j) :
    LoopFields (createStepsLoop L j steps).1 ∧
    ((createStepsLoop L j steps).2 = none → BetweenSteps (createStepsLoop L j steps).1) := by
  induction steps generalizing j with
  | nil => exact ⟨betweenSteps_loopFields j hp, fun _ => hp⟩
  | cons s rest ih =>
    rw [createStepsLoop]
    by_cases hb : trimStr s = []
    · rw [if_pos hb]
      exact ih j hp
    · rw [if_neg hb]
      have hs := createStep_fields L j s (betweenSteps_loopFields j hp)
      rcases hc : createStep L j s with ⟨j2, oe⟩
      rw [hc] at hs
      cases oe with
      | some e => exact ⟨hs.1, fun h => by cases h⟩
      | none => exact ih j2 (hs.2 rfl)

theorem betweenSteps_init (vars : Vars) : BetweenSteps (Job.init vars) := Or.inl ⟨rfl, rfl, rfl⟩

/-- C33: a step whose url is empty, as the steps stored for `for`, `forend`, `var` and
the other directive rows are, is not fetched: `runFetchJob` returns the zero
`ResultStep` (status 0, empty method and URL) and no error, the transport sees no
request, and the step and the job, with its variables and cookies, stay as they were. -/
theorem C33_empty_url_is_skipped (L : Lib) (c : Transport) (w : World) (s : InnerStep)
    (h : s.url = []) :
    runFetchJob L c w s = (ResultStep.zero, none, s, w) ∧
    (runFetchJob L c w s).1.status = 0 ∧ (runFetchJob L c w s).1.method = [] ∧
    (runFetchJob L c w s).1.url = [] ∧ (runFetchJob L c w s).2.1 = none ∧
    (runFetchJob L c w s).2.2.2.log = w.log ∧
    (runFetchJob L c w s).2.2.2.job.vars = w.job.vars ∧
    (runFetchJob L c w s).2.2.2.job.cookies = w.job.cookies := by
  have e : runFetchJob L c w s = (ResultStep.zero, none, s, w) := by
    rw [runFetchJob, if_pos h]
  rw [e]
  exact ⟨rfl, rfl, rfl, rfl, rfl, rfl, rfl, rfl⟩

theorem C33_empty_url_is_skipped_witness :
    runFetchJob demoLib transport200 ⟨jobIdSid, []⟩ InnerStep.zero
        = (ResultStep.zero, none, InnerStep.zero, ⟨jobIdSid, []⟩) ∧
    (runFetchJob demoLib transport200 ⟨jobIdSid, []⟩ InnerStep.zero).2.2.2.log = [] ∧
    (runFetchJob demoLib transport200 ⟨jobIdSid, []⟩ InnerStep.zero).2.2.2.job.vars
        = [("id".toList, "7".toList)] ∧
    (runFetchJob demoLib transport200 ⟨jobIdSid, []⟩ InnerStep.zero).2.2.2.job.cookies
        = [cookieOf "sid" "1"] := by
  have h := C33_empty_url_is_skipped demoLib transport200 ⟨jobIdSid, []⟩ InnerStep.zero rfl
  exact ⟨h.1, h.2.2.2.2.2.1, h.2.2.2.2.2.2.1, h.2.2.2.2.2.2.2⟩

/-- C34: `replaceFromVariables` writes the substituted values into `job.globalHeaders`
when the step has no local header: `append(j.globalHeaders, s.headers...)` stays in
the array of the global headers. The text with `@header X-Id: {{name}}` before the
loop of Scenario 2 parses to `globalHeaderJob`; with `name = a` the call leaves
`X-Id: a` in `job.globalHeaders`; the run sends `X-Id: a` with all three requests to
`https://x/a`, `https://x/b`, `https://x/c` and ends with `X-Id: a` as the global
header. A step with a local header needs a larger array and leaves the global
headers as they were. -/
theorem C34_global_header_substituted_in_place :
    parseJob headerLib ⟨globalHeaderText, none⟩ = .ok globalHeaderJob ∧
    (replaceFromVariables headerLib
        { globalHeaderJob with vars := [("name".toList, "a".toList)] } scenario2Get).1.globalHeaders
      = ⟨[⟨"X-Id".toList, "a".toList⟩], []⟩ ∧
    (replaceFromVariables headerLib
        { globalHeaderJob with vars := [("name".toList, "b".toList)],
                               globalHeaders := ⟨[⟨"X-Id".toList, "a".toList⟩], []⟩ } scenario2Get).2.headers
      = [⟨"X-Id".toList, "a".toList⟩] ∧
    (fetchJob headerLib transport200 globalHeaderJob).world.log.map (fun (r : Request) => r.url)
      = ["https://x/a".toList, "https://x/b".toList, "https://x/c".toList] ∧
    seenIds (fetchJob headerLib transport200 globalHeaderJob).world.log
      = ["a".toList, "a".toList, "a".toList] ∧
    (fetchJob headerLib transport200 globalHeaderJob).world.job.globalHeaders
      = ⟨[⟨"X-Id".toList, "a".toList⟩], []⟩ ∧
    (replaceFromVariables headerLib
        { globalHeaderJob with vars := [("name".toList, "a".toList)] } stepLocalHeader).1.globalHeaders
      = globalHeaderJob.globalHeaders := by
  refine ⟨rfl, ?_, ?_, ?_, ?_, ?_, ?_⟩ <;> decide

/-- C35: at every point of every parse, that is after any steps of a text and any
rows of a further step, with or without an error, `forcounter` is 0 or 1 and not
negative; the test `forcounter < 0` at the end of `createSteps` is false, so
`createSteps` is the function without that branch; and the job of a successful parse
has `forcounter = 0`, an empty `addTo` and `forRemoveNextStep = false`. -/
theorem C35_forcounter_is_0_or_1 (L : Lib) (vars : Option Vars) (text : Str) :
    (∀ (steps rows : List Str) (stp : Step),
      ((createStepRows L (createStepsLoop L (Job.init (vars.getD [])) steps).1 stp rows).1.forcounter = 0 ∨
       (createStepRows L (createStepsLoop L (Job.init (vars.getD [])) steps).1 stp rows).1.forcounter = 1) ∧
      ¬ (createStepRows L (createStepsLoop L (Job.init (vars.getD [])) steps).1 stp rows).1.forcounter < 0) ∧
    ¬ (createStepsLoop L (Job.init (vars.getD [])) (splitLineStart '-' ' ' true [] text)).1.forcounter < 0 ∧
    createSteps L (Job.init (vars.getD [])) ⟨text, vars⟩
      = (match createStepsLoop L (Job.init (vars.getD [])) (splitLineStart '-' ' ' true [] text) with
         | (j1, some e) => (j1, some e)
         | (j1, none) => if j1.forcounter > 0 then (j1, some .forWithoutForend) else (j1, none)) ∧
    (∀ j, parseJob L ⟨text, vars⟩ = .ok j →
      j.forcounter = 0 ∧ j.addTo = [] ∧ j.forRemoveNextStep = false) := by
  have hall : ∀ steps : List Str, LoopFields (createStepsLoop L (Job.init (vars.getD [])) steps).1 :=
    fun steps => (createStepsLoop_fields L steps _ (betweenSteps_init _)).1
  have hneg : ¬ (createStepsLoop L (Job.init (vars.getD [])) (splitLineStart '-' ' ' true [] text)).1.forcounter < 0 := by
    rcases loopFields_counter _ (hall (splitLineStart '-' ' ' true [] text)) with h | h <;> omega
  refine ⟨fun steps rows stp => ?_, hneg, ?_, fun j h => ?_⟩
  · have h := loopFields_counter _ (createStepRows_fields L rows _ stp (hall steps))
    refine ⟨h, ?_⟩
    rcases h with h | h <;> omega
  · unfold createSteps
    rcases hc : createStepsLoop L (Job.init (vars.getD [])) (splitLineStart '-' ' ' true [] text)
      with ⟨j1, oe⟩
    rw [hc] at hneg
    cases oe with
    | some e => rfl
    | none =>
      simp only []
      rw [if_neg hneg]
  · have hok := parseJob_ok L ⟨text, vars⟩ j h
    have hb := (createStepsLoop_fields L (splitLineStart '-' ' ' true [] text) _
      (betweenSteps_init (vars.getD []))).2
    rw [hok.1] at hb
    rcases hb rfl with ⟨hc, ha, hr⟩ | ⟨hc, _, _⟩
    · exact ⟨hc, ha, hr⟩
    · have h0 : j.forcounter = 0 := hok.2
      have h1 : j.forcounter = 1 := hc
      omega

theorem C35_forcounter_is_0_or_1_witness :
    parseJob demoLib ⟨scenario2Text, none⟩ = .ok scenario2Job ∧
    scenario2Job.forcounter = 0 ∧ scenario2Job.addTo = [] ∧ scenario2Job.forRemoveNextStep = false :=
  ⟨rfl, (C35_forcounter_is_0_or_1 demoLib none scenario2Text).2.2.2 scenario2Job rfl⟩

/-! ### Adding a job -/

/-- C31: on a server whose job queue exists, `AddJob` returns an error exactly when
`parseJob` fails on the text and the variables; then it returns the error of
`parseJob` and the server as it was, so no goroutine is started, and the job queue
and the counter of submitted jobs are unchanged. When `parseJob` succeeds one
goroutine `workerAddJob` is started with the parsed job. -/
theorem C31_addJob_fails_iff_parse_fails (L : Lib) (srv : Server) (ch : Chan Job) (s : Str)
    (v : Option Vars) (hq : srv.parsedJobs = some ch) :
    ((AddJob L srv s v).2 ≠ none ↔ ∃ e, parseJob L ⟨s, v⟩ = .error e) ∧
    (∀ e, parseJob L ⟨s, v⟩ = .error e →
      AddJob L srv s v = (srv, some (.parse e)) ∧
      (AddJob L srv s v).1.started = srv.started ∧
      (AddJob L srv s v).1.parsedJobs = srv.parsedJobs ∧
      (AddJob L srv s v).1.addedJobsCounter = srv.addedJobsCounter ∧
      (AddJob L srv s v).1.wgRun = srv.wgRun) ∧
    (∀ j, parseJob L ⟨s, v⟩ = .ok j →
      AddJob L srv s v = ({ srv with started := srv.started ++ [.workerAddJob j] }, none)) := by
  have hbad : ∀ e, parseJob L ⟨s, v⟩ = .error e → AddJob L srv s v = (srv, some (.parse e)) := by
    intro e he
    simp only [AddJob, hq, he]
  have hgood : ∀ j, parseJob L ⟨s, v⟩ = .ok j →
      AddJob L srv s v = ({ srv with started := srv.started ++ [.workerAddJob j] }, none) := by
    intro j hj
    simp only [AddJob, hq, hj]
  refine ⟨?_, fun e he => ?_, hgood⟩
  · cases hp : parseJob L ⟨s, v⟩ with
    | error e =>
      rw [hbad e hp]
      exact ⟨fun _ => ⟨e, rfl⟩, fun _ h => by cases h⟩
    | ok j =>
      rw [hgood j hp]
      exact ⟨fun h => absurd rfl h, fun ⟨e, he⟩ => by cases he⟩
  · rw [hbad e he]
    exact ⟨rfl, rfl, rfl, rfl, rfl⟩

theorem C31_addJob_fails_iff_parse_fails_witness :
    (AddJob demoLib (New demoClient 1 30000 none).1 openText none).2
      = some (.parse .forWithoutForend) ∧
    (AddJob demoLib (New demoClient 1 30000 none).1 openText none).1.started = [] ∧
    (AddJob demoLib (New demoClient 1 30000 none).1 openText none).1.parsedJobs = some ⟨[], false⟩ ∧
    (AddJob demoLib (New demoClient 1 30000 none).1 openText none).1.addedJobsCounter = 0 := by
  have h := (C31_addJob_fails_iff_parse_fails demoLib (New demoClient 1 30000 none).1 ⟨[], false⟩
    openText none rfl).2.1 .forWithoutForend rfl
  exact ⟨congrArg Prod.snd h.1, h.2.1, h.2.2.1, h.2.2.2.1⟩

/-! ### Waiting for the submitted jobs -/

/-- C32: `WaitDone` can return before a submitted job is queued: `wgRun.Add(1)` is
called by the goroutine `workerAddJob`, and `wgRes.Add(1)` by `workerFetch`. One text
that parses is submitted and the server is started; no goroutine has run, both
counters are 0, so `WaitDone` returns at once after closing the queue, with no result
and `GetNumberOfJobs = 0`. When `workerAddJob` runs afterwards it panics in the send
on the closed queue; when the worker runs instead it hands in no result. In the
schedule `friendlyActs` the same calls end with the one result and
`GetNumberOfJobs = 1`. -/
theorem C32_waitDone_can_return_before_the_job_is_queued :
    (AddJob demoLib (New demoClient 1 30000 none).1 scenario2Text none).2 = none ∧
    srvOneJob.wgRun = 0 ∧ srvOneJob.wgRes = 0 ∧
    afterEarlyWait.panicked = false ∧
    GetResults afterEarlyWait.server = [] ∧
    GetNumberOfJobs afterEarlyWait.server = 0 ∧
    afterEarlyWait.server.parsedJobs = some ⟨[], true⟩ ∧
    (runActs demoLib [.run 0] ⟨afterEarlyWait.server, [], none⟩).map Sys.view
      = some ([], 0, 1, 0, [], some "send on closed channel".toList) ∧
    (runActs demoLib [.run 4, .run 4, .handResults 4] ⟨afterEarlyWait.server, [], none⟩).map Sys.view
      = some ([], 0, 0, 0, [.start, .start, .start, .start, .returned], none) ∧
    (runActs demoLib friendlyActs ⟨srvOneJob, [], none⟩).map Sys.view
      = some ([], 1, 0, 1, [.returned, .start, .start, .start, .receive [scenario2Timed]], none) ∧
    afterFriendlyWait.panicked = false ∧
    GetResults afterFriendlyWait.server = [scenario2Timed] ∧
    GetNumberOfJobs afterFriendlyWait.server = 1 ∧
    afterFriendlyWait.server.wgRes = 0 := by
  refine ⟨rfl, rfl, rfl, rfl, rfl, rfl, rfl, rfl, rfl, rfl, rfl, ?_, ?_, ?_⟩ <;> decide

end Steptest
